import Mathlib

/-!
# ray: Raycast extension commands as a command line

A shallow embedding of `main.go` and a verification of its argument contract,
its argument mapping, the query it builds and the action it dispatches.

Go strings are byte sequences, so a string is a list of bytes here.  The
handler `RunE` is split at its intermediate values (`deeplinkArgs`, `query`,
`deeplinkUrl`) so that each of them can be named in a statement; `RunE` itself
is their composition, in the order of the source.
-/

namespace Ray

/-! ## Strings -/

/-- One byte of a Go string. -/
abbrev Byte := Fin 256

/-- A Go `string` (equally a `[]byte`): a finite sequence of bytes. -/
abbrev GoString := List Byte

/-- The byte of an ASCII character. -/
def ch (c : Char) : Byte := Fin.ofNat c.toNat

/-- `utf8.EncodeRune`: the UTF-8 encoding of a code point; a surrogate or a value
above U+10FFFF is encoded as U+FFFD. -/
def EncodeRune (r : Nat) : GoString :=
  if r ≤ 0x7F then [Fin.ofNat r]
  else if r ≤ 0x7FF then [Fin.ofNat (0xC0 + r / 64), Fin.ofNat (0x80 + r % 64)]
  else if r > 0x10FFFF ∨ (0xD800 ≤ r ∧ r ≤ 0xDFFF) then [0xEF, 0xBF, 0xBD]
  else if r ≤ 0xFFFF then
    [Fin.ofNat (0xE0 + r / 4096), Fin.ofNat (0x80 + r / 64 % 64), Fin.ofNat (0x80 + r % 64)]
  else
    [Fin.ofNat (0xF0 + r / 262144), Fin.ofNat (0x80 + r / 4096 % 64),
     Fin.ofNat (0x80 + r / 64 % 64), Fin.ofNat (0x80 + r % 64)]

/-- A string literal of the source, as the bytes of its UTF-8 encoding. -/
def lit (s : String) : GoString := s.data.flatMap (fun c => EncodeRune c.toNat)

/-- Go's `<=` on strings: lexicographic comparison of the bytes. -/
def bytesLe : GoString → GoString → Bool
  | [], _ => true
  | _ :: _, [] => false
  | a :: s, b :: t => if a < b then true else if b < a then false else bytesLe s t

deriving instance DecidableEq for Except

/-! ## Go maps -/

/-- A Go `map[string]V`: the entries in the order their keys were first set.  The
keys are distinct as long as the map is only changed through `GoMap.set`. -/
abbrev GoMap (V : Type) := List (GoString × V)

/-- The assignment `m[k] = v`. -/
def GoMap.set {V : Type} : GoMap V → GoString → V → GoMap V
  | [], k, v => [(k, v)]
  | (k', v') :: rest, k, v =>
    if k' = k then (k, v) :: rest else (k', v') :: GoMap.set rest k v

/-- The lookup `m[k]`, with `none` for an absent key. -/
def GoMap.get {V : Type} : GoMap V → GoString → Option V
  | [], _ => none
  | (k', v') :: rest, k => if k' = k then some v' else GoMap.get rest k

/-- The entries of a map in increasing order of their keys: the order in which
`json.Marshal` and `url.Values.Encode` visit a map after sorting its keys. -/
def GoMap.sorted {V : Type} (m : GoMap V) : List (GoString × V) :=
  m.insertionSort (fun a b => bytesLe a.1 b.1 = true)

/-! ## Data model (`main.go`, lines 22-48) -/

/-- The anonymous element type of `RaycastCommand.Arguments`. -/
structure Argument where
  Name : GoString
  /-- The Go field `Type` (an `ArgumentType`, a string). -/
  Typ : GoString
  Placeholder : GoString
  Required : Bool
deriving DecidableEq

/-- The Go struct `RaycastCommand`. -/
structure RaycastCommand where
  Name : GoString
  Title : GoString
  Description : GoString
  Mode : GoString
  Arguments : List Argument
deriving DecidableEq

/-- The Go struct `RaycastManifest`. -/
structure RaycastManifest where
  Name : GoString
  Author : GoString
  Title : GoString
  Description : GoString
  Commands : List RaycastCommand
deriving DecidableEq

/-! ## Errors, the outside world and effects -/

/-- Go `error` values the program can return, by the place they come from. -/
inductive GoError where
  /-- An error made by `fmt.Errorf` with the given message. -/
  | errorf (msg : GoString)
  /-- The `*url.Error` of `url.Parse`; `detail` is the text the parser rejects. -/
  | urlParse (detail : GoString)
  /-- The error of `io.ReadAll(os.Stdin)`. -/
  | stdinRead (msg : GoString)
  /-- The error of `(*exec.Cmd).Run`. -/
  | execRun (msg : GoString)
  /-- An error of `os.UserHomeDir`, `filepath.Glob` or `os.Open`. -/
  | fileSystem (msg : GoString)
  /-- The error of `(*json.Decoder).Decode`. -/
  | jsonDecode (msg : GoString)
deriving DecidableEq

/-- Standard input as the handler sees it. -/
inductive Stdin where
  /-- Attached to an interactive terminal: `isatty.IsTerminal` is true. -/
  | terminal
  /-- Not a terminal; `io.ReadAll` returns these bytes. -/
  | piped (content : GoString)
  /-- Not a terminal; `io.ReadAll` fails. -/
  | failing (msg : GoString)
deriving DecidableEq

/-- The operating system services the handler calls. -/
structure OS where
  /-- Standard input. -/
  stdin : Stdin
  /-- Running `pbcopy` with the given standard input: `none` when `Run` returns
  nil, otherwise the message of its error. -/
  pbcopy : GoString → Option GoString
  /-- Running `open` with the given argument: `none` when `Run` returns nil,
  otherwise the message of its error. -/
  openUrl : GoString → Option GoString

/-- A dispatch action performed by the handler. -/
inductive Effect where
  /-- The bytes written to standard output by `fmt.Print`. -/
  | print (s : GoString)
  /-- The process `pbcopy` was run with this standard input. -/
  | copy (s : GoString)
  /-- The process `open` was run with this argument. -/
  | openUrl (s : GoString)
deriving DecidableEq

/-- What a handler run leaves behind: the dispatch actions performed, in order,
and the returned `error` (`none` for `nil`). -/
structure Outcome where
  effects : List Effect
  err : Option GoError
deriving DecidableEq

/-- The two flag variables bound by `BoolVar`, as `RunE` reads them. -/
structure Flags where
  Print : Bool
  Copy : Bool
deriving DecidableEq

/-! ## `strings` and `net/url`

The functions of Go's `net/url` that the handler reaches through `url.Parse`,
`url.Values.Set`, `url.Values.Encode` and `URL.String`. -/

/-- `strings.Cut` with a one-byte separator: the text before the first
separator, the text after it, and whether it was found. -/
def Cut : GoString → Byte → GoString × GoString × Bool
  | [], _ => ([], [], false)
  | b :: rest, sep =>
    if b = sep then ([], rest, true)
    else ((b :: (Cut rest sep).1), (Cut rest sep).2.1, (Cut rest sep).2.2)

/-- `stringContainsCTLByte`: some byte is below 0x20 or is 0x7f. -/
def stringContainsCTLByte (s : GoString) : Bool :=
  s.any (fun b => decide (b < ch ' ') || decide (b = 0x7f))

/-- The escaping modes of `net/url`. -/
inductive encoding where
  | encodePath
  | encodePathSegment
  | encodeHost
  | encodeZone
  | encodeUserPassword
  | encodeQueryComponent
  | encodeFragment
deriving DecidableEq

/-- The first test of `shouldEscape`: an ASCII letter or digit. -/
def isAlnum (c : Byte) : Bool :=
  (decide (ch 'a' ≤ c) && decide (c ≤ ch 'z')) ||
  (decide (ch 'A' ≤ c) && decide (c ≤ ch 'Z')) ||
  (decide (ch '0' ≤ c) && decide (c ≤ ch '9'))

/-- `shouldEscape(c, mode)`. -/
def shouldEscape (c : Byte) (mode : encoding) : Bool :=
  if isAlnum c then false
  else if (mode = .encodeHost ∨ mode = .encodeZone) ∧
      (c = 0x27 ∨ (lit "!$&()*+,;=:[]<>\"").contains c) then false
  else if (lit "-_.~").contains c then false
  else if (lit "$&+,/:;=?@").contains c then
    match mode with
    | .encodePath => decide (c = ch '?')
    | .encodePathSegment =>
      decide (c = ch '/') || decide (c = ch ';') || decide (c = ch ',') || decide (c = ch '?')
    | .encodeUserPassword =>
      decide (c = ch '@') || decide (c = ch '/') || decide (c = ch '?') || decide (c = ch ':')
    | .encodeQueryComponent => true
    | .encodeFragment => false
    | _ => true
  else if mode = .encodeFragment ∧ (lit "!()*").contains c then false
  else true

/-- The table `upperhex`. -/
def upperhex (n : Nat) : Byte := (lit "0123456789ABCDEF").getD n 0

/-- `ishex`. -/
def ishex (c : Byte) : Bool :=
  (decide (ch '0' ≤ c) && decide (c ≤ ch '9')) ||
  (decide (ch 'a' ≤ c) && decide (c ≤ ch 'f')) ||
  (decide (ch 'A' ≤ c) && decide (c ≤ ch 'F'))

/-- `unhex`, as a number below 16. -/
def unhex (c : Byte) : Nat :=
  if ch '0' ≤ c ∧ c ≤ ch '9' then c.val - 48
  else if ch 'a' ≤ c ∧ c ≤ ch 'f' then c.val - 97 + 10
  else if ch 'A' ≤ c ∧ c ≤ ch 'F' then c.val - 65 + 10
  else 0

/-- What the second loop of `escape` writes for one byte. -/
def escapeByte (c : Byte) (mode : encoding) : GoString :=
  if shouldEscape c mode then
    if c = ch ' ' ∧ mode = .encodeQueryComponent then [ch '+']
    else [ch '%', upperhex (c.val / 16), upperhex (c.val % 16)]
  else [c]

/-- `escape(s, mode)`: the string itself when the first loop counts no byte to
escape, otherwise the bytes written by the second loop. -/
def escape (s : GoString) (mode : encoding) : GoString :=
  let spaceCount :=
    s.countP (fun c => shouldEscape c mode && (decide (c = ch ' ') && decide (mode = .encodeQueryComponent)))
  let hexCount :=
    s.countP (fun c => shouldEscape c mode && !(decide (c = ch ' ') && decide (mode = .encodeQueryComponent)))
  if spaceCount = 0 ∧ hexCount = 0 then s else s.flatMap (fun c => escapeByte c mode)

/-- `unescape(s, mode)` for the modes without host rules (every mode but
`encodeHost` and `encodeZone`): an `EscapeError` on the first `%` that is not
followed by two hex digits, otherwise the string with every `%XY` replaced by
its byte and, in query mode, every `+` by a space. -/
def unescape : GoString → encoding → Except GoError GoString
  | [], _ => .ok []
  | c :: rest, mode =>
    if c = ch '%' then
      match rest with
      | h :: l :: rest' =>
        if ishex h && ishex l then
          match unescape rest' mode with
          | .ok t => .ok (Fin.ofNat (unhex h * 16 + unhex l) :: t)
          | .error e => .error e
        else .error (.urlParse ((c :: rest).take 3))
      | _ => .error (.urlParse ((c :: rest).take 3))
    else
      match unescape rest mode with
      | .ok t => .ok ((if c = ch '+' ∧ mode = .encodeQueryComponent then ch ' ' else c) :: t)
      | .error e => .error e

/-- `validEncoded(s, mode)`. -/
def validEncoded (s : GoString) (mode : encoding) : Bool :=
  s.all (fun c =>
    if c = 0x27 ∨ (lit "!$&()*+,;=:@").contains c then true
    else if c = ch '[' ∨ c = ch ']' then true
    else if c = ch '%' then true
    else !shouldEscape c mode)

/-- `url.QueryEscape`. -/
def QueryEscape (s : GoString) : GoString := escape s .encodeQueryComponent

/-- `url.QueryUnescape`. -/
def QueryUnescape (s : GoString) : Except GoError GoString := unescape s .encodeQueryComponent

/-- `url.Values`, a `map[string][]string`. -/
abbrev Values := GoMap (List GoString)

/-- `Values.Set`: the key now holds exactly one value. -/
def Values.Set (v : Values) (key value : GoString) : Values := GoMap.set v key [value]

/-- `Values.Get`: the first value of the key, or the empty string. -/
def Values.Get (v : Values) (key : GoString) : GoString :=
  match GoMap.get v key with
  | some (x :: _) => x
  | _ => []

/-- `Values.Has`. -/
def Values.Has (v : Values) (key : GoString) : Bool := (GoMap.get v key).isSome

/-- The inner loop of `Values.Encode` over the values of one key; `buf` is the
builder so far. -/
def Values.encodeValues (keyEscaped : GoString) : List GoString → GoString → GoString
  | [], buf => buf
  | v :: vs, buf =>
    Values.encodeValues keyEscaped vs
      ((if buf.length > 0 then buf ++ [ch '&'] else buf) ++ keyEscaped ++ [ch '='] ++ QueryEscape v)

/-- The outer loop of `Values.Encode` over the sorted keys. -/
def Values.encodeKeys : List (GoString × List GoString) → GoString → GoString
  | [], buf => buf
  | (k, vs) :: rest, buf => Values.encodeKeys rest (Values.encodeValues (QueryEscape k) vs buf)

/-- `Values.Encode`: "URL encoded" form, sorted by key. -/
def Values.Encode (v : Values) : GoString :=
  if v.length = 0 then [] else Values.encodeKeys (GoMap.sorted v) []

/-- The fields of `url.URL` that parsing a deeplink can set.  `Opaque` stays
empty, `User` stays nil and `OmitHost` stays false, as the host is not empty. -/
structure URL where
  Scheme : GoString
  Host : GoString
  Path : GoString
  RawPath : GoString
  ForceQuery : Bool
  RawQuery : GoString
  Fragment : GoString
  RawFragment : GoString
deriving DecidableEq

/-- `(*URL).setPath`. -/
def URL.setPath (u : URL) (p : GoString) : Except GoError URL :=
  match unescape p .encodePath with
  | .error e => .error e
  | .ok path =>
    .ok { u with Path := path, RawPath := if p = escape path .encodePath then [] else p }

/-- `(*URL).setFragment`. -/
def URL.setFragment (u : URL) (f : GoString) : Except GoError URL :=
  match unescape f .encodeFragment with
  | .error e => .error e
  | .ok frag =>
    .ok { u with Fragment := frag, RawFragment := if f = escape frag .encodeFragment then [] else f }

/-- `(*URL).EscapedPath`. -/
def URL.EscapedPath (u : URL) : GoString :=
  let useRaw : Bool :=
    decide (u.RawPath ≠ []) && validEncoded u.RawPath .encodePath &&
      (match unescape u.RawPath .encodePath with
       | .ok p => decide (p = u.Path)
       | .error _ => false)
  if useRaw then u.RawPath
  else if u.Path = lit "*" then lit "*"
  else escape u.Path .encodePath

/-- `(*URL).EscapedFragment`. -/
def URL.EscapedFragment (u : URL) : GoString :=
  let useRaw : Bool :=
    decide (u.RawFragment ≠ []) && validEncoded u.RawFragment .encodeFragment &&
      (match unescape u.RawFragment .encodeFragment with
       | .ok f => decide (f = u.Fragment)
       | .error _ => false)
  if useRaw then u.RawFragment else escape u.Fragment .encodeFragment

/-- `url.Parse("raycast://extensions/" + tail)`.  The handler only parses
strings that begin so; on them `getScheme` returns the scheme `raycast`, the
authority is the text up to the first `/` after `//`, that is `extensions`, and
`parseAuthority` accepts it as the host.  What is left of `Parse` runs on
`tail`: the cut at `#`, the control-character check, the cut at `?`,
`setPath` on `/` followed by what remains, and `setFragment`. -/
def ParseDeeplink (tail : GoString) : Except GoError URL :=
  let u := (Cut tail (ch '#')).1
  let frag := (Cut tail (ch '#')).2.1
  if stringContainsCTLByte u then .error (.urlParse u)
  else
    let force : Bool := decide (u.getLast? = some (ch '?')) && decide (u.count (ch '?') = 1)
    let rest := if force then u.dropLast else (Cut u (ch '?')).1
    let rawQuery := if force then [] else (Cut u (ch '?')).2.1
    let url : URL :=
      { Scheme := lit "raycast", Host := lit "extensions", Path := [], RawPath := [],
        ForceQuery := force, RawQuery := rawQuery, Fragment := [], RawFragment := [] }
    match url.setPath (ch '/' :: rest) with
    | .error e => .error e
    | .ok url => if frag = [] then .ok url else url.setFragment frag

/-- `(*URL).String` for a URL with empty `Opaque` and nil `User`. -/
def URL.String (u : URL) : GoString :=
  let buf : GoString := if u.Scheme ≠ [] then u.Scheme ++ [ch ':'] else []
  let buf :=
    if u.Scheme ≠ [] ∨ u.Host ≠ [] then
      (if u.Host ≠ [] ∨ u.Path ≠ [] then buf ++ lit "//" else buf) ++
        (if u.Host ≠ [] then escape u.Host .encodeHost else [])
    else buf
  let path := u.EscapedPath
  let buf := if path ≠ [] ∧ path.head? ≠ some (ch '/') ∧ u.Host ≠ [] then buf ++ [ch '/'] else buf
  let buf :=
    if buf.length = 0 ∧ (Cut path (ch '/')).1.contains (ch ':') then buf ++ lit "./" else buf
  let buf := buf ++ path
  let buf := if u.ForceQuery ∨ u.RawQuery ≠ [] then buf ++ [ch '?'] ++ u.RawQuery else buf
  if u.Fragment ≠ [] then buf ++ [ch '#'] ++ u.EscapedFragment else buf

/-! ## `unicode/utf8` and `encoding/json`

`json.Marshal` of a `map[string]string`, with the HTML escaping that
`json.Marshal` always applies. -/

/-- The code point `utf8.RuneError`, U+FFFD. -/
def RuneError : Nat := 0xFFFD

/-- The table `first` of `unicode/utf8` for a leading byte from 0x80 on: the
length of the sequence and the accepted range of its second byte, or `none`
for a byte that cannot start a sequence. -/
def leadInfo (s0 : Byte) : Option (Nat × Byte × Byte) :=
  if s0 < 0xC2 then none
  else if s0 ≤ 0xDF then some (2, 0x80, 0xBF)
  else if s0 = 0xE0 then some (3, 0xA0, 0xBF)
  else if s0 ≤ 0xEC then some (3, 0x80, 0xBF)
  else if s0 = 0xED then some (3, 0x80, 0x9F)
  else if s0 ≤ 0xEF then some (3, 0x80, 0xBF)
  else if s0 = 0xF0 then some (4, 0x90, 0xBF)
  else if s0 ≤ 0xF3 then some (4, 0x80, 0xBF)
  else if s0 = 0xF4 then some (4, 0x80, 0x8F)
  else none

/-- A continuation byte: between `locb` and `hicb`. -/
def isCont (b : Byte) : Bool := decide (0x80 ≤ b) && decide (b ≤ 0xBF)

/-- `utf8.DecodeRuneInString`: the first code point of the string and its width
in bytes; `(RuneError, 1)` for an invalid or incomplete sequence and
`(RuneError, 0)` for the empty string. -/
def DecodeRune : GoString → Nat × Nat
  | [] => (RuneError, 0)
  | s0 :: t =>
    if s0 < 0x80 then (s0.val, 1)
    else
      match leadInfo s0 with
      | none => (RuneError, 1)
      | some (sz, lo, hi) =>
        if t.length + 1 < sz then (RuneError, 1)
        else
          match t with
          | [] => (RuneError, 1)
          | s1 :: t1 =>
            if s1 < lo ∨ hi < s1 then (RuneError, 1)
            else if sz ≤ 2 then (s0.val % 32 * 64 + s1.val % 64, 2)
            else
              match t1 with
              | [] => (RuneError, 1)
              | s2 :: t2 =>
                if !isCont s2 then (RuneError, 1)
                else if sz ≤ 3 then (s0.val % 16 * 4096 + s1.val % 64 * 64 + s2.val % 64, 3)
                else
                  match t2 with
                  | [] => (RuneError, 1)
                  | s3 :: _ =>
                    if !isCont s3 then (RuneError, 1)
                    else
                      (s0.val % 8 * 262144 + s1.val % 64 * 4096 + s2.val % 64 * 64 + s3.val % 64, 4)

/-- The table `hex` of `encoding/json`. -/
def hex (n : Nat) : Byte := (lit "0123456789abcdef").getD n 0

/-- The table `htmlSafeSet`: the ASCII bytes `json.Marshal` copies unchanged. -/
def htmlSafeSet (b : Byte) : Bool :=
  decide (0x20 ≤ b) && decide (b < 0x80) && !(lit "\"&<>\\").contains b

/-- What `appendString` writes for an ASCII byte that is not in `htmlSafeSet`
(Go 1.22 and later; earlier releases write `\u0008` and `\u000c` for backspace
and form feed). -/
def appendEscaped (b : Byte) : GoString :=
  if b = ch '\\' ∨ b = ch '"' then [ch '\\', b]
  else if b = 0x08 then lit "\\b"
  else if b = 0x0C then lit "\\f"
  else if b = 0x0A then lit "\\n"
  else if b = 0x0D then lit "\\r"
  else if b = 0x09 then lit "\\t"
  else lit "\\u00" ++ [hex (b.val / 16), hex (b.val % 16)]

/-- The loop of `appendString(dst, src, escapeHTML = true)` from position `i` on,
given as the rest of the string at `i`; the result is what the loop and the
final `append(dst, src[start:]...)` add to `dst`.  Every turn moves `i` forward
by at least one byte, so the length of the string is enough `fuel`. -/
def appendStringLoop : Nat → GoString → GoString
  | 0, _ => []
  | _ + 1, [] => []
  | fuel + 1, b :: rest =>
    if b < 0x80 then
      (if htmlSafeSet b then [b] else appendEscaped b) ++ appendStringLoop fuel rest
    else
      let c := (DecodeRune ((b :: rest).take 4)).1
      let size := (DecodeRune ((b :: rest).take 4)).2
      if c = RuneError ∧ size = 1 then lit "\\ufffd" ++ appendStringLoop fuel rest
      else if c = 0x2028 ∨ c = 0x2029 then
        lit "\\u202" ++ [hex (c % 16)] ++ appendStringLoop fuel (rest.drop (size - 1))
      else (b :: rest).take size ++ appendStringLoop fuel (rest.drop (size - 1))

/-- `appendString(nil, src, true)`: the JSON string literal for `src`. -/
def appendString (src : GoString) : GoString :=
  [ch '"'] ++ appendStringLoop src.length src ++ [ch '"']

/-- The loop of the map encoder over the sorted entries; `i` is its index. -/
def mapEncodeLoop : Nat → List (GoString × GoString) → GoString
  | _, [] => []
  | i, (k, v) :: rest =>
    (if i > 0 then [ch ','] else []) ++ appendString k ++ [ch ':'] ++ appendString v ++
      mapEncodeLoop (i + 1) rest

/-- `json.Marshal` of a non-nil `map[string]string`.  It cannot fail: a string
key and a string value always encode. -/
def jsonMarshal (m : GoMap GoString) : GoString :=
  [ch '\x7b'] ++ mapEncodeLoop 0 (GoMap.sorted m) ++ [ch '\x7d']

/-! ## `cobra` -/

/-- `cobra.PositionalArgs`: a validator of the positional arguments. -/
abbrev PositionalArgs := List GoString → Option GoError

/-- The decimal text of a number, as `%d` prints it. -/
def decimal (n : Nat) : GoString := lit (toString n)

/-- `cobra.MinimumNArgs`. -/
def MinimumNArgs (n : Nat) : PositionalArgs := fun args =>
  if args.length < n then
    some (.errorf (lit "requires at least " ++ decimal n ++ lit " arg(s), only received " ++
      decimal args.length))
  else none

/-- `cobra.MaximumNArgs`. -/
def MaximumNArgs (n : Nat) : PositionalArgs := fun args =>
  if args.length > n then
    some (.errorf (lit "accepts at most " ++ decimal n ++ lit " arg(s), received " ++
      decimal args.length))
  else none

/-- `cobra.MatchAll`: the first error among the validators, in order. -/
def MatchAll : List PositionalArgs → PositionalArgs
  | [], _ => none
  | parg :: rest, args =>
    match parg args with
    | some e => some e
    | none => MatchAll rest args

/-- The two flags of a command after `ParseFlags`: for each, `none` when the
flag does not occur on the command line and `some v` when it was given with
value `v`.  Both are defined by `BoolVar` with the default `false`. -/
structure FlagSet where
  print : Option Bool
  copy : Option Bool
deriving DecidableEq

/-- The `Changed` field of the flag of the given name. -/
def FlagSet.Changed (fs : FlagSet) (name : GoString) : Bool :=
  if name = lit "print" then fs.print.isSome
  else if name = lit "copy" then fs.copy.isSome
  else false

/-- The values of the bound variables `flags.Print` and `flags.Copy`. -/
def FlagSet.flags (fs : FlagSet) : Flags :=
  { Print := fs.print.getD false, Copy := fs.copy.getD false }

/-- The fields of `cobra.Command` that the program sets, the flag groups marked
mutually exclusive among them.  `RunE` receives the flag variables its closure
reads and the operating system. -/
structure Command where
  Use : GoString
  Short : GoString
  Long : GoString
  Args : PositionalArgs
  RunE : Flags → OS → List GoString → Outcome
  mutuallyExclusive : List (List GoString)

/-- The text `%v` prints for a list of strings: the items between brackets,
separated by a space. -/
def joinSpace : List GoString → GoString
  | [] => []
  | [x] => x
  | x :: y :: rest => x ++ [ch ' '] ++ joinSpace (y :: rest)

/-- `validateExclusiveFlagGroups`: an error for the first group in which more
than one flag was set on the command line; `set` holds the names of the flags
of the group that were set, sorted before they are printed. -/
def validateExclusiveFlagGroups (fs : FlagSet) : List (List GoString) → Option GoError
  | [] => none
  | group :: rest =>
    let set := group.filter fs.Changed
    if set.length = 0 ∨ set.length = 1 then validateExclusiveFlagGroups fs rest
    else
      some (.errorf (lit "if any flags in the group [" ++ joinSpace group ++
        lit "] are set none of the others can be; [" ++
        joinSpace (set.insertionSort (fun a b => bytesLe a b = true)) ++ lit "] were all set"))

/-- `(*Command).execute` from the validation of the positional arguments on:
`ValidateArgs`, then `ValidateFlagGroups`, then `RunE`.  An error of a
validation returns before `RunE` is called. -/
def Command.execute (c : Command) (fs : FlagSet) (os : OS) (args : List GoString) : Outcome :=
  match c.Args args with
  | some e => { effects := [], err := some e }
  | none =>
    match validateExclusiveFlagGroups fs c.mutuallyExclusive with
    | some e => { effects := [], err := some e }
    | none => c.RunE fs.flags os args

/-! ## `NewCmdCommand` (`main.go`, lines 50-142) -/

/-- The loop of `RunE` over `command.Arguments` (lines 62-68) from index `i` on:
the map `deeplinkArgs` when the loop ends, or the error it returns. -/
def deeplinkArgsLoop (args : List GoString) :
    Nat → List Argument → GoMap GoString → Except GoError (GoMap GoString)
  | _, [], deeplinkArgs => .ok deeplinkArgs
  | i, argument :: rest, deeplinkArgs =>
    if h : args.length > i then
      deeplinkArgsLoop args (i + 1) rest (GoMap.set deeplinkArgs argument.Name (args.get ⟨i, h⟩))
    else if argument.Required then
      .error (.errorf (lit "missing required argument: " ++ argument.Name))
    else deeplinkArgsLoop args (i + 1) rest deeplinkArgs

/-- Lines 61-68: `deeplinkArgs` after the loop, starting from the empty map. -/
def deeplinkArgs (command : RaycastCommand) (args : List GoString) :
    Except GoError (GoMap GoString) :=
  deeplinkArgsLoop args 0 command.Arguments []

/-- Lines 70-93: `query` after the three conditional `Set` calls, or the error
of reading standard input. -/
def query (command : RaycastCommand) (deeplinkArgs : GoMap GoString) (stdin : Stdin) :
    Except GoError Values :=
  let query : Values := []
  let query := if command.Mode ≠ lit "view" then Values.Set query (lit "launchType") (lit "background") else query
  let query :=
    if deeplinkArgs.length > 0 then Values.Set query (lit "arguments") (jsonMarshal deeplinkArgs)
    else query
  match stdin with
  | .terminal => .ok query
  | .failing msg => .error (.stdinRead msg)
  | .piped context =>
    if context.length > 0 then .ok (Values.Set query (lit "context") context) else .ok query

/-- Line 95: the text given to `url.Parse` is `"raycast://extensions/"` followed
by this. -/
def deeplinkTail (manifest : RaycastManifest) (command : RaycastCommand) : GoString :=
  manifest.Author ++ [ch '/'] ++ manifest.Name ++ [ch '/'] ++ command.Name

/-- Line 95: `deeplink`, the result of `fmt.Sprintf`. -/
def deeplink (manifest : RaycastManifest) (command : RaycastCommand) : GoString :=
  lit "raycast://extensions/" ++ deeplinkTail manifest command

/-- Lines 95-100: `deeplinkUrl` with its `RawQuery` set to the encoded query. -/
def deeplinkUrl (manifest : RaycastManifest) (command : RaycastCommand) (query : Values) :
    Except GoError URL :=
  match ParseDeeplink (deeplinkTail manifest command) with
  | .error e => .error e
  | .ok u => .ok { u with RawQuery := query.Encode }

/-- Lines 102-115: the dispatch step on the finished URL. -/
def dispatch (flags : Flags) (os : OS) (deeplinkUrl : URL) : Outcome :=
  if flags.Print then { effects := [.print deeplinkUrl.String], err := none }
  else if flags.Copy then
    { effects := [.copy deeplinkUrl.String],
      err := (os.pbcopy deeplinkUrl.String).map GoError.execRun }
  else
    { effects := [.openUrl deeplinkUrl.String],
      err := (os.openUrl deeplinkUrl.String).map GoError.execRun }

/-- The handler `RunE` of `NewCmdCommand` (lines 60-116). -/
def RunE (manifest : RaycastManifest) (command : RaycastCommand) (flags : Flags) (os : OS)
    (args : List GoString) : Outcome :=
  match deeplinkArgs command args with
  | .error e => { effects := [], err := some e }
  | .ok dArgs =>
    match query command dArgs os.stdin with
    | .error e => { effects := [], err := some e }
    | .ok q =>
      match deeplinkUrl manifest command q with
      | .error e => { effects := [], err := some e }
      | .ok u => dispatch flags os u

/-- The loop of lines 126-135 from the state `(use, minArgs, maxArgs)`. -/
def useLoop : List Argument → GoString × Nat × Nat → GoString × Nat × Nat
  | [], st => st
  | argument :: rest, (use, minArgs, maxArgs) =>
    if argument.Required then
      useLoop rest (use ++ lit " <" ++ argument.Name ++ lit ">", minArgs + 1, maxArgs + 1)
    else useLoop rest (use ++ lit " [" ++ argument.Name ++ lit "]", minArgs, maxArgs + 1)

/-- The variable `use` after the loop. -/
def use (command : RaycastCommand) : GoString :=
  (useLoop command.Arguments (command.Name, 0, 0)).1

/-- The variable `minArgs` after the loop. -/
def minArgs (command : RaycastCommand) : Nat :=
  (useLoop command.Arguments (command.Name, 0, 0)).2.1

/-- The variable `maxArgs` after the loop. -/
def maxArgs (command : RaycastCommand) : Nat :=
  (useLoop command.Arguments (command.Name, 0, 0)).2.2

/-- `NewCmdCommand`. -/
def NewCmdCommand (manifest : RaycastManifest) (command : RaycastCommand) : Command :=
  { Use := use command
    Short := command.Title
    Long := command.Description
    Args := MatchAll [MinimumNArgs (minArgs command), MaximumNArgs (maxArgs command)]
    RunE := RunE manifest command
    mutuallyExclusive := [[lit "print", lit "copy"]] }

/-- The first declared argument at a position from `k` on that is required. -/
def firstMissing (command : RaycastCommand) (k : Nat) : Option Argument :=
  (command.Arguments.drop k).find? (fun a => a.Required)

/-- An unreserved character of RFC 3986: a letter, a digit, `-`, `_`, `.` or `~`. -/
def unreserved (b : Byte) : Bool := isAlnum b || (lit "-_.~").contains b

/-! ## Reading a deeplink back

The receiving side of a deeplink: `url.ParseQuery` on the query string, and the
decoding of a JSON object of strings as `json.Unmarshal` does it into a
`map[string]string`.  These are not called by the program; the round-trip
statements compare them with what the program writes. -/

/-- The statement `m[key] = append(m[key], value)`. -/
def Values.Add (m : Values) (key value : GoString) : Values :=
  GoMap.set m key ((GoMap.get m key).getD [] ++ [value])

/-- The loop of `parseQuery`: `query` is what is left to read, `m` the values
and `err` the first error so far.  Every turn removes at least one byte from a
non-empty `query`, so its length is enough `fuel`. -/
def parseQueryLoop : Nat → GoString → Values → Option GoError → Values × Option GoError
  | 0, _, m, err => (m, err)
  | fuel + 1, query, m, err =>
    if query = [] then (m, err)
    else
      let key := (Cut query (ch '&')).1
      let query := (Cut query (ch '&')).2.1
      if key.contains (ch ';') then
        parseQueryLoop fuel query m (some (.errorf (lit "invalid semicolon separator in query")))
      else if key = [] then parseQueryLoop fuel query m err
      else
        let value := (Cut key (ch '=')).2.1
        let key := (Cut key (ch '=')).1
        match QueryUnescape key with
        | .error err1 => parseQueryLoop fuel query m (if err = none then some err1 else err)
        | .ok key =>
          match QueryUnescape value with
          | .error err1 => parseQueryLoop fuel query m (if err = none then some err1 else err)
          | .ok value => parseQueryLoop fuel query (Values.Add m key value) err

/-- `url.ParseQuery`: the values read from a query string, and the first error. -/
def ParseQuery (query : GoString) : Values × Option GoError :=
  parseQueryLoop query.length query [] none

/-- `utf8.ValidString` from a position on: no step of `DecodeRune` reports an
invalid sequence. -/
def validLoop : Nat → GoString → Bool
  | 0, s => s.isEmpty
  | _ + 1, [] => true
  | fuel + 1, b :: rest =>
    if b < 0x80 then validLoop fuel rest
    else if (DecodeRune ((b :: rest).take 4)).2 = 1 then false
    else validLoop fuel (rest.drop ((DecodeRune ((b :: rest).take 4)).2 - 1))

/-- `utf8.ValidString`: the string is valid UTF-8. -/
def ValidString (s : GoString) : Bool := validLoop s.length s

/-- JSON white space. -/
def isSpace (b : Byte) : Bool :=
  decide (b = ch ' ') || decide (b = 0x09) || decide (b = 0x0D) || decide (b = 0x0A)

/-- The text without its leading white space. -/
def skipSpace : GoString → GoString
  | [] => []
  | b :: rest => if isSpace b then skipSpace rest else b :: rest

/-- `getu4` on a text that begins with a backslash, `u` and four hex digits:
the number they write and the text after them. -/
def getu4 : GoString → Option (Nat × GoString)
  | bs :: u :: a :: b :: c :: d :: rest =>
    if bs = ch '\\' ∧ u = ch 'u' ∧ (ishex a && ishex b && ishex c && ishex d) = true then
      some (((unhex a * 16 + unhex b) * 16 + unhex c) * 16 + unhex d, rest)
    else none
  | _ => none

/-- The byte written for a one-letter escape, if the letter is one. -/
def simpleEscape (e : Byte) : Option Byte :=
  if e = ch '"' ∨ e = ch '\\' ∨ e = ch '/' then some e
  else if e = ch 'b' then some 0x08
  else if e = ch 'f' then some 0x0C
  else if e = ch 'n' then some 0x0A
  else if e = ch 'r' then some 0x0D
  else if e = ch 't' then some 0x09
  else none

/-- Puts decoded bytes in front of the rest of a decoded string. -/
def prepend (bs : GoString) : Option (GoString × GoString) → Option (GoString × GoString)
  | none => none
  | some (s, rest) => some (bs ++ s, rest)

/-- The decoding of a JSON string from just after its opening quote on: the
decoded bytes and the text after the closing quote.  A control character, a
bad escape or a missing closing quote gives `none`; invalid UTF-8 and unpaired
surrogates decode to U+FFFD. -/
def unquoteLoop : Nat → GoString → Option (GoString × GoString)
  | 0, _ => none
  | _ + 1, [] => none
  | fuel + 1, c :: rest =>
    if c = ch '"' then some ([], rest)
    else if c = ch '\\' then
      match rest with
      | [] => none
      | e :: rest1 =>
        if e = ch 'u' then
          match getu4 (c :: rest) with
          | none => none
          | some (rr, rest2) =>
            if 0xD800 ≤ rr ∧ rr < 0xE000 then
              match getu4 rest2 with
              | some (rr1, rest3) =>
                if rr < 0xDC00 ∧ 0xDC00 ≤ rr1 ∧ rr1 < 0xE000 then
                  prepend (EncodeRune ((rr - 0xD800) * 1024 + (rr1 - 0xDC00) + 0x10000))
                    (unquoteLoop fuel rest3)
                else prepend (EncodeRune RuneError) (unquoteLoop fuel rest2)
              | none => prepend (EncodeRune RuneError) (unquoteLoop fuel rest2)
            else prepend (EncodeRune rr) (unquoteLoop fuel rest2)
        else
          match simpleEscape e with
          | some b => prepend [b] (unquoteLoop fuel rest1)
          | none => none
    else if c < 0x20 then none
    else if c < 0x80 then prepend [c] (unquoteLoop fuel rest)
    else
      prepend (EncodeRune (DecodeRune ((c :: rest).take 4)).1)
        (unquoteLoop fuel (rest.drop ((DecodeRune ((c :: rest).take 4)).2 - 1)))

/-- The decoding of the members of a JSON object from the opening quote of a
key on, into the map `m`; every member must have a string value. -/
def membersLoop : Nat → GoString → GoMap GoString → Option (GoMap GoString)
  | 0, _, _ => none
  | fuel + 1, text, m =>
    match text with
    | [] => none
    | q :: r1 =>
      if q ≠ ch '"' then none
      else
        match unquoteLoop r1.length r1 with
        | none => none
        | some (k, r2) =>
          match skipSpace r2 with
          | [] => none
          | colon :: r3 =>
            if colon ≠ ch ':' then none
            else
              match skipSpace r3 with
              | [] => none
              | q' :: r4 =>
                if q' ≠ ch '"' then none
                else
                  match unquoteLoop r4.length r4 with
                  | none => none
                  | some (v, r5) =>
                    match skipSpace r5 with
                    | [] => none
                    | sep :: r6 =>
                      if sep = ch ',' then membersLoop fuel (skipSpace r6) (GoMap.set m k v)
                      else if sep = ch '\x7d' ∧ skipSpace r6 = [] then some (GoMap.set m k v)
                      else none

/-- The decoding of a JSON text into a `map[string]string`: `none` unless the text
is one JSON object all of whose members have string values. -/
def jsonUnmarshal (data : GoString) : Option (GoMap GoString) :=
  match skipSpace data with
  | [] => none
  | b :: r =>
    if b ≠ ch '\x7b' then none
    else
      match skipSpace r with
      | [] => none
      | b' :: r' =>
        if b' = ch '\x7d' then (if skipSpace r' = [] then some [] else none)
        else membersLoop data.length (b' :: r') []

/-- The text `Values.Encode` writes for one key with one value. -/
def encPair (p : GoString × GoString) : GoString :=
  QueryEscape p.1 ++ ch '=' :: QueryEscape p.2

/-- The text `Values.Encode` writes for a list of keys with one value each: the
pairs separated by `&`. -/
def encPairs : List (GoString × GoString) → GoString
  | [] => []
  | [p] => encPair p
  | p :: p' :: rest => encPair p ++ ch '&' :: encPairs (p' :: rest)

/-! ## Example manifest -/

/-- A required argument named `a`. -/
def argA : Argument := { Name := lit "a", Typ := lit "text", Placeholder := [], Required := true }

/-- An optional argument named `b`. -/
def argB : Argument := { Name := lit "b", Typ := lit "text", Placeholder := [], Required := false }

/-- A command `cmd` of mode `view` without arguments. -/
def cmdView : RaycastCommand :=
  { Name := lit "cmd", Title := [], Description := [], Mode := lit "view", Arguments := [] }

/-- A command `cmd` of mode `view` with the arguments `a` (required) and `b`
(optional). -/
def cmdAB : RaycastCommand :=
  { Name := lit "cmd", Title := [], Description := [], Mode := lit "view", Arguments := [argA, argB] }

/-- A command of mode `View` with the optional `b` declared before the required
`a`. -/
def cmdBA : RaycastCommand :=
  { Name := lit "cmd", Title := [], Description := [], Mode := lit "View", Arguments := [argB, argA] }

/-- The manifest of the extension `ext` by `me`. -/
def manifestExt : RaycastManifest :=
  { Name := lit "ext", Author := lit "me", Title := [], Description := [], Commands := [cmdView] }

/-- An operating system with an interactive terminal, where `pbcopy` succeeds and
`open` fails. -/
def osTerminal : OS :=
  { stdin := .terminal, pbcopy := fun _ => none, openUrl := fun _ => some (lit "exit status 1") }

/-- The same operating system with the given bytes piped to standard input. -/
def osPiped (content : GoString) : OS := { osTerminal with stdin := .piped content }

/-! ## `NewCmdExtension` and `NewCmdRoot` (`main.go`, lines 144-192)

The tree built at startup has three levels, all of them `*cobra.Command` in
the source: the root, one command per extension and one command per declared
command.  Each level is a structure of its own here. -/

/-- The `cobra.Command` of an extension: the fields `NewCmdExtension` sets and the
commands added with `AddCommand`, in the order they were added. -/
structure ExtensionCommand where
  Use : GoString
  Short : GoString
  Long : GoString
  commands : List Command

/-- The root `cobra.Command`: the fields `NewCmdRoot` sets and the commands added
with `AddCommand`, in the order they were added. -/
structure RootCommand where
  Use : GoString
  Short : GoString
  Version : GoString
  commands : List ExtensionCommand

/-- The loop of `NewCmdExtension` (lines 151-153); `commands` holds what was
added so far. -/
def extensionLoop (manifest : RaycastManifest) :
    List RaycastCommand → List Command → List Command
  | [], commands => commands
  | command :: rest, commands =>
    extensionLoop manifest rest (commands ++ [NewCmdCommand manifest command])

/-- `NewCmdExtension`. -/
def NewCmdExtension (manifest : RaycastManifest) : ExtensionCommand :=
  { Use := manifest.Name
    Short := manifest.Title
    Long := manifest.Description
    commands := extensionLoop manifest manifest.Commands [] }

/-- What `NewCmdRoot` asks of the file system. -/
structure FileSystem where
  /-- `os.UserHomeDir()`: the home directory, or the message of its error. -/
  UserHomeDir : Except GoString GoString
  /-- `filepath.Glob` on the pattern `<home>/.config/raycast/extensions/*/package.json`
  built with `filepath.Join` from the given home directory: the matching paths in
  the order returned, or the message of its error. -/
  Glob : GoString → Except GoString (List GoString)
  /-- `os.Open` on a path: `none` when it succeeds, otherwise the message of its
  error. -/
  Open : GoString → Option GoString
  /-- `json.NewDecoder(f).Decode(&manifest)` on the opened file of a path: the
  manifest decoded into a fresh variable, or the message of its error. -/
  Decode : GoString → Except GoString RaycastManifest

/-- Lines 177-185: opening and decoding one manifest path. -/
def loadManifest (fs : FileSystem) (manifestPath : GoString) : Except GoError RaycastManifest :=
  match fs.Open manifestPath with
  | some msg => .error (.fileSystem msg)
  | none =>
    match fs.Decode manifestPath with
    | .error msg => .error (.jsonDecode msg)
    | .ok manifest => .ok manifest

/-- The loop of `NewCmdRoot` over `extensionManifests` (lines 176-189): the root
after the last path, or the error returned at the first path that fails. -/
def rootLoop (fs : FileSystem) : List GoString → RootCommand → Except GoError RootCommand
  | [], rootCmd => .ok rootCmd
  | manifestPath :: rest, rootCmd =>
    match loadManifest fs manifestPath with
    | .error e => .error e
    | .ok manifest =>
      rootLoop fs rest { rootCmd with commands := rootCmd.commands ++ [NewCmdExtension manifest] }

/-- The package variable `Version`. -/
def Version : GoString := lit "dev"

/-- The package variable `Date`. -/
def Date : GoString := lit "unknown"

/-- `NewCmdRoot`: the root command, or the error with which it returns nil. -/
def NewCmdRoot (fs : FileSystem) : Except GoError RootCommand :=
  match fs.UserHomeDir with
  | .error msg => .error (.fileSystem msg)
  | .ok homedir =>
    let rootCmd : RootCommand :=
      { Use := lit "ray"
        Short := lit "A command line interface for Raycast"
        Version := Version ++ lit " (" ++ Date ++ lit ")"
        commands := [] }
    match fs.Glob homedir with
    | .error msg => .error (.fileSystem msg)
    | .ok extensionManifests => rootLoop fs extensionManifests rootCmd

/-- The error of the first path, in order, that fails to open or to decode. -/
def firstFailure (fs : FileSystem) (paths : List GoString) : Option GoError :=
  paths.findSome? (fun p =>
    match loadManifest fs p with
    | .error e => some e
    | .ok _ => none)

/-- The extension command of a path that opens and decodes. -/
def extensionOf (fs : FileSystem) (p : GoString) : Option ExtensionCommand :=
  match loadManifest fs p with
  | .error _ => none
  | .ok manifest => some (NewCmdExtension manifest)

/-! ## The usage line -/

/-- What the loop of lines 126-135 adds to `use` for one argument. -/
def placeholder (argument : Argument) : GoString :=
  if argument.Required then lit " <" ++ argument.Name ++ lit ">"
  else lit " [" ++ argument.Name ++ lit "]"

/-- A placeholder of the form ` <name>`. -/
def isRequiredPlaceholder (p : GoString) : Bool := decide (p.take 2 = lit " <")

/-! ## The deeplink format of the interface section -/

/-- The deeplink with all three parameters in the order in which section 6 of
the specification writes them: `launchType`, then `arguments`, then `context`. -/
def specDeeplinkFormat (author extensionName commandName json context : GoString) : GoString :=
  lit "raycast://extensions/" ++ author ++ lit "/" ++ extensionName ++ lit "/" ++ commandName ++
    lit "?launchType=background&arguments=" ++ QueryEscape json ++
    lit "&context=" ++ QueryEscape context

/-- The pairs of the query in the order `arguments`, `context`, `launchType`,
each present under the condition under which the handler sets it. -/
def queryPairs (command : RaycastCommand) (deeplinkArgs : GoMap GoString) (stdin : Stdin) :
    List (GoString × GoString) :=
  (if deeplinkArgs.length > 0 then [(lit "arguments", jsonMarshal deeplinkArgs)] else []) ++
  (match stdin with
   | .piped context => if context.length > 0 then [(lit "context", context)] else []
   | _ => []) ++
  (if command.Mode ≠ lit "view" then [(lit "launchType", lit "background")] else [])

/-! ## More examples -/

/-- A command with two required arguments that are both named `a`. -/
def cmdAA : RaycastCommand :=
  { Name := lit "cmd", Title := [], Description := [], Mode := lit "view", Arguments := [argA, argA] }

/-- The manifest `ext` by `me` found at this path. -/
def pathExt : GoString := lit "/home/u/.config/raycast/extensions/ext/package.json"

/-- A path whose file is not a manifest. -/
def pathBad : GoString := lit "/home/u/.config/raycast/extensions/bad/package.json"

/-- A file system with the given matches in which `pathBad` fails to decode and
every other path decodes to `manifestExt`. -/
def fsWith (paths : List GoString) : FileSystem :=
  { UserHomeDir := .ok (lit "/home/u")
    Glob := fun _ => .ok paths
    Open := fun _ => none
    Decode := fun p => if p = pathBad then .error (lit "unexpected end of JSON input")
      else .ok manifestExt }

/-! # Theorems -/

/-! ## The positional-argument contract -/

theorem useLoop_counts (l : List Argument) (u : GoString) (a b : Nat) :
    (useLoop l (u, a, b)).2 = (a + l.countP (fun x => x.Required), b + l.length) := by
  induction l generalizing u a b with
  | nil => simp [useLoop]
  | cons x xs ih =>
    cases hx : x.Required
    · simp [useLoop, hx, ih]; omega
    · simp [useLoop, hx, ih]; omega

theorem minArgs_eq (command : RaycastCommand) :
    minArgs command = command.Arguments.countP (fun x => x.Required) := by
  rw [minArgs, useLoop_counts]; simp

theorem maxArgs_eq (command : RaycastCommand) :
    maxArgs command = command.Arguments.length := by
  rw [maxArgs, useLoop_counts]; simp

/-- C1: with N the number of required declared arguments and M the number of
declared arguments, `minArgs` is N, `maxArgs` is M, and the validator installed
by `NewCmdCommand` accepts a list of positional values exactly when its length
is between N and M; it rejects every other list. -/
theorem args_validator_accepts_iff (manifest : RaycastManifest) (command : RaycastCommand)
    (args : List GoString) :
    minArgs command = command.Arguments.countP (fun x => x.Required) ∧
    maxArgs command = command.Arguments.length ∧
    (((NewCmdCommand manifest command).Args args = none) ↔
      (command.Arguments.countP (fun x => x.Required) ≤ args.length ∧
        args.length ≤ command.Arguments.length)) ∧
    (((NewCmdCommand manifest command).Args args).isSome ↔
      (args.length < command.Arguments.countP (fun x => x.Required) ∨
        command.Arguments.length < args.length)) := by
  refine ⟨minArgs_eq command, maxArgs_eq command, ?_, ?_⟩
  · simp only [NewCmdCommand, MatchAll, MinimumNArgs, MaximumNArgs, minArgs_eq, maxArgs_eq]
    by_cases h1 : args.length < command.Arguments.countP (fun x => x.Required)
    · simp [h1]
    · by_cases h2 : args.length > command.Arguments.length
      · simp [h1, h2]
      · simp [h1, h2]; omega
  · simp only [NewCmdCommand, MatchAll, MinimumNArgs, MaximumNArgs, minArgs_eq, maxArgs_eq]
    by_cases h1 : args.length < command.Arguments.countP (fun x => x.Required)
    · simp [h1]
    · by_cases h2 : args.length > command.Arguments.length
      · simp [h1, h2]
      · simp [h1, h2]

/-! ## Go maps -/

theorem GoMap.get_set {V : Type} (m : GoMap V) (k k' : GoString) (v : V) :
    GoMap.get (GoMap.set m k v) k' = if k = k' then some v else GoMap.get m k' := by
  induction m with
  | nil => simp [GoMap.set, GoMap.get]
  | cons e rest ih =>
    obtain ⟨a, b⟩ := e
    by_cases h : a = k
    · subst h
      by_cases h' : a = k' <;> simp [GoMap.set, GoMap.get, h']
    · by_cases h' : a = k'
      · subst h'
        have h3 : ¬ k = a := fun h2 => h h2.symm
        simp [GoMap.set, GoMap.get, h, h3]
      · simp [GoMap.set, GoMap.get, h, h', ih]

theorem GoMap.set_of_not_mem {V : Type} (m : GoMap V) (k : GoString) (v : V)
    (h : k ∉ m.map Prod.fst) : GoMap.set m k v = m ++ [(k, v)] := by
  induction m with
  | nil => simp [GoMap.set]
  | cons e rest ih =>
    obtain ⟨a, b⟩ := e
    simp only [List.map_cons, List.mem_cons, not_or] at h
    have h1 : ¬ a = k := fun h2 => h.1 h2.symm
    simp [GoMap.set, h1, ih h.2]

theorem GoMap.get_eq_none {V : Type} (m : GoMap V) (k : GoString)
    (h : k ∉ m.map Prod.fst) : GoMap.get m k = none := by
  induction m with
  | nil => simp [GoMap.get]
  | cons e rest ih =>
    obtain ⟨a, b⟩ := e
    simp only [List.map_cons, List.mem_cons, not_or] at h
    have h1 : ¬ a = k := fun h2 => h.1 h2.symm
    simp [GoMap.get, h1, ih h.2]

theorem GoMap.get_of_mem {V : Type} (m : GoMap V) (k : GoString) (v : V)
    (hnd : (m.map Prod.fst).Nodup) (h : (k, v) ∈ m) : GoMap.get m k = some v := by
  induction m with
  | nil => simp at h
  | cons e rest ih =>
    obtain ⟨a, b⟩ := e
    simp only [List.map_cons, List.nodup_cons] at hnd
    simp only [List.mem_cons, Prod.mk.injEq] at h
    rcases h with ⟨h1, h2⟩ | h
    · subst h1; subst h2; simp [GoMap.get]
    · have h1 : ¬ a = k := by
        intro h2; subst h2
        exact hnd.1 (List.mem_map.mpr ⟨(a, v), h, rfl⟩)
      simp [GoMap.get, h1, ih hnd.2 h]

theorem GoMap.foldl_set_eq_append (l m : GoMap GoString)
    (hl : (l.map Prod.fst).Nodup) (hd : ∀ k ∈ l.map Prod.fst, k ∉ m.map Prod.fst) :
    l.foldl (fun acc e => GoMap.set acc e.1 e.2) m = m ++ l := by
  induction l generalizing m with
  | nil => simp
  | cons e rest ih =>
    obtain ⟨a, b⟩ := e
    simp only [List.map_cons, List.nodup_cons] at hl
    simp only [List.foldl_cons]
    rw [GoMap.set_of_not_mem m a b (hd a (by simp))]
    rw [ih _ hl.2]
    · simp
    · intro k hk
      simp only [List.map_append, List.map_cons, List.map_nil, List.mem_append,
        List.mem_singleton, not_or]
      refine ⟨hd k (by simp [hk]), ?_⟩
      intro h; subst h; exact hl.1 hk

/-! ## The argument loop -/

theorem deeplinkArgsLoop_eq (args : List GoString) (l : List Argument) (i : Nat)
    (m : GoMap GoString) :
    deeplinkArgsLoop args i l m =
      match (l.drop (args.length - i)).find? (fun a => a.Required) with
      | some a => .error (.errorf (lit "missing required argument: " ++ a.Name))
      | none =>
        .ok ((List.zip (l.map (fun a => a.Name)) (args.drop i)).foldl
          (fun acc e => GoMap.set acc e.1 e.2) m) := by
  induction l generalizing i m with
  | nil => simp [deeplinkArgsLoop]
  | cons x xs ih =>
    by_cases h : args.length > i
    · have h1 : args.length - i = (args.length - (i + 1)) + 1 := by omega
      have h2 : args.drop i = args.get ⟨i, h⟩ :: args.drop (i + 1) := by
        rw [List.drop_eq_getElem_cons h]; rfl
      simp only [deeplinkArgsLoop, h, dite_true, ih]
      rw [h1, h2]
      simp only [List.drop_succ_cons, List.map_cons, List.zip_cons_cons, List.foldl_cons]
    · have h1 : args.length - i = 0 := by omega
      have h1' : args.length - (i + 1) = 0 := by omega
      have h2 : args.drop i = [] := by simp; omega
      have h2' : args.drop (i + 1) = [] := by simp; omega
      simp only [deeplinkArgsLoop, h, dite_false, ih]
      rw [h1, h1', h2, h2']
      cases hx : x.Required <;> simp [hx]

theorem deeplinkArgs_eq (command : RaycastCommand) (args : List GoString) :
    deeplinkArgs command args =
      match firstMissing command args.length with
      | some a => .error (.errorf (lit "missing required argument: " ++ a.Name))
      | none =>
        .ok ((List.zip (command.Arguments.map (fun a => a.Name)) args).foldl
          (fun acc e => GoMap.set acc e.1 e.2) []) := by
  simp [deeplinkArgs, firstMissing, deeplinkArgsLoop_eq]

theorem map_fst_zip_take {α β : Type} (l1 : List α) (l2 : List β) :
    (List.zip l1 l2).map Prod.fst = l1.take l2.length := by
  induction l1 generalizing l2 with
  | nil => simp
  | cons a l1 ih =>
    cases l2 with
    | nil => simp
    | cons b l2 => simp [ih]

theorem not_mem_take_of_nodup {α : Type} (l : List α) (hnd : l.Nodup) (i k : Nat)
    (hi : i < l.length) (hk : k ≤ i) : l.get ⟨i, hi⟩ ∉ l.take k := by
  intro hmem
  obtain ⟨j, hj, hje⟩ := List.getElem_of_mem hmem
  rw [List.getElem_take] at hje
  have hjk : j < k := by
    have := hj
    simp only [List.length_take] at this
    omega
  have hjl : j < l.length := by
    have := hj
    simp only [List.length_take] at this
    omega
  have := (@List.Nodup.getElem_inj_iff _ l hnd j hjl i hi).mp hje
  omega

/-- C2: when the declared names are pairwise distinct and at most as many values
are supplied as arguments are declared, the map built by the loop is exactly
the list of pairs (name at position i, value at position i) for the supplied
positions: every supplied position maps its name to its value, and the name at
every position from the number of supplied values on is absent. -/
theorem deeplinkArgs_exact (command : RaycastCommand) (args : List GoString)
    (dArgs : GoMap GoString)
    (hnd : (command.Arguments.map (fun a => a.Name)).Nodup)
    (hk : args.length ≤ command.Arguments.length)
    (h : deeplinkArgs command args = .ok dArgs) :
    dArgs = List.zip (command.Arguments.map (fun a => a.Name)) args ∧
    dArgs.length = args.length ∧
    (∀ i (h1 : i < args.length) (h2 : i < command.Arguments.length),
      GoMap.get dArgs (command.Arguments.get ⟨i, h2⟩).Name = some (args.get ⟨i, h1⟩)) ∧
    (∀ i (h2 : i < command.Arguments.length), args.length ≤ i →
      GoMap.get dArgs (command.Arguments.get ⟨i, h2⟩).Name = none) := by
  have hkeys : (List.zip (command.Arguments.map (fun a => a.Name)) args).map Prod.fst =
      (command.Arguments.map (fun a => a.Name)).take args.length := map_fst_zip_take _ _
  have hnd' : ((List.zip (command.Arguments.map (fun a => a.Name)) args).map Prod.fst).Nodup := by
    rw [hkeys]; exact List.Nodup.sublist (List.take_sublist _ _) hnd
  have hd : dArgs = List.zip (command.Arguments.map (fun a => a.Name)) args := by
    rw [deeplinkArgs_eq] at h
    cases hm : firstMissing command args.length with
    | some a => rw [hm] at h; simp at h
    | none =>
      rw [hm] at h
      simp only [Except.ok.injEq] at h
      rw [← h, GoMap.foldl_set_eq_append _ _ hnd' (by simp)]
      simp
  refine ⟨hd, ?_, ?_, ?_⟩
  · rw [hd]; simp; omega
  · intro i h1 h2
    rw [hd]
    apply GoMap.get_of_mem _ _ _ hnd'
    rw [List.mem_iff_getElem]
    refine ⟨i, by simp; omega, ?_⟩
    simp
  · intro i h2 hle
    rw [hd]
    apply GoMap.get_eq_none
    rw [hkeys]
    have h3 : i < (command.Arguments.map (fun a => a.Name)).length := by simpa using h2
    have := not_mem_take_of_nodup _ hnd i args.length h3 hle
    simpa using this

/-! ## Where the errors of the handler come from -/

theorem unescape_error (mode : encoding) (s : GoString) (e : GoError)
    (h : unescape s mode = .error e) : ∃ d, e = .urlParse d := by
  induction s, mode using unescape.induct generalizing e with
  | case1 mode => simp [unescape] at h
  | case2 mode h' l rest' hx t ht _ =>
    rw [unescape.eq_2] at h
    simp [hx, ht] at h
  | case3 mode h' l rest' hx e' he' ih =>
    rw [unescape.eq_2] at h
    simp only [hx, he', if_true] at h
    exact ih _ (by rw [he']; exact h)
  | case4 mode h' l rest' hx =>
    rw [unescape.eq_2] at h
    simp only [hx, if_true] at h
    exact ⟨_, (Except.error.inj h).symm⟩
  | case5 rest mode hrest =>
    rw [unescape.eq_3 _ _ _ hrest] at h
    simp only [if_true] at h
    exact ⟨_, (Except.error.inj h).symm⟩
  | case6 c rest mode hc t ht _ =>
    unfold unescape at h
    simp [hc, ht] at h
  | case7 c rest mode hc e' he' ih =>
    unfold unescape at h
    simp only [hc, he', if_false] at h
    exact ih _ (by rw [he']; exact h)

theorem ParseDeeplink_error (tail : GoString) (e : GoError)
    (h : ParseDeeplink tail = .error e) : ∃ d, e = .urlParse d := by
  simp only [ParseDeeplink, URL.setPath, URL.setFragment] at h
  split at h
  · exact ⟨_, (Except.error.inj h).symm⟩
  · split at h
    · rename_i e' he'
      split at he'
      · rename_i e'' he''
        simp only [Except.error.injEq] at he' h
        subst he'; subst h
        exact unescape_error _ _ _ he''
      · simp at he'
    · split at h
      · simp at h
      · split at h
        · rename_i e'' he''
          simp only [Except.error.injEq] at h
          subst h
          exact unescape_error _ _ _ he''
        · simp at h

theorem query_error (command : RaycastCommand) (dArgs : GoMap GoString) (stdin : Stdin)
    (e : GoError) (h : query command dArgs stdin = .error e) : ∃ msg, e = .stdinRead msg := by
  simp only [query] at h
  split at h
  · simp at h
  · exact ⟨_, (Except.error.inj h).symm⟩
  · split at h <;> simp at h

theorem dispatch_err (flags : Flags) (os : OS) (u : URL) (e : GoError)
    (h : (dispatch flags os u).err = some e) : ∃ msg, e = .execRun msg := by
  simp only [dispatch] at h
  split at h
  · simp at h
  · split at h
    · simp only [Option.map_eq_some'] at h
      obtain ⟨a, _, ha⟩ := h
      exact ⟨a, ha.symm⟩
    · simp only [Option.map_eq_some'] at h
      obtain ⟨a, _, ha⟩ := h
      exact ⟨a, ha.symm⟩

theorem dispatch_effects_length (flags : Flags) (os : OS) (u : URL) :
    (dispatch flags os u).effects.length = 1 := by
  simp only [dispatch]
  split
  · rfl
  · split <;> rfl

/-- The handler returns an error made by `fmt.Errorf` exactly when the argument
loop returns it, and then it performs no dispatch action. -/
theorem RunE_errorf_iff (manifest : RaycastManifest) (command : RaycastCommand) (flags : Flags)
    (os : OS) (args : List GoString) (s : GoString) :
    (RunE manifest command flags os args).err = some (.errorf s) ↔
      deeplinkArgs command args = .error (.errorf s) := by
  simp only [RunE]
  cases h1 : deeplinkArgs command args with
  | error e => simp
  | ok dArgs =>
    simp only []
    cases h2 : query command dArgs os.stdin with
    | error e =>
      obtain ⟨msg, rfl⟩ := query_error _ _ _ _ h2
      simp
    | ok q =>
      simp only []
      cases h3 : deeplinkUrl manifest command q with
      | error e =>
        have : ∃ d, e = .urlParse d := by
          simp only [deeplinkUrl] at h3
          split at h3
          · rename_i e' he'
            simp only [Except.error.injEq] at h3
            subst h3
            exact ParseDeeplink_error _ _ he'
          · simp at h3
        obtain ⟨d, rfl⟩ := this
        simp
      | ok u =>
        simp only []
        constructor
        · intro h
          obtain ⟨msg, hm⟩ := dispatch_err _ _ _ _ h
          simp at hm
        · intro h; simp at h

theorem RunE_effects_of_args_error (manifest : RaycastManifest) (command : RaycastCommand)
    (flags : Flags) (os : OS) (args : List GoString) (e : GoError)
    (h : deeplinkArgs command args = .error e) :
    RunE manifest command flags os args = { effects := [], err := some e } := by
  simp [RunE, h]

theorem missing_required_iff_aux (manifest : RaycastManifest) (command : RaycastCommand)
    (flags : Flags) (os : OS) (args : List GoString) (name : GoString) :
    (RunE manifest command flags os args).err =
        some (.errorf (lit "missing required argument: " ++ name)) ↔
      (firstMissing command args.length).map (fun a => a.Name) = some name := by
  rw [RunE_errorf_iff, deeplinkArgs_eq]
  cases hm : firstMissing command args.length with
  | some a => simp
  | none => simp

/-- C5: the handler fails with `missing required argument: <name>` exactly when
`name` is the name of the first declared argument, in declaration order, that
is required and stands at a position from the number of supplied values on;
such an error exists exactly when some position from there on holds a required
argument; and a run that fails this way performs no dispatch action. -/
theorem missing_required_iff (manifest : RaycastManifest) (command : RaycastCommand)
    (flags : Flags) (os : OS) (args : List GoString) :
    (∀ name : GoString,
      (RunE manifest command flags os args).err =
          some (.errorf (lit "missing required argument: " ++ name)) ↔
        (firstMissing command args.length).map (fun a => a.Name) = some name) ∧
    ((∃ name : GoString, (RunE manifest command flags os args).err =
          some (.errorf (lit "missing required argument: " ++ name))) ↔
      ∃ i, ∃ h : i < command.Arguments.length, args.length ≤ i ∧
        (command.Arguments.get ⟨i, h⟩).Required = true) ∧
    (∀ name : GoString,
      (RunE manifest command flags os args).err =
          some (.errorf (lit "missing required argument: " ++ name)) →
        (RunE manifest command flags os args).effects = []) := by
  have key := missing_required_iff_aux manifest command flags os args
  refine ⟨key, ?_, ?_⟩
  · constructor
    · rintro ⟨name, h⟩
      rw [key] at h
      cases hm : firstMissing command args.length with
      | none => rw [hm] at h; simp at h
      | some a =>
        have hreq : a.Required = true := by
          have := List.find?_some hm
          simpa using this
        have hmem : a ∈ command.Arguments.drop args.length := List.mem_of_find?_eq_some hm
        obtain ⟨j, hj, hje⟩ := List.getElem_of_mem hmem
        have hj' : args.length + j < command.Arguments.length := by
          simp only [List.length_drop] at hj; omega
        refine ⟨args.length + j, hj', by omega, ?_⟩
        rw [List.getElem_drop] at hje
        simp only [List.get_eq_getElem]
        rw [hje]; exact hreq
    · rintro ⟨i, hi, hle, hreq⟩
      have hmem : command.Arguments.get ⟨i, hi⟩ ∈ command.Arguments.drop args.length := by
        rw [List.mem_iff_getElem]
        refine ⟨i - args.length, by simp only [List.length_drop]; omega, ?_⟩
        rw [List.getElem_drop]
        simp only [List.get_eq_getElem]
        congr 1; omega
      cases hm : firstMissing command args.length with
      | none =>
        have := List.find?_eq_none.mp hm _ hmem
        exact absurd hreq this
      | some a =>
        refine ⟨a.Name, ?_⟩
        rw [key, hm]; rfl
  · intro name h
    rw [RunE_errorf_iff] at h
    rw [RunE_effects_of_args_error _ _ _ _ _ _ h]

theorem no_required_after_min (l : List Argument)
    (hord : l.Pairwise (fun a b => b.Required = true → a.Required = true)) (k : Nat)
    (hk : l.countP (fun x => x.Required) ≤ k) :
    (l.drop k).find? (fun a => a.Required) = none := by
  induction l generalizing k with
  | nil => simp
  | cons x xs ih =>
    rw [List.pairwise_cons] at hord
    cases k with
    | zero =>
      have h0 : (x :: xs).countP (fun x => x.Required) = 0 := by omega
      rw [List.countP_eq_zero] at h0
      rw [List.drop_zero, List.find?_eq_none]
      intro a ha
      exact h0 a ha
    | succ k =>
      rw [List.drop_succ_cons]
      cases hx : x.Required
      · rw [List.find?_eq_none]
        intro a ha hreq
        have hmem : a ∈ xs := List.mem_of_mem_drop ha
        have := hord.1 a hmem (by simpa using hreq)
        rw [hx] at this
        exact absurd this (by simp)
      · apply ih hord.2
        rw [List.countP_cons] at hk
        simp only [hx, if_true] at hk
        omega

/-- C6: for a command in which no required argument is declared after an
optional one, and a number of supplied values between `minArgs` and `maxArgs`,
the argument loop ends without an error and the handler never returns a
`missing required argument` error. -/
theorem missing_required_unreachable (manifest : RaycastManifest) (command : RaycastCommand)
    (flags : Flags) (os : OS) (args : List GoString)
    (hord : command.Arguments.Pairwise (fun a b => b.Required = true → a.Required = true))
    (hmin : minArgs command ≤ args.length) (hmax : args.length ≤ maxArgs command) :
    (∃ dArgs, deeplinkArgs command args = .ok dArgs) ∧
    ∀ name : GoString, (RunE manifest command flags os args).err ≠
      some (.errorf (lit "missing required argument: " ++ name)) := by
  have _ := hmax
  have hnone : firstMissing command args.length = none :=
    no_required_after_min _ hord _ (by rw [← minArgs_eq]; exact hmin)
  constructor
  · rw [deeplinkArgs_eq, hnone]
    exact ⟨_, rfl⟩
  · intro name h
    rw [(missing_required_iff_aux manifest command flags os args name), hnone] at h
    simp at h

/-! ## The query -/

theorem arguments_ne_launchType : lit "arguments" ≠ lit "launchType" := by decide
theorem launchType_ne_arguments : lit "launchType" ≠ lit "arguments" := by decide
theorem context_ne_launchType : lit "context" ≠ lit "launchType" := by decide
theorem launchType_ne_context : lit "launchType" ≠ lit "context" := by decide
theorem context_ne_arguments : lit "context" ≠ lit "arguments" := by decide
theorem arguments_ne_context : lit "arguments" ≠ lit "context" := by decide

/-- The query as a chain of conditional `Set` calls. -/
theorem query_ok (command : RaycastCommand) (dArgs : GoMap GoString) (stdin : Stdin)
    (q : Values) (h : query command dArgs stdin = .ok q) :
    ∃ context : GoString, (stdin = .terminal ∧ context = [] ∨ stdin = .piped context) ∧
      q =
        (fun q0 : Values => if context.length > 0 then Values.Set q0 (lit "context") context else q0)
          ((fun q0 : Values =>
              if dArgs.length > 0 then Values.Set q0 (lit "arguments") (jsonMarshal dArgs) else q0)
            (if command.Mode ≠ lit "view" then
              Values.Set [] (lit "launchType") (lit "background") else [])) := by
  simp only [query] at h
  cases stdin with
  | terminal =>
    simp only [Except.ok.injEq] at h
    exact ⟨[], Or.inl ⟨rfl, rfl⟩, by simp [← h]⟩
  | failing msg => simp at h
  | piped context =>
    refine ⟨context, Or.inr rfl, ?_⟩
    simp only at h
    split at h
    · rename_i hc
      simp only [Except.ok.injEq] at h
      simp [← h, hc]
    · rename_i hc
      simp only [Except.ok.injEq] at h
      simp only [← h, hc, if_false]

/-- C3: in the query the handler builds, the key `launchType` is absent when the
mode of the command is exactly `view`, and holds the single value `background`
for every other mode. -/
theorem launchType_unless_view (command : RaycastCommand) (dArgs : GoMap GoString)
    (stdin : Stdin) (q : Values) (h : query command dArgs stdin = .ok q) :
    GoMap.get q (lit "launchType") =
      if command.Mode = lit "view" then none else some [lit "background"] := by
  obtain ⟨context, _, hq⟩ := query_ok command dArgs stdin q h
  subst hq
  by_cases hm : command.Mode = lit "view" <;>
  by_cases ha : dArgs.length > 0 <;>
  by_cases hc : context.length > 0 <;>
  simp [hm, ha, hc, Values.Set, GoMap.get_set, arguments_ne_launchType, context_ne_launchType,
    GoMap.get]

/-! ## Dispatch -/

/-- C9: when the handler reaches the dispatch step with the URL `u`, it performs
exactly one action, chosen by the flags: with `print` it writes the text of
the URL to standard output and returns nil, calling neither `pbcopy` nor
`open`; otherwise with `copy` it only runs `pbcopy` on the text and returns
the result of that run; otherwise it only runs `open` on the text and returns
the result of that run. -/
theorem dispatch_exactly_one (manifest : RaycastManifest) (command : RaycastCommand)
    (flags : Flags) (os : OS) (args : List GoString) (dArgs : GoMap GoString) (q : Values)
    (u : URL) (hd : deeplinkArgs command args = .ok dArgs)
    (hq : query command dArgs os.stdin = .ok q) (hu : deeplinkUrl manifest command q = .ok u) :
    (RunE manifest command flags os args).effects.length = 1 ∧
    (flags.Print = true →
      RunE manifest command flags os args = { effects := [.print u.String], err := none }) ∧
    (flags.Print = false → flags.Copy = true →
      RunE manifest command flags os args =
        { effects := [.copy u.String], err := (os.pbcopy u.String).map GoError.execRun }) ∧
    (flags.Print = false → flags.Copy = false →
      RunE manifest command flags os args =
        { effects := [.openUrl u.String], err := (os.openUrl u.String).map GoError.execRun }) := by
  have hr : RunE manifest command flags os args = dispatch flags os u := by
    simp [RunE, hd, hq, hu]
  rw [hr]
  refine ⟨dispatch_effects_length _ _ _, ?_, ?_, ?_⟩
  · intro hp; simp [dispatch, hp]
  · intro hp hc; simp [dispatch, hp, hc]
  · intro hp hc; simp [dispatch, hp, hc]

/-! ## The flag group -/

theorem print_ne_copy : lit "copy" ≠ lit "print" := by decide

/-- C10: an invocation in which both flags hold `true` ends in an error before
the handler is called: no dispatch action is performed. -/
theorem print_and_copy_rejected (manifest : RaycastManifest) (command : RaycastCommand)
    (fs : FlagSet) (os : OS) (args : List GoString)
    (hp : fs.flags.Print = true) (hc : fs.flags.Copy = true) :
    ((NewCmdCommand manifest command).execute fs os args).err.isSome = true ∧
    ((NewCmdCommand manifest command).execute fs os args).effects = [] := by
  have hp' : fs.print.isSome = true := by
    cases h : fs.print with
    | none => simp [FlagSet.flags, h] at hp
    | some v => rfl
  have hc' : fs.copy.isSome = true := by
    cases h : fs.copy with
    | none => simp [FlagSet.flags, h] at hc
    | some v => rfl
  have hv : ∃ e, validateExclusiveFlagGroups fs [[lit "print", lit "copy"]] = some e := by
    have h1 : fs.Changed (lit "print") = true := by simp [FlagSet.Changed, hp']
    have h2 : fs.Changed (lit "copy") = true := by
      simp [FlagSet.Changed, hc', print_ne_copy]
    simp [validateExclusiveFlagGroups, List.filter, h1, h2]
  obtain ⟨e, he⟩ := hv
  simp only [Command.execute]
  cases ha : (NewCmdCommand manifest command).Args args with
  | some e' => simp
  | none =>
    have : (NewCmdCommand manifest command).mutuallyExclusive = [[lit "print", lit "copy"]] := rfl
    simp [this, he]

/-! ## The deeplink of unreserved names -/

set_option maxRecDepth 100000 in
theorem pathSafe_facts : ∀ b : Byte, (unreserved b || decide (b = ch '/')) = true →
    b ≠ ch '#' ∧ b ≠ ch '?' ∧ b ≠ ch '%' ∧
    (decide (b < ch ' ') || decide (b = 0x7f)) = false ∧
    shouldEscape b .encodePath = false := by
  decide

theorem Cut_of_not_mem (s : GoString) (sep : Byte) (h : sep ∉ s) : Cut s sep = (s, [], false) := by
  induction s with
  | nil => rfl
  | cons b rest ih =>
    simp only [List.mem_cons, not_or] at h
    have hb : ¬ b = sep := fun e => h.1 e.symm
    simp [Cut, hb, ih h.2]

theorem escape_of_none (s : GoString) (mode : encoding)
    (h : ∀ b ∈ s, shouldEscape b mode = false) : escape s mode = s := by
  have h1 : s.countP (fun c => shouldEscape c mode &&
      (decide (c = ch ' ') && decide (mode = .encodeQueryComponent))) = 0 := by
    rw [List.countP_eq_zero]
    intro b hb
    simp [h b hb]
  have h2 : s.countP (fun c => shouldEscape c mode &&
      !(decide (c = ch ' ') && decide (mode = .encodeQueryComponent))) = 0 := by
    rw [List.countP_eq_zero]
    intro b hb
    simp [h b hb]
  simp only [escape, h1, h2, and_self, if_true]

theorem unescape_cons_of_ne (c : Byte) (rest : GoString) (mode : encoding) (hc : c ≠ ch '%') :
    unescape (c :: rest) mode =
      match unescape rest mode with
      | .ok t => .ok ((if c = ch '+' ∧ mode = .encodeQueryComponent then ch ' ' else c) :: t)
      | .error e => .error e := by
  match rest with
  | [] => rw [unescape.eq_3 _ _ _ (by intro _ _ _ h; cases h)]; simp [hc]
  | [x] => rw [unescape.eq_3 _ _ _ (by intro _ _ _ h; cases h)]; simp [hc]
  | h :: l :: rest' => rw [unescape.eq_2]; simp [hc]

theorem unescape_path_of_none (s : GoString) (h : ch '%' ∉ s) :
    unescape s .encodePath = .ok s := by
  induction s with
  | nil => rfl
  | cons b rest ih =>
    simp only [List.mem_cons, not_or] at h
    have hb : b ≠ ch '%' := fun e => h.1 e.symm
    rw [unescape_cons_of_ne _ _ _ hb, ih h.2]
    simp

theorem ParseDeeplink_pathSafe (t : GoString)
    (h : ∀ b ∈ t, (unreserved b || decide (b = ch '/')) = true) :
    ParseDeeplink t = .ok
      { Scheme := lit "raycast", Host := lit "extensions", Path := ch '/' :: t, RawPath := [],
        ForceQuery := false, RawQuery := [], Fragment := [], RawFragment := [] } := by
  have hhash : ch '#' ∉ t := fun hm => (pathSafe_facts _ (h _ hm)).1 rfl
  have hq : ch '?' ∉ t := fun hm => (pathSafe_facts _ (h _ hm)).2.1 rfl
  have hpc : ch '%' ∉ ch '/' :: t := by
    simp only [List.mem_cons, not_or]
    exact ⟨by decide, fun hm => (pathSafe_facts _ (h _ hm)).2.2.1 rfl⟩
  have hctl : stringContainsCTLByte t = false := by
    simp only [stringContainsCTLByte, List.any_eq_false]
    intro b hb
    simp [(pathSafe_facts _ (h _ hb)).2.2.2.1]
  have hcount : t.count (ch '?') = 0 := List.count_eq_zero.mpr hq
  have hesc : escape (ch '/' :: t) .encodePath = ch '/' :: t := by
    apply escape_of_none
    intro b hb
    simp only [List.mem_cons] at hb
    rcases hb with rfl | hb
    · decide
    · exact (pathSafe_facts _ (h _ hb)).2.2.2.2
  have hun := unescape_path_of_none _ hpc
  have hforce : (decide (t.getLast? = some (ch '?')) && decide (t.count (ch '?') = 1)) = false := by
    simp [hcount]
  simp only [ParseDeeplink, Cut_of_not_mem t _ hhash, Cut_of_not_mem t _ hq, hctl, hforce,
    URL.setPath]
  simp [hun, hesc]

theorem String_pathSafe (t rawQuery : GoString)
    (h : ∀ b ∈ t, (unreserved b || decide (b = ch '/')) = true) :
    URL.String
      { Scheme := lit "raycast", Host := lit "extensions", Path := ch '/' :: t, RawPath := [],
        ForceQuery := false, RawQuery := rawQuery, Fragment := [], RawFragment := [] } =
      lit "raycast://extensions/" ++ t ++ (if rawQuery ≠ [] then ch '?' :: rawQuery else []) := by
  have hesc : escape (ch '/' :: t) .encodePath = ch '/' :: t := by
    apply escape_of_none
    intro b hb
    simp only [List.mem_cons] at hb
    rcases hb with rfl | hb
    · decide
    · exact (pathSafe_facts _ (h _ hb)).2.2.2.2
  have hstar : ch '/' :: t ≠ lit "*" := by
    intro e
    have := List.head_eq_of_cons_eq e
    revert this; decide
  have hhost : escape (lit "extensions") .encodeHost = lit "extensions" := by decide
  have hpath : URL.EscapedPath
      { Scheme := lit "raycast", Host := lit "extensions", Path := ch '/' :: t, RawPath := [],
        ForceQuery := false, RawQuery := rawQuery, Fragment := [], RawFragment := [] } =
      ch '/' :: t := by
    simp [URL.EscapedPath, hstar, hesc]
  have h1 : lit "raycast" ≠ [] := by decide
  have h2 : lit "extensions" ≠ [] := by decide
  simp only [URL.String, hpath, h1, h2, hhost]
  by_cases hr : rawQuery = []
  · subst hr
    simp
    rfl
  · simp [hr]
    rfl

/-- C8: when author, extension name and command name consist of unreserved
characters, the mode is `view`, the argument map is empty and no context is
supplied, the query is empty, the deeplink is exactly
`raycast://extensions/<author>/<extension>/<command>`, it contains no `?`, and
with `print` exactly this text is written to standard output. -/
theorem bare_deeplink (manifest : RaycastManifest) (command : RaycastCommand) (flags : Flags)
    (os : OS) (args : List GoString)
    (hA : ∀ b ∈ manifest.Author, unreserved b = true)
    (hN : ∀ b ∈ manifest.Name, unreserved b = true)
    (hC : ∀ b ∈ command.Name, unreserved b = true)
    (hmode : command.Mode = lit "view")
    (hd : deeplinkArgs command args = .ok [])
    (hctx : os.stdin = .terminal ∨ os.stdin = .piped []) :
    query command [] os.stdin = .ok [] ∧
    (deeplinkUrl manifest command []).map URL.String =
      .ok (lit "raycast://extensions/" ++ manifest.Author ++ lit "/" ++ manifest.Name ++
        lit "/" ++ command.Name) ∧
    ch '?' ∉ (lit "raycast://extensions/" ++ manifest.Author ++ lit "/" ++ manifest.Name ++
        lit "/" ++ command.Name) ∧
    (flags.Print = true →
      RunE manifest command flags os args =
        { effects := [.print (lit "raycast://extensions/" ++ manifest.Author ++ lit "/" ++
            manifest.Name ++ lit "/" ++ command.Name)],
          err := none }) := by
  have hsafe : ∀ b ∈ deeplinkTail manifest command,
      (unreserved b || decide (b = ch '/')) = true := by
    intro b hb
    simp only [deeplinkTail, List.mem_append, List.mem_singleton] at hb
    rcases hb with (((hb | hb) | hb) | hb) | hb
    · simp [hA b hb]
    · simp [hb]
    · simp [hN b hb]
    · simp [hb]
    · simp [hC b hb]
  have hq : query command [] os.stdin = .ok [] := by
    rcases hctx with h | h <;> simp [query, h, hmode]
  have hstr : lit "raycast://extensions/" ++ deeplinkTail manifest command =
      lit "raycast://extensions/" ++ manifest.Author ++ lit "/" ++ manifest.Name ++
        lit "/" ++ command.Name := by
    have h1 : lit "/" = [ch '/'] := by decide
    simp [deeplinkTail, h1]
  have hu : deeplinkUrl manifest command [] = .ok
      { Scheme := lit "raycast", Host := lit "extensions",
        Path := ch '/' :: deeplinkTail manifest command, RawPath := [],
        ForceQuery := false, RawQuery := [], Fragment := [], RawFragment := [] } := by
    simp [deeplinkUrl, ParseDeeplink_pathSafe _ hsafe, Values.Encode]
  have hs := String_pathSafe (deeplinkTail manifest command) [] hsafe
  simp only [ne_eq, not_true_eq_false, if_false, List.append_nil] at hs
  rw [hstr] at hs
  refine ⟨hq, ?_, ?_, ?_⟩
  · rw [hu]; simp only [Except.map]; rw [hs]
  · rw [← hstr]
    simp only [List.mem_append, not_or]
    refine ⟨by decide, ?_⟩
    intro hm
    exact (pathSafe_facts _ (hsafe _ hm)).2.1 rfl
  · intro hp
    simp only [RunE, hd, hq, hu, dispatch, hp, if_true]
    rw [hs]

/-! ## Query escaping round trip -/

theorem escape_eq_flatMap (s : GoString) (mode : encoding) :
    escape s mode = s.flatMap (fun c => escapeByte c mode) := by
  simp only [escape]
  split
  · rename_i h
    obtain ⟨h1, h2⟩ := h
    rw [List.countP_eq_zero] at h1 h2
    have hall : ∀ b ∈ s, shouldEscape b mode = false := by
      intro b hb
      have a1 := h1 b hb
      have a2 := h2 b hb
      cases hs : shouldEscape b mode
      · rfl
      · simp [hs] at a1 a2
        cases hm : decide (mode = encoding.encodeQueryComponent) <;> simp_all
    clear h1 h2
    induction s with
    | nil => rfl
    | cons b rest ih =>
      have hb := hall b (by simp)
      have he : escapeByte b mode = [b] := by simp [escapeByte, hb]
      rw [List.flatMap_cons, he, ← ih (fun c hc => hall c (by simp [hc]))]
      rfl
  · rfl

set_option maxRecDepth 100000 in
theorem escapeByte_query_cases : ∀ b : Byte,
    (escapeByte b .encodeQueryComponent = [b] ∧ b ≠ ch '%' ∧ b ≠ ch '+' ∧ b ≠ ch '&' ∧
      b ≠ ch '=' ∧ b ≠ ch ';') ∨
    (b = ch ' ' ∧ escapeByte b .encodeQueryComponent = [ch '+']) ∨
    (escapeByte b .encodeQueryComponent = [ch '%', upperhex (b.val / 16), upperhex (b.val % 16)] ∧
      (ishex (upperhex (b.val / 16)) && ishex (upperhex (b.val % 16))) = true ∧
      (Fin.ofNat (unhex (upperhex (b.val / 16)) * 16 + unhex (upperhex (b.val % 16))) : Byte) = b ∧
      upperhex (b.val / 16) ≠ ch '&' ∧ upperhex (b.val / 16) ≠ ch '=' ∧
      upperhex (b.val / 16) ≠ ch ';' ∧ upperhex (b.val % 16) ≠ ch '&' ∧
      upperhex (b.val % 16) ≠ ch '=' ∧ upperhex (b.val % 16) ≠ ch ';') := by
  decide

theorem unescape_escapeByte (b : Byte) (tail : GoString) :
    unescape (escapeByte b .encodeQueryComponent ++ tail) .encodeQueryComponent =
      match unescape tail .encodeQueryComponent with
      | .ok t => .ok (b :: t)
      | .error e => .error e := by
  rcases escapeByte_query_cases b with ⟨h, h1, h2, _⟩ | ⟨h, h'⟩ | ⟨h, h1, h2, _⟩
  · rw [h, List.singleton_append, unescape_cons_of_ne _ _ _ h1]
    simp [h2]
  · rw [h', List.singleton_append, unescape_cons_of_ne _ _ _ (by decide)]
    simp [h]
  · rw [h]
    simp only [List.cons_append, List.nil_append]
    rw [unescape.eq_2]
    simp only [h1, h2, if_true]

/-- Percent-decoding undoes query escaping, for every byte string. -/
theorem QueryUnescape_QueryEscape (s : GoString) : QueryUnescape (QueryEscape s) = .ok s := by
  simp only [QueryUnescape, QueryEscape, escape_eq_flatMap]
  induction s with
  | nil => rfl
  | cons b rest ih =>
    rw [List.flatMap_cons, unescape_escapeByte, ih]

theorem QueryEscape_no_sep (s : GoString) :
    ch '&' ∉ QueryEscape s ∧ ch '=' ∉ QueryEscape s ∧ ch ';' ∉ QueryEscape s := by
  simp only [QueryEscape, escape_eq_flatMap]
  induction s with
  | nil => simp
  | cons b rest ih =>
    rw [List.flatMap_cons]
    simp only [List.mem_append, not_or]
    rcases escapeByte_query_cases b with ⟨h, _, _, h3, h4, h5⟩ | ⟨_, h'⟩ |
      ⟨h, _, _, g1, g2, g3, g4, g5, g6⟩
    · rw [h]
      refine ⟨⟨?_, ih.1⟩, ⟨?_, ih.2.1⟩, ⟨?_, ih.2.2⟩⟩ <;>
        simp only [List.mem_singleton] <;> intro e
      · exact h3 e.symm
      · exact h4 e.symm
      · exact h5 e.symm
    · rw [h']
      exact ⟨⟨by decide, ih.1⟩, ⟨by decide, ih.2.1⟩, ⟨by decide, ih.2.2⟩⟩
    · rw [h]
      refine ⟨⟨?_, ih.1⟩, ⟨?_, ih.2.1⟩, ⟨?_, ih.2.2⟩⟩ <;>
        simp only [List.mem_cons, List.mem_singleton, List.not_mem_nil, or_false, not_or]
      · exact ⟨by decide, fun e => g1 e.symm, fun e => g4 e.symm⟩
      · exact ⟨by decide, fun e => g2 e.symm, fun e => g5 e.symm⟩
      · exact ⟨by decide, fun e => g3 e.symm, fun e => g6 e.symm⟩

theorem Cut_append_sep (a b : GoString) (sep : Byte) (h : sep ∉ a) :
    Cut (a ++ sep :: b) sep = (a, b, true) := by
  induction a with
  | nil => simp [Cut]
  | cons x rest ih =>
    simp only [List.mem_cons, not_or] at h
    have hx : ¬ x = sep := fun e => h.1 e.symm
    simp [Cut, hx, ih h.2]

theorem encPair_facts (p : GoString × GoString) :
    ch '&' ∉ encPair p ∧ (encPair p).contains (ch ';') = false ∧ encPair p ≠ [] ∧
    Cut (encPair p) (ch '=') = (QueryEscape p.1, QueryEscape p.2, true) := by
  have hk := QueryEscape_no_sep p.1
  have hv := QueryEscape_no_sep p.2
  refine ⟨?_, ?_, ?_, ?_⟩
  · simp only [encPair, List.mem_append, List.mem_cons, not_or]
    exact ⟨hk.1, by decide, hv.1⟩
  · rw [Bool.eq_false_iff]
    intro hc
    have hc' : ch ';' ∈ encPair p := by simpa using hc
    simp only [encPair, List.mem_append, List.mem_cons] at hc'
    rcases hc' with h | h | h
    · exact hk.2.2 h
    · revert h; decide
    · exact hv.2.2 h
  · simp [encPair]
  · exact Cut_append_sep _ _ _ hk.2.1

theorem parseQueryLoop_encPairs (L : List (GoString × GoString)) :
    ∀ (m : Values) (fuel : Nat), L.length ≤ fuel →
      parseQueryLoop fuel (encPairs L) m none =
        (L.foldl (fun acc p => Values.Add acc p.1 p.2) m, none) := by
  induction L with
  | nil =>
    intro m fuel _
    cases fuel <;> simp [parseQueryLoop, encPairs]
  | cons p rest ih =>
    intro m fuel hf
    obtain ⟨f, rfl⟩ : ∃ f, fuel = f + 1 := ⟨fuel - 1, by simp at hf; omega⟩
    obtain ⟨h1, h2, h3, h4⟩ := encPair_facts p
    have hcut : Cut (encPairs (p :: rest)) (ch '&') = (encPair p, encPairs rest,
        (Cut (encPairs (p :: rest)) (ch '&')).2.2) := by
      cases rest with
      | nil => simp [encPairs, Cut_of_not_mem _ _ h1]
      | cons p' r => simp [encPairs, Cut_append_sep _ _ _ h1]
    have hne : encPairs (p :: rest) ≠ [] := by
      cases rest with
      | nil => simpa [encPairs] using h3
      | cons p' r => simp [encPairs, h3]
    rw [parseQueryLoop]
    simp only [hne, if_false]
    rw [hcut]
    simp only [h2, h3, h4, QueryUnescape_QueryEscape, Bool.false_eq_true, if_false]
    rw [ih _ _ (by simp at hf; omega)]
    rfl

/-! ## `ParseQuery` after `Encode` -/

theorem GoMap.get_perm {V : Type} (m m' : GoMap V) (k : GoString) (hp : List.Perm m m')
    (hnd : (m.map Prod.fst).Nodup) : GoMap.get m k = GoMap.get m' k := by
  have hnd' : (m'.map Prod.fst).Nodup := (List.Perm.nodup_iff (hp.map Prod.fst)).mp hnd
  by_cases hk : k ∈ m.map Prod.fst
  · obtain ⟨e, he, hek⟩ := List.mem_map.mp hk
    obtain ⟨a, v⟩ := e
    simp only at hek
    subst hek
    rw [GoMap.get_of_mem m a v hnd he, GoMap.get_of_mem m' a v hnd' (hp.mem_iff.mp he)]
  · have hk' : k ∉ m'.map Prod.fst := fun h => hk ((hp.map Prod.fst).mem_iff.mpr h)
    rw [GoMap.get_eq_none m k hk, GoMap.get_eq_none m' k hk']

theorem GoMap.sorted_perm {V : Type} (m : GoMap V) : List.Perm (GoMap.sorted m) m :=
  List.perm_insertionSort _ _

theorem GoMap.get_sorted {V : Type} (m : GoMap V) (k : GoString)
    (hnd : (m.map Prod.fst).Nodup) : GoMap.get (GoMap.sorted m) k = GoMap.get m k :=
  (GoMap.get_perm m _ k (GoMap.sorted_perm m).symm hnd).symm

theorem GoMap.keys_set {V : Type} (m : GoMap V) (k : GoString) (v : V) :
    (GoMap.set m k v).map Prod.fst = if k ∈ m.map Prod.fst then m.map Prod.fst
      else m.map Prod.fst ++ [k] := by
  induction m with
  | nil => simp [GoMap.set]
  | cons e rest ih =>
    obtain ⟨a, b⟩ := e
    by_cases h : a = k
    · subst h; simp [GoMap.set]
    · have h' : ¬ k = a := fun e => h e.symm
      simp only [GoMap.set, h, if_false, List.map_cons, ih, List.mem_cons, h', false_or]
      split <;> simp

theorem GoMap.nodup_set {V : Type} (m : GoMap V) (k : GoString) (v : V)
    (hnd : (m.map Prod.fst).Nodup) : ((GoMap.set m k v).map Prod.fst).Nodup := by
  rw [GoMap.keys_set]
  split
  · exact hnd
  · rename_i h
    rw [List.nodup_append]
    refine ⟨hnd, by simp, ?_⟩
    intro a ha hb
    simp only [List.mem_singleton] at hb
    subst hb
    exact h ha

theorem GoMap.mem_set {V : Type} (m : GoMap V) (k : GoString) (v : V) (e : GoString × V)
    (he : e ∈ GoMap.set m k v) : e = (k, v) ∨ e ∈ m := by
  induction m with
  | nil => simp [GoMap.set] at he; exact Or.inl he
  | cons x rest ih =>
    obtain ⟨a, b⟩ := x
    by_cases h : a = k
    · simp only [GoMap.set, h, if_true, List.mem_cons] at he
      rcases he with he | he
      · exact Or.inl he
      · exact Or.inr (List.mem_cons_of_mem _ he)
    · simp only [GoMap.set, h, if_false, List.mem_cons] at he
      rcases he with he | he
      · exact Or.inr (by simp [he])
      · rcases ih he with h1 | h1
        · exact Or.inl h1
        · exact Or.inr (List.mem_cons_of_mem _ h1)

/-- Every key of the query holds exactly one value and no key occurs twice. -/
theorem query_single_valued (command : RaycastCommand) (dArgs : GoMap GoString) (stdin : Stdin)
    (q : Values) (h : query command dArgs stdin = .ok q) :
    (q.map Prod.fst).Nodup ∧ ∀ e ∈ q, e.2 = [e.2.headD []] := by
  obtain ⟨context, _, hq⟩ := query_ok command dArgs stdin q h
  have step : ∀ (q0 : Values) (k v : GoString),
      ((q0.map Prod.fst).Nodup ∧ ∀ e ∈ q0, e.2 = [e.2.headD []]) →
      (((Values.Set q0 k v).map Prod.fst).Nodup ∧
        ∀ e ∈ Values.Set q0 k v, e.2 = [e.2.headD []]) := by
    intro q0 k v ⟨h1, h2⟩
    refine ⟨GoMap.nodup_set _ _ _ h1, ?_⟩
    intro e he
    rcases GoMap.mem_set _ _ _ _ he with h3 | h3
    · subst h3; rfl
    · exact h2 e h3
  have h0 : (([] : Values).map Prod.fst).Nodup ∧ ∀ e ∈ ([] : Values), e.2 = [e.2.headD []] := by
    simp
  subst hq
  simp only []
  have h1 : ∀ q0 : Values, ((q0.map Prod.fst).Nodup ∧ ∀ e ∈ q0, e.2 = [e.2.headD []]) →
      ∀ (c : Prop) [Decidable c] (k v : GoString),
      ((((if c then Values.Set q0 k v else q0) : Values).map Prod.fst).Nodup ∧
        ∀ e ∈ ((if c then Values.Set q0 k v else q0) : Values), e.2 = [e.2.headD []]) := by
    intro q0 hq0 c _ k v
    split
    · exact step _ _ _ hq0
    · exact hq0
  have h2 : (((if command.Mode ≠ lit "view" then
      Values.Set [] (lit "launchType") (lit "background") else []) : Values).map Prod.fst).Nodup ∧
      ∀ e ∈ ((if command.Mode ≠ lit "view" then
        Values.Set [] (lit "launchType") (lit "background") else []) : Values),
        e.2 = [e.2.headD []] := h1 [] h0 _ _ _
  exact h1 _ (h1 _ h2 _ _ _) _ _ _

theorem encodeKeys_single (L : List (GoString × GoString)) :
    ∀ buf : GoString, Values.encodeKeys (L.map (fun p => (p.1, [p.2]))) buf =
      if L = [] then buf else if buf = [] then encPairs L else buf ++ ch '&' :: encPairs L := by
  induction L with
  | nil => intro buf; simp [Values.encodeKeys]
  | cons p rest ih =>
    intro buf
    simp only [List.map_cons, Values.encodeKeys, Values.encodeValues, ih]
    have hb : ∀ x : GoString, x ++ QueryEscape p.1 ++ [ch '='] ++ QueryEscape p.2 ≠ [] := by
      intro x; simp
    by_cases hbuf : buf = []
    · subst hbuf
      cases rest with
      | nil => simp [encPairs, encPair]
      | cons p' r => simp [encPairs, encPair]
    · have hlen : buf.length > 0 := List.length_pos.mpr hbuf
      cases rest with
      | nil => simp [encPairs, encPair, hbuf, hlen]
      | cons p' r => simp [encPairs, encPair, hbuf, hlen]

theorem foldl_Add_eq_append (L : List (GoString × GoString)) :
    ∀ m : Values, (L.map Prod.fst).Nodup → (∀ k ∈ L.map Prod.fst, k ∉ m.map Prod.fst) →
      L.foldl (fun acc p => Values.Add acc p.1 p.2) m = m ++ L.map (fun p => (p.1, [p.2])) := by
  induction L with
  | nil => intro m _ _; simp
  | cons p rest ih =>
    intro m hnd hd
    simp only [List.map_cons, List.nodup_cons] at hnd
    have hp : p.1 ∉ m.map Prod.fst := hd p.1 (by simp)
    have hadd : Values.Add m p.1 p.2 = m ++ [(p.1, [p.2])] := by
      simp only [Values.Add, GoMap.get_eq_none m p.1 hp, Option.getD_none, List.nil_append]
      exact GoMap.set_of_not_mem m p.1 [p.2] hp
    simp only [List.foldl_cons, hadd]
    rw [ih _ hnd.2]
    · simp
    · intro k hk
      simp only [List.map_append, List.map_cons, List.map_nil, List.mem_append,
        List.mem_singleton, not_or]
      refine ⟨hd k (by simp [hk]), ?_⟩
      intro e; subst e; exact hnd.1 hk

theorem length_le_encPairs (L : List (GoString × GoString)) : L.length ≤ (encPairs L).length := by
  induction L with
  | nil => simp
  | cons p rest ih =>
    cases rest with
    | nil => simp [encPairs, encPair]; omega
    | cons p' r =>
      simp only [encPairs, List.length_append, List.length_cons] at ih ⊢
      omega

/-- Reading back what `Encode` wrote: for a query in which every key holds one
value and no key occurs twice, `ParseQuery` returns the entries in key order,
without an error. -/
theorem ParseQuery_Encode (q : Values) (hnd : (q.map Prod.fst).Nodup)
    (hs : ∀ e ∈ q, e.2 = [e.2.headD []]) :
    ParseQuery q.Encode = (GoMap.sorted q, none) := by
  have hperm := GoMap.sorted_perm q
  have hnd' : ((GoMap.sorted q).map Prod.fst).Nodup :=
    (List.Perm.nodup_iff (hperm.map Prod.fst)).mpr hnd
  have hs' : ∀ e ∈ GoMap.sorted q, e.2 = [e.2.headD []] :=
    fun e he => hs e (hperm.mem_iff.mp he)
  have hL : GoMap.sorted q =
      ((GoMap.sorted q).map (fun e => (e.1, e.2.headD []))).map (fun p => (p.1, [p.2])) := by
    rw [List.map_map]
    conv => lhs; rw [← List.map_id (GoMap.sorted q)]
    apply List.map_congr_left
    intro e he
    simp only [id, Function.comp]
    rw [← hs' e he]
  have hkeys : ((GoMap.sorted q).map (fun e => (e.1, e.2.headD []))).map Prod.fst =
      (GoMap.sorted q).map Prod.fst := by
    rw [List.map_map]; rfl
  have henc : q.Encode = encPairs ((GoMap.sorted q).map (fun e => (e.1, e.2.headD []))) := by
    simp only [Values.Encode]
    split
    · rename_i h0
      have : q = [] := List.length_eq_zero.mp h0
      subst this
      rfl
    · rw [hL, encodeKeys_single]
      simp only [← hL, if_true]
      split
      · rename_i h1
        rw [h1]; rfl
      · rfl
  rw [ParseQuery, henc, parseQueryLoop_encPairs _ _ _ (length_le_encPairs _),
    foldl_Add_eq_append _ _ (by rw [hkeys]; exact hnd') (by simp)]
  rw [List.nil_append, ← hL]

theorem query_get_context (command : RaycastCommand) (dArgs : GoMap GoString) (stdin : Stdin)
    (q : Values) (h : query command dArgs stdin = .ok q) :
    GoMap.get q (lit "context") =
      match stdin with
      | .piped b => if b.length > 0 then some [b] else none
      | _ => none := by
  obtain ⟨context, hc, hq⟩ := query_ok command dArgs stdin q h
  have hinner : GoMap.get
      ((fun q0 : Values =>
          if dArgs.length > 0 then Values.Set q0 (lit "arguments") (jsonMarshal dArgs) else q0)
        (if command.Mode ≠ lit "view" then
          Values.Set [] (lit "launchType") (lit "background") else [])) (lit "context") = none := by
    by_cases hm : command.Mode = lit "view" <;> by_cases ha : dArgs.length > 0 <;>
      simp [hm, ha, Values.Set, GoMap.get_set, arguments_ne_context, launchType_ne_context,
        GoMap.get]
  subst hq
  rcases hc with ⟨h1, h2⟩ | h1
  · subst h1; subst h2
    simpa using hinner
  · subst h1
    by_cases hlen : context.length > 0
    · simp only [hlen, if_true, Values.Set, GoMap.get_set]
    · simp only [hlen, if_false]
      exact hinner

/-- C7: the query the handler builds holds the key `context` exactly when
standard input is not a terminal and delivers at least one byte; its value is
then exactly the bytes read, and reading the encoded query string back with
`ParseQuery` (which percent-decodes it) yields these bytes again, without an
error. -/
theorem context_forwarding (command : RaycastCommand) (dArgs : GoMap GoString) (stdin : Stdin)
    (q : Values) (h : query command dArgs stdin = .ok q) :
    (Values.Has q (lit "context") = true ↔ ∃ b, stdin = .piped b ∧ b ≠ []) ∧
    (∀ b, stdin = .piped b → b ≠ [] →
      GoMap.get q (lit "context") = some [b] ∧
      (ParseQuery q.Encode).2 = none ∧
      GoMap.get (ParseQuery q.Encode).1 (lit "context") = some [b] ∧
      QueryUnescape (QueryEscape b) = .ok b) := by
  have hget := query_get_context command dArgs stdin q h
  obtain ⟨hnd, hs⟩ := query_single_valued command dArgs stdin q h
  constructor
  · rw [Values.Has, hget]
    cases stdin with
    | terminal => simp
    | failing msg => simp
    | piped b =>
      by_cases hb : b = []
      · subst hb; simp
      · have : b.length > 0 := List.length_pos.mpr hb
        simp [this, hb]
  · intro b hb hne
    subst hb
    have hlen : b.length > 0 := List.length_pos.mpr hne
    simp only [hlen, if_true] at hget
    refine ⟨hget, ?_, ?_, QueryUnescape_QueryEscape b⟩
    · rw [ParseQuery_Encode q hnd hs]
    · rw [ParseQuery_Encode q hnd hs]
      simp only []
      rw [GoMap.get_sorted q _ hnd, hget]

set_option maxRecDepth 100000 in
theorem context_forwarding_witness :
    query cmdView [] (.piped (lit "hello")) = .ok [(lit "context", [lit "hello"])] ∧
    Values.Encode [(lit "context", [lit "hello"])] = lit "context=hello" ∧
    GoMap.get (ParseQuery (lit "context=hello")).1 (lit "context") = some [lit "hello"] ∧
    query cmdView [] (.piped []) = .ok [] ∧
    Values.Has [] (lit "context") = false ∧
    query cmdAB [(lit "a", lit "x")] (.piped (lit "hello\n")) =
      .ok [(lit "arguments", [lit "\x7b\"a\":\"x\"\x7d"]), (lit "context", [lit "hello\n"])] ∧
    GoMap.get
      (ParseQuery (Values.Encode
        [(lit "arguments", [lit "\x7b\"a\":\"x\"\x7d"]), (lit "context", [lit "hello\n"])])).1
      (lit "context") = some [lit "hello\n"] :=
  ⟨by decide, by decide,
   ((context_forwarding cmdView [] (.piped (lit "hello")) [(lit "context", [lit "hello"])]
      (by decide)).2 (lit "hello") rfl (by decide)).2.2.1,
   by decide, by decide, by decide,
   ((context_forwarding cmdAB [(lit "a", lit "x")] (.piped (lit "hello\n"))
      [(lit "arguments", [lit "\x7b\"a\":\"x\"\x7d"]), (lit "context", [lit "hello\n"])]
      (by decide)).2 (lit "hello\n") rfl (by decide)).2.2.1⟩

set_option maxRecDepth 100000 in
theorem deeplinkArgs_exact_witness :
    deeplinkArgs cmdAB [lit "x"] = .ok [(lit "a", lit "x")] ∧
    ([(lit "a", lit "x")] : GoMap GoString) =
      List.zip (cmdAB.Arguments.map (fun a => a.Name)) [lit "x"] ∧
    GoMap.get [(lit "a", lit "x")] (lit "a") = some (lit "x") ∧
    GoMap.get [(lit "a", lit "x")] (lit "b") = none :=
  ⟨by decide,
   (deeplinkArgs_exact cmdAB [lit "x"] [(lit "a", lit "x")] (by decide) (by decide)
      (by decide)).1,
   (deeplinkArgs_exact cmdAB [lit "x"] [(lit "a", lit "x")] (by decide) (by decide)
      (by decide)).2.2.1 0 (by decide) (by decide),
   (deeplinkArgs_exact cmdAB [lit "x"] [(lit "a", lit "x")] (by decide) (by decide)
      (by decide)).2.2.2 1 (by decide) (by decide)⟩

set_option maxRecDepth 100000 in
theorem launchType_unless_view_witness :
    cmdBA.Mode = lit "View" ∧
    query cmdBA [] .terminal = .ok [(lit "launchType", [lit "background"])] ∧
    GoMap.get [(lit "launchType", [lit "background"])] (lit "launchType") =
      some [lit "background"] ∧
    query cmdView [] .terminal = .ok [] ∧
    GoMap.get ([] : Values) (lit "launchType") = none :=
  ⟨rfl, by decide,
   (launchType_unless_view cmdBA [] .terminal [(lit "launchType", [lit "background"])]
      (by decide)).trans (by decide),
   by decide,
   (launchType_unless_view cmdView [] .terminal [] (by decide)).trans (by decide)⟩

set_option maxRecDepth 100000 in
theorem missing_required_unreachable_witness :
    minArgs cmdAB ≤ [lit "x"].length ∧ [lit "x"].length ≤ maxArgs cmdAB ∧
    (∃ dArgs, deeplinkArgs cmdAB [lit "x"] = .ok dArgs) ∧
    ∀ name : GoString,
      (RunE manifestExt cmdAB { Print := true, Copy := false } osTerminal [lit "x"]).err ≠
        some (.errorf (lit "missing required argument: " ++ name)) :=
  ⟨by decide, by decide,
   missing_required_unreachable manifestExt cmdAB { Print := true, Copy := false } osTerminal
     [lit "x"] (by decide) (by decide) (by decide)⟩

set_option maxRecDepth 100000 in
theorem bare_deeplink_witness :
    query cmdView [] osTerminal.stdin = .ok [] ∧
    (deeplinkUrl manifestExt cmdView []).map URL.String =
      .ok (lit "raycast://extensions/me/ext/cmd") ∧
    ch '?' ∉ lit "raycast://extensions/me/ext/cmd" ∧
    RunE manifestExt cmdView { Print := true, Copy := false } osTerminal [] =
      { effects := [.print (lit "raycast://extensions/me/ext/cmd")], err := none } :=
  have h := bare_deeplink manifestExt cmdView { Print := true, Copy := false } osTerminal []
    (by decide) (by decide) (by decide) (by decide) (by decide) (by decide)
  ⟨h.1, h.2.1, h.2.2.1, h.2.2.2 rfl⟩

set_option maxRecDepth 100000 in
theorem dispatch_exactly_one_witness :
    RunE manifestExt cmdView { Print := false, Copy := false } osTerminal [] =
      { effects := [.openUrl (lit "raycast://extensions/me/ext/cmd")],
        err := some (.execRun (lit "exit status 1")) } ∧
    RunE manifestExt cmdView { Print := false, Copy := true } osTerminal [] =
      { effects := [.copy (lit "raycast://extensions/me/ext/cmd")], err := none } ∧
    RunE manifestExt cmdView { Print := true, Copy := false } osTerminal [] =
      { effects := [.print (lit "raycast://extensions/me/ext/cmd")], err := none } :=
  ⟨((dispatch_exactly_one manifestExt cmdView { Print := false, Copy := false } osTerminal []
      [] []
      { Scheme := lit "raycast", Host := lit "extensions", Path := lit "/me/ext/cmd",
        RawPath := [], ForceQuery := false, RawQuery := [], Fragment := [], RawFragment := [] }
      (by decide) (by decide) (by decide)).2.2.2 rfl rfl).trans (by decide),
   ((dispatch_exactly_one manifestExt cmdView { Print := false, Copy := true } osTerminal []
      [] []
      { Scheme := lit "raycast", Host := lit "extensions", Path := lit "/me/ext/cmd",
        RawPath := [], ForceQuery := false, RawQuery := [], Fragment := [], RawFragment := [] }
      (by decide) (by decide) (by decide)).2.2.1 rfl rfl).trans (by decide),
   ((dispatch_exactly_one manifestExt cmdView { Print := true, Copy := false } osTerminal []
      [] []
      { Scheme := lit "raycast", Host := lit "extensions", Path := lit "/me/ext/cmd",
        RawPath := [], ForceQuery := false, RawQuery := [], Fragment := [], RawFragment := [] }
      (by decide) (by decide) (by decide)).2.1 rfl).trans (by decide)⟩

set_option maxRecDepth 100000 in
theorem print_and_copy_rejected_witness :
    (FlagSet.flags { print := some true, copy := some true }).Print = true ∧
    (FlagSet.flags { print := some true, copy := some true }).Copy = true ∧
    ((NewCmdCommand manifestExt cmdView).execute { print := some true, copy := some true }
      osTerminal []).err.isSome = true ∧
    ((NewCmdCommand manifestExt cmdView).execute { print := some true, copy := some true }
      osTerminal []).effects = [] :=
  ⟨rfl, rfl,
   print_and_copy_rejected manifestExt cmdView { print := some true, copy := some true }
     osTerminal [] rfl rfl⟩

/-! ## UTF-8 -/

set_option maxRecDepth 100000 in
theorem leadInfo_cases : ∀ s0 : Byte,
    leadInfo s0 = none ∨
    (leadInfo s0 = some (2, 0x80, 0xBF) ∧ 0xC2 ≤ s0 ∧ s0 ≤ 0xDF) ∨
    (leadInfo s0 = some (3, 0xA0, 0xBF) ∧ s0 = 0xE0) ∨
    (leadInfo s0 = some (3, 0x80, 0xBF) ∧ 0xE1 ≤ s0 ∧ s0 ≤ 0xEF ∧ s0 ≠ 0xED) ∨
    (leadInfo s0 = some (3, 0x80, 0x9F) ∧ s0 = 0xED) ∨
    (leadInfo s0 = some (4, 0x90, 0xBF) ∧ s0 = 0xF0) ∨
    (leadInfo s0 = some (4, 0x80, 0xBF) ∧ 0xF1 ≤ s0 ∧ s0 ≤ 0xF3) ∨
    (leadInfo s0 = some (4, 0x80, 0x8F) ∧ s0 = 0xF4) := by
  decide

theorem encode2 (s0 s1 : Byte) (a1 : 0xC2 ≤ s0.val) (a2 : s0.val ≤ 0xDF) (b1 : 0x80 ≤ s1.val)
    (b2 : s1.val ≤ 0xBF) : EncodeRune (s0.val % 32 * 64 + s1.val % 64) = [s0, s1] := by
  have e1 : ¬ (s0.val % 32 * 64 + s1.val % 64 ≤ 0x7F) := by omega
  have e2 : s0.val % 32 * 64 + s1.val % 64 ≤ 0x7FF := by omega
  simp only [EncodeRune, e1, e2, if_true, if_false]
  congr 1
  · apply Fin.ext; simp only [Fin.ofNat, Fin.val_mk]; omega
  · congr 1
    apply Fin.ext; simp only [Fin.ofNat, Fin.val_mk]; omega

theorem encode3 (s0 s1 s2 : Byte)
    (a : (s0.val = 0xE0 ∧ 0xA0 ≤ s1.val ∧ s1.val ≤ 0xBF) ∨
      (0xE1 ≤ s0.val ∧ s0.val ≤ 0xEF ∧ s0.val ≠ 0xED ∧ 0x80 ≤ s1.val ∧ s1.val ≤ 0xBF) ∨
      (s0.val = 0xED ∧ 0x80 ≤ s1.val ∧ s1.val ≤ 0x9F))
    (c1 : 0x80 ≤ s2.val) (c2 : s2.val ≤ 0xBF) :
    EncodeRune (s0.val % 16 * 4096 + s1.val % 64 * 64 + s2.val % 64) = [s0, s1, s2] := by
  have e1 : ¬ (s0.val % 16 * 4096 + s1.val % 64 * 64 + s2.val % 64 ≤ 0x7F) := by omega
  have e2 : ¬ (s0.val % 16 * 4096 + s1.val % 64 * 64 + s2.val % 64 ≤ 0x7FF) := by omega
  have e3 : ¬ (s0.val % 16 * 4096 + s1.val % 64 * 64 + s2.val % 64 > 0x10FFFF ∨
      (0xD800 ≤ s0.val % 16 * 4096 + s1.val % 64 * 64 + s2.val % 64 ∧
        s0.val % 16 * 4096 + s1.val % 64 * 64 + s2.val % 64 ≤ 0xDFFF)) := by omega
  have e4 : s0.val % 16 * 4096 + s1.val % 64 * 64 + s2.val % 64 ≤ 0xFFFF := by omega
  simp only [EncodeRune, e1, e2, e3, e4, if_true, if_false]
  congr 1
  · apply Fin.ext; simp only [Fin.ofNat, Fin.val_mk]; omega
  · congr 1
    · apply Fin.ext; simp only [Fin.ofNat, Fin.val_mk]; omega
    · congr 1
      apply Fin.ext; simp only [Fin.ofNat, Fin.val_mk]; omega

theorem encode4 (s0 s1 s2 s3 : Byte)
    (a : (s0.val = 0xF0 ∧ 0x90 ≤ s1.val ∧ s1.val ≤ 0xBF) ∨
      (0xF1 ≤ s0.val ∧ s0.val ≤ 0xF3 ∧ 0x80 ≤ s1.val ∧ s1.val ≤ 0xBF) ∨
      (s0.val = 0xF4 ∧ 0x80 ≤ s1.val ∧ s1.val ≤ 0x8F))
    (c1 : 0x80 ≤ s2.val) (c2 : s2.val ≤ 0xBF) (d1 : 0x80 ≤ s3.val) (d2 : s3.val ≤ 0xBF) :
    EncodeRune (s0.val % 8 * 262144 + s1.val % 64 * 4096 + s2.val % 64 * 64 + s3.val % 64) =
      [s0, s1, s2, s3] ∧
    ¬ (s0.val % 8 * 262144 + s1.val % 64 * 4096 + s2.val % 64 * 64 + s3.val % 64 = 0x2028 ∨
      s0.val % 8 * 262144 + s1.val % 64 * 4096 + s2.val % 64 * 64 + s3.val % 64 = 0x2029) := by
  have e1 : ¬ (s0.val % 8 * 262144 + s1.val % 64 * 4096 + s2.val % 64 * 64 + s3.val % 64
      ≤ 0x7F) := by omega
  have e2 : ¬ (s0.val % 8 * 262144 + s1.val % 64 * 4096 + s2.val % 64 * 64 + s3.val % 64
      ≤ 0x7FF) := by omega
  have e3 : ¬ (s0.val % 8 * 262144 + s1.val % 64 * 4096 + s2.val % 64 * 64 + s3.val % 64
        > 0x10FFFF ∨
      (0xD800 ≤ s0.val % 8 * 262144 + s1.val % 64 * 4096 + s2.val % 64 * 64 + s3.val % 64 ∧
        s0.val % 8 * 262144 + s1.val % 64 * 4096 + s2.val % 64 * 64 + s3.val % 64
          ≤ 0xDFFF)) := by omega
  have e4 : ¬ (s0.val % 8 * 262144 + s1.val % 64 * 4096 + s2.val % 64 * 64 + s3.val % 64
      ≤ 0xFFFF) := by omega
  refine ⟨?_, by omega⟩
  simp only [EncodeRune, e1, e2, e3, e4, if_true, if_false]
  congr 1
  · apply Fin.ext; simp only [Fin.ofNat, Fin.val_mk]; omega
  · congr 1
    · apply Fin.ext; simp only [Fin.ofNat, Fin.val_mk]; omega
    · congr 1
      · apply Fin.ext; simp only [Fin.ofNat, Fin.val_mk]; omega
      · congr 1
        apply Fin.ext; simp only [Fin.ofNat, Fin.val_mk]; omega

theorem DecodeRune_none (s0 : Byte) (t : GoString) (h0 : ¬ s0 < 0x80) (h : leadInfo s0 = none) :
    DecodeRune (s0 :: t) = (RuneError, 1) := by
  simp [DecodeRune, h0, h]

theorem DecodeRune_one (s0 : Byte) (sz : Nat) (lo hi : Byte) (h0 : ¬ s0 < 0x80)
    (h : leadInfo s0 = some (sz, lo, hi)) : DecodeRune [s0] = (RuneError, 1) := by
  simp [DecodeRune, h0, h]

theorem DecodeRune_two (s0 s1 : Byte) (t : GoString) (lo hi : Byte) (h0 : ¬ s0 < 0x80)
    (h : leadInfo s0 = some (2, lo, hi)) :
    DecodeRune (s0 :: s1 :: t) =
      if s1 < lo ∨ hi < s1 then (RuneError, 1) else (s0.val % 32 * 64 + s1.val % 64, 2) := by
  simp [DecodeRune, h0, h]

theorem DecodeRune_three_short (s0 s1 : Byte) (lo hi : Byte) (sz : Nat) (hsz : 3 ≤ sz)
    (h0 : ¬ s0 < 0x80) (h : leadInfo s0 = some (sz, lo, hi)) :
    DecodeRune [s0, s1] = (RuneError, 1) := by
  have : 1 + 1 < sz := by omega
  simp [DecodeRune, h0, h, this]

theorem DecodeRune_three (s0 s1 s2 : Byte) (t : GoString) (lo hi : Byte) (h0 : ¬ s0 < 0x80)
    (h : leadInfo s0 = some (3, lo, hi)) :
    DecodeRune (s0 :: s1 :: s2 :: t) =
      if s1 < lo ∨ hi < s1 then (RuneError, 1)
      else if isCont s2 = false then (RuneError, 1)
      else (s0.val % 16 * 4096 + s1.val % 64 * 64 + s2.val % 64, 3) := by
  simp [DecodeRune, h0, h]

theorem DecodeRune_four_short (s0 s1 s2 : Byte) (lo hi : Byte) (h0 : ¬ s0 < 0x80)
    (h : leadInfo s0 = some (4, lo, hi)) :
    DecodeRune [s0, s1, s2] = (RuneError, 1) := by
  simp [DecodeRune, h0, h]

theorem DecodeRune_four (s0 s1 s2 s3 : Byte) (t : GoString) (lo hi : Byte) (h0 : ¬ s0 < 0x80)
    (h : leadInfo s0 = some (4, lo, hi)) :
    DecodeRune (s0 :: s1 :: s2 :: s3 :: t) =
      if s1 < lo ∨ hi < s1 then (RuneError, 1)
      else if isCont s2 = false then (RuneError, 1)
      else if isCont s3 = false then (RuneError, 1)
      else (s0.val % 8 * 262144 + s1.val % 64 * 4096 + s2.val % 64 * 64 + s3.val % 64, 4) := by
  simp [DecodeRune, h0, h]

theorem decode_valid2 (b : Byte) (r : GoString) (hb : ¬ b < 0x80) (lo hi : Byte)
    (h : leadInfo b = some (2, lo, hi)) (hlo : 0x80 ≤ lo.val) (hhi : hi.val ≤ 0xBF)
    (hr : 0xC2 ≤ b.val ∧ b.val ≤ 0xDF)
    (c size : Nat) (hD : DecodeRune ((b :: r).take 4) = (c, size)) (hv : size ≠ 1) :
    2 ≤ size ∧ size ≤ 4 ∧ size ≤ (b :: r).length ∧ EncodeRune c = (b :: r).take size ∧
    (∀ tail : GoString, DecodeRune (((b :: r).take size ++ tail).take 4) = (c, size)) ∧
    0x80 ≤ c ∧ ¬ (0xD800 ≤ c ∧ c < 0xE000) ∧ c ≤ 0x10FFFF := by
  match r, hD with
  | [], hD =>
    simp only [List.take, DecodeRune_one b 2 lo hi hb h, Prod.mk.injEq] at hD
    omega
  | s1 :: t, hD =>
    simp only [List.take, DecodeRune_two b s1 _ lo hi hb h] at hD
    split at hD
    · simp only [Prod.mk.injEq] at hD; omega
    · rename_i hs1
      simp only [Prod.mk.injEq] at hD
      obtain ⟨hc, hsz⟩ := hD
      subst hc; subst hsz
      simp only [Fin.lt_def, not_or, not_lt] at hs1
      have e := encode2 b s1 hr.1 hr.2 (by omega) (by omega)
      refine ⟨by omega, by omega, by simp, ?_, ?_, by omega, by omega, by omega⟩
      · simpa using e
      · intro tail
        simp only [List.take, List.cons_append, List.nil_append]
        rw [DecodeRune_two b s1 _ lo hi hb h]
        simp only [Fin.lt_def]
        rw [if_neg (by omega)]

theorem decode_valid3 (b : Byte) (r : GoString) (hb : ¬ b < 0x80) (lo hi : Byte)
    (h : leadInfo b = some (3, lo, hi))
    (hr : (b.val = 0xE0 ∧ lo.val = 0xA0 ∧ hi.val = 0xBF) ∨
      (0xE1 ≤ b.val ∧ b.val ≤ 0xEF ∧ b.val ≠ 0xED ∧ lo.val = 0x80 ∧ hi.val = 0xBF) ∨
      (b.val = 0xED ∧ lo.val = 0x80 ∧ hi.val = 0x9F))
    (c size : Nat) (hD : DecodeRune ((b :: r).take 4) = (c, size)) (hv : size ≠ 1) :
    2 ≤ size ∧ size ≤ 4 ∧ size ≤ (b :: r).length ∧ EncodeRune c = (b :: r).take size ∧
    (∀ tail : GoString, DecodeRune (((b :: r).take size ++ tail).take 4) = (c, size)) ∧
    0x80 ≤ c ∧ ¬ (0xD800 ≤ c ∧ c < 0xE000) ∧ c ≤ 0x10FFFF := by
  match r, hD with
  | [], hD =>
    simp only [List.take, DecodeRune_one b 3 lo hi hb h, Prod.mk.injEq] at hD
    omega
  | [s1], hD =>
    simp only [List.take, DecodeRune_three_short b s1 lo hi 3 (le_refl _) hb h,
      Prod.mk.injEq] at hD
    omega
  | s1 :: s2 :: t, hD =>
    simp only [List.take, DecodeRune_three b s1 s2 _ lo hi hb h] at hD
    split at hD
    · simp only [Prod.mk.injEq] at hD; omega
    · rename_i hs1
      split at hD
      · simp only [Prod.mk.injEq] at hD; omega
      · rename_i hs2
        simp only [Prod.mk.injEq] at hD
        obtain ⟨hc, hsz⟩ := hD
        subst hc; subst hsz
        simp only [Fin.lt_def, not_or, not_lt] at hs1
        have hs2o := hs2
        simp only [isCont, Bool.and_eq_false_imp, decide_eq_true_eq, decide_eq_false_iff_not,
          not_forall, Classical.not_imp, not_not, Fin.le_def, exists_prop] at hs2
        have hs2a : 0x80 ≤ s2.val := hs2.1
        have hs2b : s2.val ≤ 0xBF := hs2.2
        have e := encode3 b s1 s2 (by omega) hs2a hs2b
        refine ⟨by omega, by omega, by simp, ?_, ?_, by omega, by omega, by omega⟩
        · simpa using e
        · intro tail
          simp only [List.take, List.cons_append, List.nil_append]
          rw [DecodeRune_three b s1 s2 _ lo hi hb h]
          simp only [Fin.lt_def]
          rw [if_neg (by omega), if_neg hs2o]

theorem decode_valid4 (b : Byte) (r : GoString) (hb : ¬ b < 0x80) (lo hi : Byte)
    (h : leadInfo b = some (4, lo, hi))
    (hr : (b.val = 0xF0 ∧ lo.val = 0x90 ∧ hi.val = 0xBF) ∨
      (0xF1 ≤ b.val ∧ b.val ≤ 0xF3 ∧ lo.val = 0x80 ∧ hi.val = 0xBF) ∨
      (b.val = 0xF4 ∧ lo.val = 0x80 ∧ hi.val = 0x8F))
    (c size : Nat) (hD : DecodeRune ((b :: r).take 4) = (c, size)) (hv : size ≠ 1) :
    2 ≤ size ∧ size ≤ 4 ∧ size ≤ (b :: r).length ∧ EncodeRune c = (b :: r).take size ∧
    (∀ tail : GoString, DecodeRune (((b :: r).take size ++ tail).take 4) = (c, size)) ∧
    0x80 ≤ c ∧ ¬ (0xD800 ≤ c ∧ c < 0xE000) ∧ c ≤ 0x10FFFF := by
  match r, hD with
  | [], hD =>
    simp only [List.take, DecodeRune_one b 4 lo hi hb h, Prod.mk.injEq] at hD
    omega
  | [s1], hD =>
    simp only [List.take, DecodeRune_three_short b s1 lo hi 4 (by omega) hb h,
      Prod.mk.injEq] at hD
    omega
  | [s1, s2], hD =>
    simp only [List.take, DecodeRune_four_short b s1 s2 lo hi hb h, Prod.mk.injEq] at hD
    omega
  | s1 :: s2 :: s3 :: t, hD =>
    simp only [List.take, DecodeRune_four b s1 s2 s3 _ lo hi hb h] at hD
    split at hD
    · simp only [Prod.mk.injEq] at hD; omega
    · rename_i hs1
      split at hD
      · simp only [Prod.mk.injEq] at hD; omega
      · rename_i hs2
        split at hD
        · simp only [Prod.mk.injEq] at hD; omega
        · rename_i hs3
          simp only [Prod.mk.injEq] at hD
          obtain ⟨hc, hsz⟩ := hD
          subst hc; subst hsz
          simp only [Fin.lt_def, not_or, not_lt] at hs1
          have hs2o := hs2
          have hs3o := hs3
          simp only [isCont, Bool.and_eq_false_imp, decide_eq_true_eq, decide_eq_false_iff_not,
            not_forall, Classical.not_imp, not_not, Fin.le_def, exists_prop] at hs2 hs3
          have hs2a : 0x80 ≤ s2.val := hs2.1
          have hs2b : s2.val ≤ 0xBF := hs2.2
          have hs3a : 0x80 ≤ s3.val := hs3.1
          have hs3b : s3.val ≤ 0xBF := hs3.2
          have e := encode4 b s1 s2 s3 (by omega) hs2a hs2b hs3a hs3b
          refine ⟨by omega, by omega, by simp, ?_, ?_, by omega, by omega, by omega⟩
          · simpa using e.1
          · intro tail
            simp only [List.take, List.cons_append, List.nil_append]
            rw [DecodeRune_four b s1 s2 s3 _ lo hi hb h]
            simp only [Fin.lt_def]
            rw [if_neg (by omega), if_neg hs2o, if_neg hs3o]

theorem decode_valid (b : Byte) (r : GoString) (hb : ¬ b < 0x80)
    (c size : Nat) (hD : DecodeRune ((b :: r).take 4) = (c, size)) (hv : size ≠ 1) :
    2 ≤ size ∧ size ≤ 4 ∧ size ≤ (b :: r).length ∧ EncodeRune c = (b :: r).take size ∧
    (∀ tail : GoString, DecodeRune (((b :: r).take size ++ tail).take 4) = (c, size)) ∧
    0x80 ≤ c ∧ ¬ (0xD800 ≤ c ∧ c < 0xE000) ∧ c ≤ 0x10FFFF := by
  rcases leadInfo_cases b with h | ⟨h, a1, a2⟩ | ⟨h, a⟩ | ⟨h, a1, a2, a3⟩ | ⟨h, a⟩ | ⟨h, a⟩ |
    ⟨h, a1, a2⟩ | ⟨h, a⟩
  · have : (b :: r).take 4 = b :: r.take 3 := rfl
    rw [this, DecodeRune_none b _ hb h] at hD
    simp only [Prod.mk.injEq] at hD
    omega
  · exact decode_valid2 b r hb _ _ h (by decide) (by decide) ⟨a1, a2⟩ c size hD hv
  · subst a
    exact decode_valid3 _ r hb _ _ h (Or.inl ⟨rfl, rfl, rfl⟩) c size hD hv
  · simp only [Fin.le_def, ne_eq, Fin.ext_iff] at a1 a2 a3
    exact decode_valid3 b r hb _ _ h (Or.inr (Or.inl ⟨a1, a2, a3, rfl, rfl⟩)) c size hD hv
  · subst a
    exact decode_valid3 _ r hb _ _ h (Or.inr (Or.inr ⟨rfl, rfl, rfl⟩)) c size hD hv
  · subst a
    exact decode_valid4 _ r hb _ _ h (Or.inl ⟨rfl, rfl, rfl⟩) c size hD hv
  · simp only [Fin.le_def] at a1 a2
    exact decode_valid4 b r hb _ _ h (Or.inr (Or.inl ⟨a1, a2, rfl, rfl⟩)) c size hD hv
  · subst a
    exact decode_valid4 _ r hb _ _ h (Or.inr (Or.inr ⟨rfl, rfl, rfl⟩)) c size hD hv

/-! ## JSON strings -/

set_option maxRecDepth 100000 in
theorem htmlSafe_facts : ∀ b : Byte, htmlSafeSet b = true →
    b ≠ ch '"' ∧ b ≠ ch '\\' ∧ ¬ b < 0x20 ∧ b < 0x80 := by
  decide

set_option maxRecDepth 100000 in
theorem appendEscaped_facts : ∀ b : Byte, b < 0x80 → htmlSafeSet b = false →
    (appendEscaped b = [ch '\\', (appendEscaped b).getD 1 0] ∧
      (appendEscaped b).getD 1 0 ≠ ch 'u' ∧
      simpleEscape ((appendEscaped b).getD 1 0) = some b) ∨
    (appendEscaped b = [ch '\\', ch 'u', ch '0', ch '0', hex (b.val / 16), hex (b.val % 16)] ∧
      (ishex (hex (b.val / 16)) && ishex (hex (b.val % 16))) = true ∧
      unhex (hex (b.val / 16)) * 16 + unhex (hex (b.val % 16)) = b.val ∧
      EncodeRune b.val = [b]) := by
  decide

set_option maxRecDepth 100000 in
theorem high_facts : ∀ b : Byte, ¬ b < 0x80 → b ≠ ch '"' ∧ b ≠ ch '\\' ∧ ¬ b < 0x20 := by
  decide

theorem unquoteLoop_plain (f : Nat) (c : Byte) (rest : GoString) (h1 : c ≠ ch '"')
    (h2 : c ≠ ch '\\') :
    unquoteLoop (f + 1) (c :: rest) =
      if c < 0x20 then none
      else if c < 0x80 then prepend [c] (unquoteLoop f rest)
      else
        prepend (EncodeRune (DecodeRune ((c :: rest).take 4)).1)
          (unquoteLoop f (rest.drop ((DecodeRune ((c :: rest).take 4)).2 - 1))) := by
  cases rest with
  | nil => rw [unquoteLoop.eq_3]; simp only [h1, h2, if_false]
  | cons e rest1 => rw [unquoteLoop.eq_4]; simp only [h1, h2, if_false]

theorem unquoteLoop_simple (f : Nat) (e b : Byte) (rest : GoString) (h1 : e ≠ ch 'u')
    (h2 : simpleEscape e = some b) :
    unquoteLoop (f + 1) (ch '\\' :: e :: rest) = prepend [b] (unquoteLoop f rest) := by
  have q1 : ch '\\' ≠ ch '"' := by decide
  rw [unquoteLoop.eq_4]
  simp only [q1, h1, h2, if_true, if_false]

theorem unquoteLoop_u4 (f : Nat) (a b c d : Byte) (rest : GoString)
    (hx : (ishex a && ishex b && ishex c && ishex d) = true)
    (hs : ¬ (0xD800 ≤ ((unhex a * 16 + unhex b) * 16 + unhex c) * 16 + unhex d ∧
      ((unhex a * 16 + unhex b) * 16 + unhex c) * 16 + unhex d < 0xE000)) :
    unquoteLoop (f + 1) (ch '\\' :: ch 'u' :: a :: b :: c :: d :: rest) =
      prepend (EncodeRune (((unhex a * 16 + unhex b) * 16 + unhex c) * 16 + unhex d))
        (unquoteLoop f rest) := by
  have q1 : ch '\\' ≠ ch '"' := by decide
  rw [unquoteLoop.eq_4]
  simp only [q1, if_true, if_false, getu4, hx, and_self, hs]

theorem unquote_safe (b : Byte) (hs : htmlSafeSet b = true) (f : Nat) (T : GoString) :
    unquoteLoop (f + 1) (b :: T) = prepend [b] (unquoteLoop f T) := by
  obtain ⟨h1, h2, h3, h4⟩ := htmlSafe_facts b hs
  rw [unquoteLoop_plain f b T h1 h2]
  simp only [h3, h4, if_true, if_false]

theorem unquote_escaped (b : Byte) (hb : b < 0x80) (hs : htmlSafeSet b = false) (f : Nat)
    (T : GoString) :
    unquoteLoop (f + 1) (appendEscaped b ++ T) = prepend [b] (unquoteLoop f T) := by
  rcases appendEscaped_facts b hb hs with ⟨h1, h2, h3⟩ | ⟨h1, h2, h3, h4⟩
  · rw [h1]
    simp only [List.cons_append, List.nil_append]
    exact unquoteLoop_simple f _ b T h2 h3
  · rw [h1]
    simp only [List.cons_append, List.nil_append]
    have q2 : ishex (ch '0') = true := by decide
    have q3 : unhex (ch '0') = 0 := by decide
    rw [unquoteLoop_u4 f _ _ _ _ T (by simpa [q2] using h2) (by rw [q3]; omega)]
    rw [q3]
    simp only [Nat.zero_mul, Nat.zero_add, h3, h4]

theorem prepend_some (bs s T : GoString) : prepend bs (some (s, T)) = some (bs ++ s, T) := rfl

set_option maxRecDepth 100000 in
theorem u202_facts :
    ishex (ch '2') = true ∧ ishex (ch '0') = true ∧ unhex (ch '2') = 2 ∧ unhex (ch '0') = 0 ∧
    ishex (hex 8) = true ∧ ishex (hex 9) = true ∧ unhex (hex 8) = 8 ∧ unhex (hex 9) = 9 ∧
    lit "\\u202" = [ch '\\', ch 'u', ch '2', ch '0', ch '2'] := by
  decide

/-- The decoder of JSON strings reads back what `appendString` writes for a
valid UTF-8 string, and stops just after the closing quote. -/
theorem unquote_appendStringLoop (n : Nat) :
    ∀ (s : GoString), s.length ≤ n → validLoop n s = true →
      ∀ (f : Nat) (T : GoString), (appendStringLoop n s).length < f →
        unquoteLoop f (appendStringLoop n s ++ ch '"' :: T) = some (s, T) := by
  induction n with
  | zero =>
    intro s hs _ f T hf
    have : s = [] := List.length_eq_zero.mp (by omega)
    subst this
    obtain ⟨f', rfl⟩ : ∃ f', f = f' + 1 := ⟨f - 1, by omega⟩
    simp [appendStringLoop, unquoteLoop]
  | succ n ih =>
    intro s hs hv f T hf
    obtain ⟨f', rfl⟩ : ∃ f', f = f' + 1 := ⟨f - 1, by omega⟩
    match s, hs, hv, hf with
    | [], _, _, _ => simp [appendStringLoop, unquoteLoop]
    | b :: rest, hs, hv, hf =>
      have hrest : rest.length ≤ n := by simpa using hs
      by_cases hb : b < 0x80
      · simp only [validLoop, hb, if_true] at hv
        simp only [appendStringLoop, hb, if_true] at hf ⊢
        have hlen : (appendStringLoop n rest).length < f' := by
          simp only [List.length_append] at hf
          have : 0 < (if htmlSafeSet b = true then [b] else appendEscaped b).length := by
            split
            · simp
            · rename_i hns
              rcases appendEscaped_facts b hb (by simpa using hns) with ⟨h1, _⟩ | ⟨h1, _⟩ <;>
                rw [h1] <;> simp
          omega
        by_cases hsafe : htmlSafeSet b = true
        · rw [if_pos hsafe]
          simp only [List.singleton_append, List.cons_append]
          rw [unquote_safe b hsafe, List.nil_append, ih rest hrest hv f' T hlen, prepend_some]
          rfl
        · rw [if_neg hsafe, List.append_assoc]
          rw [unquote_escaped b hb (by simpa using hsafe), ih rest hrest hv f' T hlen,
            prepend_some]
          rfl
      · obtain ⟨c, size, hD⟩ : ∃ c size, DecodeRune ((b :: rest).take 4) = (c, size) :=
          ⟨_, _, rfl⟩
        simp only [validLoop, hb, if_false, hD] at hv
        have hsize : size ≠ 1 := by
          intro h1
          simp [h1] at hv
        simp only [hsize, if_false] at hv
        obtain ⟨g1, g2, g3, g4, g5, g6, g7, g8⟩ := decode_valid b rest hb c size hD hsize
        have hdrop : (rest.drop (size - 1)).length ≤ n := by
          simp only [List.length_drop]; omega
        have hsplit : b :: rest = (b :: rest).take size ++ rest.drop (size - 1) := by
          have : rest.drop (size - 1) = (b :: rest).drop size := by
            obtain ⟨k, rfl⟩ : ∃ k, size = k + 1 := ⟨size - 1, by omega⟩
            simp
          rw [this, List.take_append_drop]
        have hne : ¬ (c = RuneError ∧ size = 1) := fun h => hsize h.2
        simp only [appendStringLoop, hb, if_false, hD, hne] at hf ⊢
        by_cases h28 : c = 0x2028 ∨ c = 0x2029
        · simp only [h28, if_true, List.append_assoc] at hf ⊢
          obtain ⟨u1, u2, u3, u4, u5, u6, u7, u8, u9⟩ := u202_facts
          have hlen : (appendStringLoop n (rest.drop (size - 1))).length < f' := by
            simp only [List.length_append, u9, List.length_cons, List.length_nil] at hf
            omega
          rw [u9]
          simp only [List.cons_append, List.nil_append, List.singleton_append]
          have hx : (ishex (ch '2') && ishex (ch '0') && ishex (ch '2') &&
              ishex (hex (c % 16))) = true := by
            rcases h28 with h | h <;> subst h <;> simp [u1, u2, u5, u6]
          have hval : ((unhex (ch '2') * 16 + unhex (ch '0')) * 16 + unhex (ch '2')) * 16 +
              unhex (hex (c % 16)) = c := by
            rcases h28 with h | h <;> subst h <;> simp [u3, u4, u7, u8]
          rw [unquoteLoop_u4 f' _ _ _ _ _ hx (by rw [hval]; exact g7), hval,
            ih _ hdrop hv f' T hlen, prepend_some, g4, ← hsplit]
        · simp only [h28, if_false, List.append_assoc] at hf ⊢
          have hlen : (appendStringLoop n (rest.drop (size - 1))).length < f' := by
            simp only [List.length_append] at hf
            have : 0 < ((b :: rest).take size).length := by
              simp only [List.length_take, List.length_cons]; omega
            omega
          obtain ⟨k, hk⟩ : ∃ k, size = k + 1 := ⟨size - 1, by omega⟩
          have htake : (b :: rest).take size = b :: rest.take k := by rw [hk]; rfl
          have hD' := g5 (appendStringLoop n (rest.drop (size - 1)) ++ ch '"' :: T)
          rw [htake] at hD' ⊢
          simp only [List.cons_append] at hD' ⊢
          obtain ⟨q1, q2, q3⟩ := high_facts b hb
          rw [unquoteLoop_plain f' b _ q1 q2]
          simp only [q3, hb, if_false, hD']
          have hdrop2 : (rest.take k ++
              (appendStringLoop n (rest.drop (size - 1)) ++ ch '"' :: T)).drop (size - 1) =
              appendStringLoop n (rest.drop (size - 1)) ++ ch '"' :: T := by
            have hl : (rest.take k).length = size - 1 := by
              simp only [List.length_take]
              simp only [List.length_cons] at g3
              omega
            rw [← hl, List.drop_left]
          rw [hdrop2, ih _ hdrop hv f' T hlen, prepend_some, g4, ← hsplit]

/-! ## JSON objects -/

theorem unquote_appendString (s T : GoString) (hv : ValidString s = true) :
    unquoteLoop (appendStringLoop s.length s ++ ch '"' :: T).length
      (appendStringLoop s.length s ++ ch '"' :: T) = some (s, T) := by
  apply unquote_appendStringLoop s.length s (le_refl _) hv
  simp only [List.length_append, List.length_cons]
  omega

theorem appendString_append (s T : GoString) :
    appendString s ++ T = ch '"' :: (appendStringLoop s.length s ++ ch '"' :: T) := by
  simp [appendString]

theorem mapEncodeLoop_pos (L : List (GoString × GoString)) :
    ∀ i : Nat, 0 < i → mapEncodeLoop i L = mapEncodeLoop 1 L := by
  induction L with
  | nil => intro i _; rfl
  | cons e rest ih =>
    intro i hi
    obtain ⟨k, v⟩ := e
    simp only [mapEncodeLoop, hi, if_true]
    rw [ih (i + 1) (by omega), ih (1 + 1) (by omega)]
    simp

set_option maxRecDepth 100000 in
theorem skipSpace_facts (x : GoString) :
    skipSpace (ch '"' :: x) = ch '"' :: x ∧ skipSpace (ch ':' :: x) = ch ':' :: x ∧
    skipSpace (ch ',' :: x) = ch ',' :: x ∧ skipSpace (ch '\x7d' :: x) = ch '\x7d' :: x ∧
    skipSpace (ch '\x7b' :: x) = ch '\x7b' :: x := by
  have h1 : isSpace (ch '"') = false := by decide
  have h2 : isSpace (ch ':') = false := by decide
  have h3 : isSpace (ch ',') = false := by decide
  have h4 : isSpace (ch '\x7d') = false := by decide
  have h5 : isSpace (ch '\x7b') = false := by decide
  simp [skipSpace, h1, h2, h3, h4, h5]

theorem membersLoop_encoded (rest : List (GoString × GoString)) :
    ∀ (k v : GoString) (m : GoMap GoString) (fuel : Nat),
      ValidString k = true → ValidString v = true →
      (∀ e ∈ rest, ValidString e.1 = true ∧ ValidString e.2 = true) →
      rest.length < fuel →
      membersLoop fuel
        (appendString k ++ (ch ':' :: (appendString v ++ (mapEncodeLoop 1 rest ++ [ch '\x7d'])))) m =
        some (rest.foldl (fun acc e => GoMap.set acc e.1 e.2) (GoMap.set m k v)) := by
  induction rest with
  | nil =>
    intro k v m fuel hk hv _ hf
    obtain ⟨f, rfl⟩ : ∃ f, fuel = f + 1 := ⟨fuel - 1, by omega⟩
    rw [appendString_append, membersLoop]
    simp only [ne_eq, not_true_eq_false, if_false]
    rw [unquote_appendString k _ hk]
    simp only [(skipSpace_facts _).2.1, ne_eq, not_true_eq_false, if_false]
    rw [appendString_append]
    simp only [(skipSpace_facts _).1, ne_eq, not_true_eq_false, if_false]
    rw [unquote_appendString v _ hv]
    have q1 : ch '\x7d' ≠ ch ',' := by decide
    have hn : skipSpace [] = [] := rfl
    simp only [mapEncodeLoop, List.nil_append, (skipSpace_facts _).2.2.2.1, q1, if_false,
      hn, and_self, if_true, List.foldl_nil]
  | cons e rest ih =>
    intro k v m fuel hk hv hall hf
    obtain ⟨k', v'⟩ := e
    obtain ⟨f, rfl⟩ : ∃ f, fuel = f + 1 := ⟨fuel - 1, by omega⟩
    have he := hall (k', v') (by simp)
    rw [appendString_append, membersLoop]
    simp only [ne_eq, not_true_eq_false, if_false]
    rw [unquote_appendString k _ hk]
    simp only [(skipSpace_facts _).2.1, ne_eq, not_true_eq_false, if_false]
    rw [appendString_append]
    simp only [(skipSpace_facts _).1, ne_eq, not_true_eq_false, if_false]
    rw [unquote_appendString v _ hv]
    have hm : mapEncodeLoop 1 ((k', v') :: rest) ++ [ch '\x7d'] =
        ch ',' :: (appendString k' ++ (ch ':' :: (appendString v' ++
          (mapEncodeLoop 1 rest ++ [ch '\x7d'])))) := by
      simp only [mapEncodeLoop, Nat.lt_one_iff, gt_iff_lt, Nat.zero_lt_one, if_true]
      rw [mapEncodeLoop_pos rest (1 + 1) (by omega)]
      simp
    rw [hm]
    simp only [(skipSpace_facts _).2.2.1, if_true]
    have hq : skipSpace (appendString k' ++ (ch ':' :: (appendString v' ++
        (mapEncodeLoop 1 rest ++ [ch '\x7d'])))) =
        appendString k' ++ (ch ':' :: (appendString v' ++
          (mapEncodeLoop 1 rest ++ [ch '\x7d']))) := by
      rw [appendString_append, (skipSpace_facts _).1]
    rw [hq, ih k' v' _ f he.1 he.2 (fun e h => hall e (by simp [h]))
      (by simp only [List.length_cons] at hf; omega)]
    rfl

theorem length_le_mapEncodeLoop (L : List (GoString × GoString)) :
    ∀ i, L.length ≤ (mapEncodeLoop i L).length := by
  induction L with
  | nil => intro i; simp [mapEncodeLoop]
  | cons e rest ih =>
    intro i
    obtain ⟨k, v⟩ := e
    have := ih (i + 1)
    simp only [mapEncodeLoop, List.length_append, List.length_cons, appendString,
      List.length_nil]
    omega

/-- Decoding what `json.Marshal` writes for a map with distinct keys whose keys
and values are valid UTF-8 gives the entries of the map, in key order. -/
theorem jsonUnmarshal_jsonMarshal (m : GoMap GoString) (hnd : (m.map Prod.fst).Nodup)
    (hvalid : ∀ e ∈ m, ValidString e.1 = true ∧ ValidString e.2 = true) :
    jsonUnmarshal (jsonMarshal m) = some (GoMap.sorted m) := by
  have hperm := GoMap.sorted_perm m
  have hnd' : ((GoMap.sorted m).map Prod.fst).Nodup :=
    (List.Perm.nodup_iff (hperm.map Prod.fst)).mpr hnd
  have hvalid' : ∀ e ∈ GoMap.sorted m, ValidString e.1 = true ∧ ValidString e.2 = true :=
    fun e he => hvalid e (hperm.mem_iff.mp he)
  have hlen := length_le_mapEncodeLoop (GoMap.sorted m) 0
  simp only [jsonMarshal, jsonUnmarshal] at *
  generalize GoMap.sorted m = L at *
  have hn : skipSpace [] = [] := rfl
  simp only [List.singleton_append, List.cons_append, List.nil_append,
    (skipSpace_facts _).2.2.2.2, ne_eq, not_true_eq_false, if_false]
  cases L with
  | nil =>
    simp only [mapEncodeLoop, List.nil_append, (skipSpace_facts _).2.2.2.1, if_true, hn]
  | cons e rest =>
    obtain ⟨k, v⟩ := e
    have he := hvalid' (k, v) (by simp)
    have htext : mapEncodeLoop 0 ((k, v) :: rest) ++ [ch '\x7d'] =
        appendString k ++ (ch ':' :: (appendString v ++
          (mapEncodeLoop 1 rest ++ [ch '\x7d']))) := by
      simp [mapEncodeLoop]
    rw [htext]
    have hq : skipSpace (appendString k ++ (ch ':' :: (appendString v ++
        (mapEncodeLoop 1 rest ++ [ch '\x7d'])))) =
        ch '"' :: (appendStringLoop k.length k ++ ch '"' :: (ch ':' :: (appendString v ++
          (mapEncodeLoop 1 rest ++ [ch '\x7d'])))) := by
      rw [appendString_append, (skipSpace_facts _).1]
    rw [hq]
    have q1 : ch '"' ≠ ch '\x7d' := by decide
    simp only [q1, if_false]
    rw [← appendString_append]
    rw [membersLoop_encoded rest k v [] _ he.1 he.2 (fun e h => hvalid' e (by simp [h]))]
    · have := GoMap.foldl_set_eq_append ((k, v) :: rest) [] hnd' (by simp)
      simp only [List.foldl_cons, List.nil_append] at this
      rw [this]
    · rw [← htext]
      simp only [List.length_cons, List.length_append, List.length_nil] at hlen ⊢
      omega

/-! ## The `arguments` parameter -/

theorem foldl_set_nodup (l m : GoMap GoString) (hm : (m.map Prod.fst).Nodup) :
    ((l.foldl (fun acc e => GoMap.set acc e.1 e.2) m).map Prod.fst).Nodup := by
  induction l generalizing m with
  | nil => simpa using hm
  | cons e rest ih =>
    simp only [List.foldl_cons]
    exact ih _ (GoMap.nodup_set m e.1 e.2 hm)

/-- The map built by the argument loop never holds a key twice. -/
theorem deeplinkArgs_nodup (command : RaycastCommand) (args : List GoString)
    (dArgs : GoMap GoString) (h : deeplinkArgs command args = .ok dArgs) :
    (dArgs.map Prod.fst).Nodup := by
  rw [deeplinkArgs_eq] at h
  cases hm : firstMissing command args.length with
  | some a => rw [hm] at h; simp at h
  | none =>
    rw [hm] at h
    simp only [Except.ok.injEq] at h
    rw [← h]
    exact foldl_set_nodup _ [] (by simp)

theorem query_get_arguments (command : RaycastCommand) (dArgs : GoMap GoString) (stdin : Stdin)
    (q : Values) (h : query command dArgs stdin = .ok q) (hne : dArgs ≠ []) :
    GoMap.get q (lit "arguments") = some [jsonMarshal dArgs] := by
  obtain ⟨context, _, hq⟩ := query_ok command dArgs stdin q h
  have ha : dArgs.length > 0 := List.length_pos.mpr hne
  subst hq
  by_cases hm : command.Mode = lit "view" <;> by_cases hc : context.length > 0 <;>
    simp [hm, ha, hc, Values.Set, GoMap.get_set, context_ne_arguments, launchType_ne_arguments,
      GoMap.get]

/-- C4: for a non-empty arguments map with distinct keys whose names and values
are valid UTF-8, reading the produced query string back with `ParseQuery`
(which percent-decodes it) succeeds, the value it holds for `arguments` is the
JSON text the handler wrote, and decoding that JSON text gives a map with the
same entries as the original: the entries in key order, in which every key has
the value it has in the original map. -/
theorem arguments_round_trip (command : RaycastCommand) (dArgs : GoMap GoString)
    (stdin : Stdin) (q : Values)
    (hne : dArgs ≠ []) (hnd : (dArgs.map Prod.fst).Nodup)
    (hvalid : ∀ e ∈ dArgs, ValidString e.1 = true ∧ ValidString e.2 = true)
    (hq : query command dArgs stdin = .ok q) :
    (ParseQuery q.Encode).2 = none ∧
    Values.Get (ParseQuery q.Encode).1 (lit "arguments") = jsonMarshal dArgs ∧
    jsonUnmarshal (Values.Get (ParseQuery q.Encode).1 (lit "arguments")) =
      some (GoMap.sorted dArgs) ∧
    (∀ k : GoString, GoMap.get (GoMap.sorted dArgs) k = GoMap.get dArgs k) ∧
    List.Perm (GoMap.sorted dArgs) dArgs := by
  obtain ⟨hqnd, hqs⟩ := query_single_valued command dArgs stdin q hq
  have hget : Values.Get (ParseQuery q.Encode).1 (lit "arguments") = jsonMarshal dArgs := by
    rw [ParseQuery_Encode q hqnd hqs]
    simp only [Values.Get]
    rw [GoMap.get_sorted q _ hqnd, query_get_arguments command dArgs stdin q hq hne]
  refine ⟨?_, hget, ?_, fun k => GoMap.get_sorted dArgs k hnd, GoMap.sorted_perm dArgs⟩
  · rw [ParseQuery_Encode q hqnd hqs]
  · rw [hget]
    exact jsonUnmarshal_jsonMarshal dArgs hnd hvalid

set_option maxRecDepth 100000 in
theorem arguments_round_trip_witness :
    deeplinkArgs cmdAB [lit "1", lit "2"] = .ok [(lit "a", lit "1"), (lit "b", lit "2")] ∧
    query cmdAB [(lit "a", lit "1"), (lit "b", lit "2")] .terminal =
      .ok [(lit "arguments", [lit "\x7b\"a\":\"1\",\"b\":\"2\"\x7d"])] ∧
    Values.Encode [(lit "arguments", [lit "\x7b\"a\":\"1\",\"b\":\"2\"\x7d"])] =
      lit "arguments=%7B%22a%22%3A%221%22%2C%22b%22%3A%222%22%7D" ∧
    jsonUnmarshal (Values.Get
        (ParseQuery (Values.Encode
          [(lit "arguments", [lit "\x7b\"a\":\"1\",\"b\":\"2\"\x7d"])])).1 (lit "arguments")) =
      some [(lit "a", lit "1"), (lit "b", lit "2")] :=
  ⟨by decide, by decide, by decide,
   ((arguments_round_trip cmdAB [(lit "a", lit "1"), (lit "b", lit "2")] .terminal
      [(lit "arguments", [lit "\x7b\"a\":\"1\",\"b\":\"2\"\x7d"])]
      (by decide) (by decide) (by decide) (by decide)).2.2.1).trans (by decide)⟩

/-! ## The usage line -/

theorem useLoop_use (l : List Argument) (u : GoString) (a b : Nat) :
    (useLoop l (u, a, b)).1 = u ++ l.flatMap placeholder := by
  induction l generalizing u a b with
  | nil => simp [useLoop]
  | cons x xs ih =>
    cases hx : x.Required
    · simp [useLoop, hx, ih, placeholder, List.flatMap_cons]
    · simp [useLoop, hx, ih, placeholder, List.flatMap_cons]

theorem isRequiredPlaceholder_placeholder (a : Argument) :
    isRequiredPlaceholder (placeholder a) = a.Required := by
  have h1 : lit " <" = [ch ' ', ch '<'] := by decide
  have h2 : lit " [" = [ch ' ', ch '['] := by decide
  have h3 : ch '[' ≠ ch '<' := by decide
  cases hx : a.Required
  · simp [isRequiredPlaceholder, placeholder, hx, h1, h2, h3]
  · simp [isRequiredPlaceholder, placeholder, hx, h1]

/-- C13: the usage string is the name of the command followed, for each declared
argument in order, by ` <name>` when it is required and ` [name]` when it is
optional; the number of `<...>` placeholders is `minArgs` and the number of
all placeholders is `maxArgs`. -/
theorem use_placeholders (manifest : RaycastManifest) (command : RaycastCommand) :
    (NewCmdCommand manifest command).Use =
      command.Name ++ (command.Arguments.map placeholder).flatten ∧
    (∀ a : Argument, placeholder a =
      if a.Required then lit " <" ++ a.Name ++ lit ">" else lit " [" ++ a.Name ++ lit "]") ∧
    (command.Arguments.map placeholder).countP isRequiredPlaceholder = minArgs command ∧
    (command.Arguments.map placeholder).length = maxArgs command := by
  refine ⟨?_, fun a => rfl, ?_, ?_⟩
  · show use command = _
    rw [use, useLoop_use, List.flatMap_def]
  · rw [minArgs_eq, List.countP_map]
    congr 1
    funext a
    exact isRequiredPlaceholder_placeholder a
  · rw [maxArgs_eq, List.length_map]

/-! ## The argument map without assumptions on the names -/

theorem GoMap.length_set_le {V : Type} (m : GoMap V) (k : GoString) (v : V) :
    (GoMap.set m k v).length ≤ m.length + 1 ∧ 0 < (GoMap.set m k v).length := by
  induction m with
  | nil => simp [GoMap.set]
  | cons e rest ih =>
    obtain ⟨a, b⟩ := e
    by_cases h : a = k
    · simp [GoMap.set, h]
    · simp only [GoMap.set, h, if_false, List.length_cons]
      omega

theorem GoMap.mem_keys_set {V : Type} (m : GoMap V) (k k' : GoString) (v : V) :
    k' ∈ (GoMap.set m k v).map Prod.fst ↔ k' = k ∨ k' ∈ m.map Prod.fst := by
  rw [GoMap.keys_set]
  split
  · rename_i h
    constructor
    · exact Or.inr
    · rintro (rfl | h1)
      · exact h
      · exact h1
  · simp only [List.mem_append, List.mem_singleton]
    exact or_comm

theorem foldl_set_keys (z m : GoMap GoString) (k : GoString) :
    k ∈ (z.foldl (fun acc e => GoMap.set acc e.1 e.2) m).map Prod.fst ↔
      k ∈ m.map Prod.fst ∨ k ∈ z.map Prod.fst := by
  induction z generalizing m with
  | nil => simp
  | cons e rest ih =>
    simp only [List.foldl_cons, ih, GoMap.mem_keys_set, List.map_cons, List.mem_cons]
    constructor
    · rintro ((h | h) | h)
      · exact Or.inr (Or.inl h)
      · exact Or.inl h
      · exact Or.inr (Or.inr h)
    · rintro (h | h | h)
      · exact Or.inl (Or.inr h)
      · exact Or.inl (Or.inl h)
      · exact Or.inr h

theorem foldl_set_length (z m : GoMap GoString) :
    (z.foldl (fun acc e => GoMap.set acc e.1 e.2) m).length ≤ m.length + z.length ∧
    (z ≠ [] → 0 < (z.foldl (fun acc e => GoMap.set acc e.1 e.2) m).length) ∧
    m.length ≤ (z.foldl (fun acc e => GoMap.set acc e.1 e.2) m).length := by
  induction z generalizing m with
  | nil => simp
  | cons e rest ih =>
    have h1 := GoMap.length_set_le m e.1 e.2
    have h2 := ih (GoMap.set m e.1 e.2)
    have h3 : m.length ≤ (GoMap.set m e.1 e.2).length := by
      have : (GoMap.set m e.1 e.2).map Prod.fst = _ := GoMap.keys_set m e.1 e.2
      have hl : (GoMap.set m e.1 e.2).length = ((GoMap.set m e.1 e.2).map Prod.fst).length := by
        simp
      rw [hl, this]
      split <;> simp
    simp only [List.foldl_cons, List.length_cons, ne_eq, reduceCtorEq, not_false_eq_true,
      true_implies]
    omega

theorem foldl_set_get_of_not_mem (z m : GoMap GoString) (k : GoString)
    (h : k ∉ z.map Prod.fst) :
    GoMap.get (z.foldl (fun acc e => GoMap.set acc e.1 e.2) m) k = GoMap.get m k := by
  induction z generalizing m with
  | nil => rfl
  | cons e rest ih =>
    simp only [List.map_cons, List.mem_cons, not_or] at h
    simp only [List.foldl_cons]
    rw [ih _ h.2, GoMap.get_set]
    have : ¬ e.1 = k := fun e' => h.1 e'.symm
    simp [this]

/-- The value stored for a key is the one of the last pair that carries it. -/
theorem foldl_set_get_last (z : GoMap GoString) :
    ∀ (m : GoMap GoString) (i : Nat) (hi : i < z.length),
      (∀ j (hj : j < z.length), i < j → (List.get z ⟨j, hj⟩).1 ≠ (List.get z ⟨i, hi⟩).1) →
      GoMap.get (z.foldl (fun acc e => GoMap.set acc e.1 e.2) m) (List.get z ⟨i, hi⟩).1 =
        some (List.get z ⟨i, hi⟩).2 := by
  induction z with
  | nil => intro m i hi; simp at hi
  | cons e rest ih =>
    intro m i hi hlast
    cases i with
    | zero =>
      simp only [List.foldl_cons, List.get_eq_getElem, List.getElem_cons_zero]
      rw [foldl_set_get_of_not_mem, GoMap.get_set]
      · simp
      · intro hmem
        obtain ⟨j, hj, hje⟩ := List.getElem_of_mem hmem
        simp only [List.length_map] at hj
        have := hlast (j + 1) (by simp; omega) (by omega)
        simp only [List.get_eq_getElem, List.getElem_cons_succ, List.getElem_cons_zero] at this
        simp only [List.getElem_map] at hje
        exact this hje
    | succ i =>
      simp only [List.foldl_cons, List.get_eq_getElem, List.getElem_cons_succ]
      have hi' : i < rest.length := by simpa using hi
      have := ih (GoMap.set m e.1 e.2) i hi' (by
        intro j hj hij
        have := hlast (j + 1) (by simp; omega) (by omega)
        simpa using this)
      simpa using this

theorem deeplinkArgs_ok_eq (command : RaycastCommand) (args : List GoString)
    (dArgs : GoMap GoString) (h : deeplinkArgs command args = .ok dArgs) :
    dArgs = (List.zip (command.Arguments.map (fun a => a.Name)) args).foldl
      (fun acc e => GoMap.set acc e.1 e.2) [] := by
  rw [deeplinkArgs_eq] at h
  cases hm : firstMissing command args.length with
  | some a => rw [hm] at h; simp at h
  | none =>
    rw [hm] at h
    simp only [Except.ok.injEq] at h
    exact h.symm

theorem mem_keys_zip (names : List GoString) (args : List GoString) (name : GoString) :
    name ∈ (List.zip names args).map Prod.fst ↔
      ∃ i, ∃ hi : i < names.length, i < args.length ∧ names.get ⟨i, hi⟩ = name := by
  rw [map_fst_zip_take]
  constructor
  · intro h
    obtain ⟨i, hi, hie⟩ := List.getElem_of_mem h
    simp only [List.length_take] at hi
    rw [List.getElem_take] at hie
    exact ⟨i, by omega, by omega, by simpa using hie⟩
  · rintro ⟨i, hi, hk, rfl⟩
    rw [List.mem_iff_getElem]
    refine ⟨i, by simp only [List.length_take]; omega, ?_⟩
    rw [List.getElem_take]
    rfl

/-- C17: whatever the declared names, when the argument loop ends without an
error the keys of the map are distinct and are exactly the names of the
declared arguments at the supplied positions; a name is mapped to the value at
the last supplied position that carries it; and the map has at most as many
entries as values were supplied. -/
theorem duplicate_names_last_wins (command : RaycastCommand) (args : List GoString)
    (dArgs : GoMap GoString) (h : deeplinkArgs command args = .ok dArgs) :
    (dArgs.map Prod.fst).Nodup ∧
    (∀ name : GoString, name ∈ dArgs.map Prod.fst ↔
      ∃ i, ∃ hi : i < command.Arguments.length, i < args.length ∧
        (command.Arguments.get ⟨i, hi⟩).Name = name) ∧
    (∀ i (hi : i < command.Arguments.length) (hk : i < args.length),
      (∀ j (hj : j < command.Arguments.length), i < j → j < args.length →
        (command.Arguments.get ⟨j, hj⟩).Name ≠ (command.Arguments.get ⟨i, hi⟩).Name) →
      GoMap.get dArgs (command.Arguments.get ⟨i, hi⟩).Name = some (args.get ⟨i, hk⟩)) ∧
    dArgs.length ≤ args.length ∧ dArgs.length ≤ command.Arguments.length := by
  have hd := deeplinkArgs_ok_eq command args dArgs h
  refine ⟨deeplinkArgs_nodup command args dArgs h, ?_, ?_, ?_, ?_⟩
  · intro name
    rw [hd, foldl_set_keys, mem_keys_zip]
    simp only [List.map_nil, List.not_mem_nil, false_or, List.length_map, List.get_eq_getElem,
      List.getElem_map]
  · intro i hi hk hlast
    have hz : i < (List.zip (command.Arguments.map (fun a => a.Name)) args).length := by
      simp only [List.length_zip, List.length_map]; omega
    have := foldl_set_get_last (List.zip (command.Arguments.map (fun a => a.Name)) args) [] i hz
      (by
        intro j hj hij
        simp only [List.length_zip, List.length_map] at hj
        have := hlast j (by omega) hij (by omega)
        simpa using this)
    rw [hd]
    simpa using this
  · rw [hd]
    have := (foldl_set_length (List.zip (command.Arguments.map (fun a => a.Name)) args) []).1
    simp only [List.length_nil, List.length_zip, List.length_map] at this
    omega
  · rw [hd]
    have := (foldl_set_length (List.zip (command.Arguments.map (fun a => a.Name)) args) []).1
    simp only [List.length_nil, List.length_zip, List.length_map] at this
    omega

set_option maxRecDepth 100000 in
theorem duplicate_names_last_wins_witness :
    deeplinkArgs cmdAA [lit "1", lit "2"] = .ok [(lit "a", lit "2")] ∧
    GoMap.get [(lit "a", lit "2")] (lit "a") = some (lit "2") ∧
    ([(lit "a", lit "2")] : GoMap GoString).length ≤ [lit "1", lit "2"].length :=
  ⟨by decide,
   (duplicate_names_last_wins cmdAA [lit "1", lit "2"] [(lit "a", lit "2")] (by decide)).2.2.1
     1 (by decide) (by decide) (by decide),
   (duplicate_names_last_wins cmdAA [lit "1", lit "2"] [(lit "a", lit "2")]
     (by decide)).2.2.2.1⟩

/-! ## Presence of the `arguments` parameter -/

theorem deeplinkArgs_ne_nil_iff (command : RaycastCommand) (args : List GoString)
    (dArgs : GoMap GoString) (h : deeplinkArgs command args = .ok dArgs) :
    dArgs ≠ [] ↔ 0 < min args.length command.Arguments.length := by
  have hd := deeplinkArgs_ok_eq command args dArgs h
  have hl := foldl_set_length (List.zip (command.Arguments.map (fun a => a.Name)) args) []
  rw [← hd] at hl
  simp only [List.length_nil, List.length_zip, List.length_map, Nat.zero_add] at hl
  constructor
  · intro hne
    have : 0 < dArgs.length := List.length_pos.mpr hne
    omega
  · intro hpos
    apply List.length_pos.mp
    apply hl.2.1
    intro hz
    have : (List.zip (command.Arguments.map (fun a => a.Name)) args).length = 0 := by
      rw [hz]; rfl
    simp only [List.length_zip, List.length_map] at this
    omega

theorem query_get_arguments_nil (command : RaycastCommand) (stdin : Stdin) (q : Values)
    (h : query command [] stdin = .ok q) : GoMap.get q (lit "arguments") = none := by
  obtain ⟨context, _, hq⟩ := query_ok command [] stdin q h
  subst hq
  by_cases hm : command.Mode = lit "view" <;> by_cases hc : context.length > 0 <;>
    simp [hm, hc, Values.Set, GoMap.get_set, context_ne_arguments, launchType_ne_arguments,
      GoMap.get]

/-- C14: when the argument loop ends with the map `dArgs` and the query is built,
the query holds the key `arguments` exactly when `dArgs` is not empty, that is
exactly when at least one value is supplied and at least one argument is
declared; its single value is then the text `json.Marshal` writes for
`dArgs`. -/
theorem arguments_key_iff (command : RaycastCommand) (args : List GoString)
    (dArgs : GoMap GoString) (stdin : Stdin) (q : Values)
    (hd : deeplinkArgs command args = .ok dArgs) (hq : query command dArgs stdin = .ok q) :
    (Values.Has q (lit "arguments") = true ↔ dArgs ≠ []) ∧
    (dArgs ≠ [] ↔ 0 < min args.length command.Arguments.length) ∧
    (dArgs ≠ [] → GoMap.get q (lit "arguments") = some [jsonMarshal dArgs]) ∧
    (dArgs = [] → GoMap.get q (lit "arguments") = none) := by
  refine ⟨?_, deeplinkArgs_ne_nil_iff command args dArgs hd,
    fun hne => query_get_arguments command dArgs stdin q hq hne, ?_⟩
  · by_cases hne : dArgs = []
    · subst hne
      simp [Values.Has, query_get_arguments_nil command stdin q hq]
    · simp [Values.Has, query_get_arguments command dArgs stdin q hq hne, hne]
  · intro he
    subst he
    exact query_get_arguments_nil command stdin q hq

set_option maxRecDepth 100000 in
theorem arguments_key_iff_witness :
    deeplinkArgs cmdAB [lit "x"] = .ok [(lit "a", lit "x")] ∧
    query cmdAB [(lit "a", lit "x")] .terminal =
      .ok [(lit "arguments", [lit "\x7b\"a\":\"x\"\x7d"])] ∧
    GoMap.get [(lit "arguments", [lit "\x7b\"a\":\"x\"\x7d"])] (lit "arguments") =
      some [lit "\x7b\"a\":\"x\"\x7d"] ∧
    deeplinkArgs cmdView [lit "x"] = .ok [] ∧
    query cmdView [] .terminal = .ok [] ∧
    GoMap.get ([] : Values) (lit "arguments") = none :=
  ⟨by decide, by decide,
   ((arguments_key_iff cmdAB [lit "x"] [(lit "a", lit "x")] .terminal
      [(lit "arguments", [lit "\x7b\"a\":\"x\"\x7d"])] (by decide) (by decide)).2.2.1
      (by decide)).trans (by decide),
   by decide, by decide,
   (arguments_key_iff cmdView [lit "x"] [] .terminal [] (by decide) (by decide)).2.2.2 rfl⟩

/-! ## Empty values -/

/-- C18, the claim as written fails: the command `cmdAA` declares the name `a`
twice; with the values `""` and `"x"` the loop ends with the map `a -> "x"`,
so the empty value at position 0 has no entry `a -> ""` in the map. -/
theorem empty_value_entry_counterexample :
    deeplinkArgs cmdAA [[], lit "x"] = .ok [(lit "a", lit "x")] ∧
    GoMap.get [(lit "a", lit "x")] (lit "a") = some (lit "x") ∧
    GoMap.get [(lit "a", lit "x")] (lit "a") ≠ some [] ∧
    ¬ (∀ (command : RaycastCommand) (args : List GoString) (dArgs : GoMap GoString) (i : Nat)
        (hi : i < command.Arguments.length) (hk : i < args.length),
        deeplinkArgs command args = .ok dArgs → args.get ⟨i, hk⟩ = [] →
        GoMap.get dArgs (command.Arguments.get ⟨i, hi⟩).Name = some []) := by
  refine ⟨by decide, by decide, by decide, ?_⟩
  intro h
  have h1 := h cmdAA [[], lit "x"] [(lit "a", lit "x")] 0 (by decide) (by decide) (by decide) rfl
  revert h1
  decide

/-- C18, amended: an empty value counts as supplied.  For a position `i` below
the number of supplied values that holds a declared argument and the empty
string: a `missing required argument` error of the handler names a required
argument at a position from the number of supplied values on, never position
`i`; and when the loop ends without an error, the map is not empty, it holds
`name_i -> ""` unless a later supplied position carries the same name, and
every query built from it holds the `arguments` parameter. -/
theorem empty_value_counts_as_supplied (manifest : RaycastManifest) (command : RaycastCommand)
    (flags : Flags) (os : OS) (args : List GoString) (i : Nat)
    (hi : i < command.Arguments.length) (hk : i < args.length)
    (hempty : args.get ⟨i, hk⟩ = []) :
    (∀ name : GoString,
      (RunE manifest command flags os args).err =
          some (.errorf (lit "missing required argument: " ++ name)) →
        ∃ j, ∃ hj : j < command.Arguments.length, args.length ≤ j ∧ i < j ∧
          (command.Arguments.get ⟨j, hj⟩).Required = true ∧
          (command.Arguments.get ⟨j, hj⟩).Name = name) ∧
    (∀ dArgs : GoMap GoString, deeplinkArgs command args = .ok dArgs →
      dArgs ≠ [] ∧
      ((∀ j (hj : j < command.Arguments.length), i < j → j < args.length →
          (command.Arguments.get ⟨j, hj⟩).Name ≠ (command.Arguments.get ⟨i, hi⟩).Name) →
        GoMap.get dArgs (command.Arguments.get ⟨i, hi⟩).Name = some []) ∧
      (∀ q : Values, query command dArgs os.stdin = .ok q →
        GoMap.get q (lit "arguments") = some [jsonMarshal dArgs])) := by
  constructor
  · intro name h
    rw [missing_required_iff_aux] at h
    cases hm : firstMissing command args.length with
    | none => rw [hm] at h; simp at h
    | some a =>
      rw [hm] at h
      simp only [Option.map_some', Option.some.injEq] at h
      have hreq : a.Required = true := by
        have := List.find?_some hm
        simpa using this
      have hmem : a ∈ command.Arguments.drop args.length := List.mem_of_find?_eq_some hm
      obtain ⟨j, hj, hje⟩ := List.getElem_of_mem hmem
      have hj' : args.length + j < command.Arguments.length := by
        simp only [List.length_drop] at hj; omega
      rw [List.getElem_drop] at hje
      refine ⟨args.length + j, hj', by omega, by omega, ?_, ?_⟩
      · simp only [List.get_eq_getElem]; rw [hje]; exact hreq
      · simp only [List.get_eq_getElem]; rw [hje]; exact h
  · intro dArgs hd
    have hne : dArgs ≠ [] :=
      (deeplinkArgs_ne_nil_iff command args dArgs hd).mpr (by
        simp only [Nat.lt_min]; omega)
    refine ⟨hne, ?_, fun q hq => query_get_arguments command dArgs os.stdin q hq hne⟩
    intro hlast
    have hz : i < (List.zip (command.Arguments.map (fun a => a.Name)) args).length := by
      simp only [List.length_zip, List.length_map]; omega
    have := foldl_set_get_last (List.zip (command.Arguments.map (fun a => a.Name)) args) [] i hz
      (by
        intro j hj hij
        simp only [List.length_zip, List.length_map] at hj
        have := hlast j (by omega) hij (by omega)
        simpa using this)
    rw [deeplinkArgs_ok_eq command args dArgs hd]
    simp only [List.get_eq_getElem, List.getElem_zip, List.getElem_map] at this
    simp only [List.get_eq_getElem] at hempty
    rw [hempty] at this
    simpa using this

set_option maxRecDepth 100000 in
theorem empty_value_counts_as_supplied_witness :
    deeplinkArgs cmdAB [[]] = .ok [(lit "a", [])] ∧
    GoMap.get [(lit "a", ([] : GoString))] (lit "a") = some [] ∧
    query cmdAB [(lit "a", [])] osTerminal.stdin =
      .ok [(lit "arguments", [lit "\x7b\"a\":\"\"\x7d"])] ∧
    GoMap.get [(lit "arguments", [lit "\x7b\"a\":\"\"\x7d"])] (lit "arguments") =
      some [lit "\x7b\"a\":\"\"\x7d"] :=
  ⟨by decide,
   ((empty_value_counts_as_supplied manifestExt cmdAB { Print := true, Copy := false }
      osTerminal [[]] 0 (by decide) (by decide) rfl).2 [(lit "a", [])] (by decide)).2.1
      (by decide),
   by decide,
   (((empty_value_counts_as_supplied manifestExt cmdAB { Print := true, Copy := false }
      osTerminal [[]] 0 (by decide) (by decide) rfl).2 [(lit "a", [])] (by decide)).2.2
      [(lit "arguments", [lit "\x7b\"a\":\"\"\x7d"])] (by decide)).trans (by decide)⟩

/-! ## Interleaved required and optional arguments -/

theorem countP_take_le (l : List Argument) (n : Nat) :
    (l.take n).countP (fun a => a.Required) ≤ n := by
  calc (l.take n).countP (fun a => a.Required) ≤ (l.take n).length := List.countP_le_length _
    _ ≤ n := by simp [List.length_take]

theorem ordered_of_none_after_min (l : List Argument)
    (h : (l.drop (l.countP (fun a => a.Required))).find? (fun a => a.Required) = none) :
    l.Pairwise (fun a b => b.Required = true → a.Required = true) := by
  induction l with
  | nil => exact List.Pairwise.nil
  | cons x xs ih =>
    rw [List.find?_eq_none] at h
    cases hx : x.Required
    · -- an optional head: no argument after it is required
      have hc : (x :: xs).countP (fun a => a.Required) = xs.countP (fun a => a.Required) := by
        simp [List.countP_cons, hx]
      rw [hc] at h
      have hnone : ∀ b ∈ xs, b.Required = false := by
        by_contra hcon
        simp only [not_forall, Bool.not_eq_false] at hcon
        obtain ⟨b, hb, hbr⟩ := hcon
        have hpos : 0 < xs.countP (fun a => a.Required) :=
          List.countP_pos_iff.mpr ⟨b, hb, hbr⟩
        obtain ⟨c, hc'⟩ : ∃ c, xs.countP (fun a => a.Required) = c + 1 :=
          ⟨xs.countP (fun a => a.Required) - 1, by omega⟩
        rw [hc'] at h
        simp only [List.drop_succ_cons] at h
        have hzero : (xs.drop c).countP (fun a => a.Required) = 0 := by
          rw [List.countP_eq_zero]
          intro a ha
          exact h a ha
        have hsplit : xs.countP (fun a => a.Required) =
            (xs.take c).countP (fun a => a.Required) + (xs.drop c).countP (fun a => a.Required) := by
          rw [← List.countP_append, List.take_append_drop]
        have := countP_take_le xs c
        omega
      rw [List.pairwise_cons]
      refine ⟨fun b hb hbr => by rw [hnone b hb] at hbr; exact absurd hbr (by simp), ?_⟩
      apply List.Pairwise.imp_of_mem (l := xs) (R := fun _ _ => True)
      · intro a b _ hb _ hbr
        rw [hnone b hb] at hbr
        exact absurd hbr (by simp)
      · exact List.pairwise_of_forall (fun _ _ => trivial)
    · have hc : (x :: xs).countP (fun a => a.Required) =
          xs.countP (fun a => a.Required) + 1 := by
        simp [List.countP_cons, hx]
      rw [hc] at h
      simp only [List.drop_succ_cons] at h
      rw [List.pairwise_cons]
      exact ⟨fun _ _ _ => hx, ih (List.find?_eq_none.mpr h)⟩

/-- C15: in a command where a required argument (at position `j`) is declared
after an optional one (at position `i`), every list of exactly `minArgs` values passes the validator of
the positional arguments (`minArgs` lies between `minArgs` and `maxArgs`), and
the handler fails on it with `missing required argument`, without any dispatch
action. -/
theorem interleaved_fails_at_minArgs (manifest : RaycastManifest) (command : RaycastCommand)
    (flags : Flags) (os : OS) (args : List GoString) (i j : Nat)
    (hi : i < command.Arguments.length) (hj : j < command.Arguments.length) (hij : i < j)
    (hopt : (command.Arguments.get ⟨i, hi⟩).Required = false)
    (hreq : (command.Arguments.get ⟨j, hj⟩).Required = true)
    (hlen : args.length = minArgs command) :
    minArgs command ≤ args.length ∧ args.length ≤ maxArgs command ∧
    (NewCmdCommand manifest command).Args args = none ∧
    (∃ name : GoString,
      RunE manifest command flags os args =
        { effects := [],
          err := some (.errorf (lit "missing required argument: " ++ name)) }) := by
  have hmix : ¬ command.Arguments.Pairwise
      (fun a b => b.Required = true → a.Required = true) := by
    intro hp
    have := List.pairwise_iff_get.mp hp ⟨i, hi⟩ ⟨j, hj⟩ hij hreq
    rw [hopt] at this
    exact absurd this (by simp)
  have hle : minArgs command ≤ maxArgs command := by
    rw [minArgs_eq, maxArgs_eq]; exact List.countP_le_length _
  have hsome : ∃ a, firstMissing command args.length = some a := by
    cases hm : firstMissing command args.length with
    | some a => exact ⟨a, rfl⟩
    | none =>
      exfalso
      apply hmix
      apply ordered_of_none_after_min
      rw [← minArgs_eq, ← hlen]
      exact hm
  obtain ⟨a, ha⟩ := hsome
  refine ⟨by omega, by omega, ?_, a.Name, ?_⟩
  · have hmin := minArgs_eq command
    have hmax := maxArgs_eq command
    simp only [NewCmdCommand, MatchAll, MinimumNArgs, MaximumNArgs]
    have h1 : ¬ args.length < minArgs command := by omega
    have h2 : ¬ args.length > maxArgs command := by omega
    simp [h1, h2]
  · apply RunE_effects_of_args_error
    rw [deeplinkArgs_eq, ha]

set_option maxRecDepth 100000 in
theorem interleaved_fails_at_minArgs_witness :
    minArgs cmdBA = 1 ∧ maxArgs cmdBA = 2 ∧
    (NewCmdCommand manifestExt cmdBA).Args [lit "x"] = none ∧
    RunE manifestExt cmdBA { Print := true, Copy := false } osTerminal [lit "x"] =
      { effects := [], err := some (.errorf (lit "missing required argument: a")) } ∧
    ∃ name : GoString,
      RunE manifestExt cmdBA { Print := true, Copy := false } osTerminal [lit "x"] =
        { effects := [],
          err := some (.errorf (lit "missing required argument: " ++ name)) } :=
  ⟨by decide, by decide, by decide, by decide,
   (interleaved_fails_at_minArgs manifestExt cmdBA { Print := true, Copy := false } osTerminal
      [lit "x"] 0 1 (by decide) (by decide) (by decide) (by decide) (by decide)
      (by decide)).2.2.2⟩

/-! ## Loading the manifests -/

/-- The commands of an extension are the `NewCmdCommand` of its declared commands,
in declaration order. -/
theorem extensionLoop_eq (manifest : RaycastManifest) (cs : List RaycastCommand) :
    ∀ acc : List Command,
      extensionLoop manifest cs acc = acc ++ cs.map (NewCmdCommand manifest) := by
  induction cs with
  | nil => intro acc; simp [extensionLoop]
  | cons c rest ih => intro acc; simp [extensionLoop, ih]

theorem NewCmdExtension_commands (manifest : RaycastManifest) :
    (NewCmdExtension manifest).commands = manifest.Commands.map (NewCmdCommand manifest) := by
  simp [NewCmdExtension, extensionLoop_eq]

theorem rootLoop_eq (fs : FileSystem) (paths : List GoString) :
    ∀ rootCmd : RootCommand,
      rootLoop fs paths rootCmd =
        match firstFailure fs paths with
        | some e => .error e
        | none =>
          .ok { rootCmd with
                commands := rootCmd.commands ++ paths.filterMap (extensionOf fs) } := by
  induction paths with
  | nil => intro rootCmd; simp [rootLoop, firstFailure]
  | cons p rest ih =>
    intro rootCmd
    cases hl : loadManifest fs p with
    | error e => simp [rootLoop, firstFailure, hl]
    | ok manifest =>
      have hf : firstFailure fs (p :: rest) = firstFailure fs rest := by
        simp [firstFailure, hl]
      have he : extensionOf fs p = some (NewCmdExtension manifest) := by
        simp [extensionOf, hl]
      simp only [rootLoop, hl, ih, hf, List.filterMap_cons, he]
      cases firstFailure fs rest with
      | some e => rfl
      | none => simp

theorem filterMap_extensionOf_length (fs : FileSystem) (paths : List GoString)
    (h : firstFailure fs paths = none) :
    (paths.filterMap (extensionOf fs)).length = paths.length ∧
    paths.map (extensionOf fs) = (paths.filterMap (extensionOf fs)).map some := by
  induction paths with
  | nil => simp
  | cons p rest ih =>
    cases hl : loadManifest fs p with
    | error e => simp [firstFailure, hl] at h
    | ok manifest =>
      have hf : firstFailure fs rest = none := by
        simpa [firstFailure, hl] using h
      have he : extensionOf fs p = some (NewCmdExtension manifest) := by
        simp [extensionOf, hl]
      obtain ⟨h1, h2⟩ := ih hf
      simp [List.filterMap_cons, he, h1, h2]

/-- C16: once the home directory is known and the manifest paths are enumerated,
`NewCmdRoot` returns an error and no tree exactly when some path fails to open
or to decode, and the error is that of the first such path; otherwise it
returns a root whose extension commands are, in the order of the paths, the
`NewCmdExtension` of the manifest of every path, one for each path. -/
theorem NewCmdRoot_all_or_nothing (fs : FileSystem) (homedir : GoString)
    (paths : List GoString) (hh : fs.UserHomeDir = .ok homedir)
    (hg : fs.Glob homedir = .ok paths) :
    (∀ e : GoError, NewCmdRoot fs = .error e ↔ firstFailure fs paths = some e) ∧
    ((∃ p ∈ paths, ∃ e, loadManifest fs p = .error e) ↔ ∃ e, NewCmdRoot fs = .error e) ∧
    (∀ root : RootCommand, NewCmdRoot fs = .ok root →
      (∀ p ∈ paths, ∃ manifest, loadManifest fs p = .ok manifest) ∧
      root.commands.length = paths.length ∧
      paths.map (extensionOf fs) = root.commands.map some) ∧
    ((∀ p ∈ paths, ∃ manifest, loadManifest fs p = .ok manifest) →
      ∃ root : RootCommand, NewCmdRoot fs = .ok root) := by
  have hroot : NewCmdRoot fs =
      match firstFailure fs paths with
      | some e => .error e
      | none =>
        .ok { Use := lit "ray", Short := lit "A command line interface for Raycast",
              Version := Version ++ lit " (" ++ Date ++ lit ")",
              commands := paths.filterMap (extensionOf fs) } := by
    simp only [NewCmdRoot, hh, hg, rootLoop_eq]
    cases firstFailure fs paths <;> simp
  have hfail : ∀ e, firstFailure fs paths = some e →
      ∃ p ∈ paths, loadManifest fs p = .error e := by
    intro e he
    obtain ⟨p, hp, hpe⟩ := List.exists_of_findSome?_eq_some he
    refine ⟨p, hp, ?_⟩
    cases hl : loadManifest fs p with
    | error e' => rw [hl] at hpe; simp only [Option.some.injEq] at hpe; rw [hpe]
    | ok m => rw [hl] at hpe; simp at hpe
  have hnone : firstFailure fs paths = none →
      ∀ p ∈ paths, ∃ manifest, loadManifest fs p = .ok manifest := by
    intro hn p hp
    have := List.findSome?_eq_none_iff.mp hn p hp
    cases hl : loadManifest fs p with
    | error e' => rw [hl] at this; simp at this
    | ok m => exact ⟨m, rfl⟩
  refine ⟨?_, ?_, ?_, ?_⟩
  · intro e
    rw [hroot]
    cases firstFailure fs paths <;> simp
  · constructor
    · rintro ⟨p, hp, e, he⟩
      cases hf : firstFailure fs paths with
      | some e' => exact ⟨e', by rw [hroot, hf]⟩
      | none =>
        obtain ⟨m, hm⟩ := hnone hf p hp
        rw [hm] at he
        simp at he
    · rintro ⟨e, he⟩
      rw [hroot] at he
      cases hf : firstFailure fs paths with
      | some e' =>
        obtain ⟨p, hp, hpe⟩ := hfail e' hf
        exact ⟨p, hp, e', hpe⟩
      | none => rw [hf] at he; simp at he
  · intro root hr
    rw [hroot] at hr
    cases hf : firstFailure fs paths with
    | some e' => rw [hf] at hr; simp at hr
    | none =>
      rw [hf] at hr
      simp only [Except.ok.injEq] at hr
      obtain ⟨h1, h2⟩ := filterMap_extensionOf_length fs paths hf
      refine ⟨hnone hf, ?_, ?_⟩
      · rw [← hr]; exact h1
      · rw [← hr]; exact h2
  · intro hall
    cases hf : firstFailure fs paths with
    | some e' =>
      obtain ⟨p, hp, hpe⟩ := hfail e' hf
      obtain ⟨m, hm⟩ := hall p hp
      rw [hm] at hpe
      simp at hpe
    | none => exact ⟨_, by rw [hroot, hf]⟩

set_option maxRecDepth 100000 in
theorem NewCmdRoot_all_or_nothing_witness :
    firstFailure (fsWith [pathExt, pathBad, pathExt]) [pathExt, pathBad, pathExt] =
      some (.jsonDecode (lit "unexpected end of JSON input")) ∧
    NewCmdRoot (fsWith [pathExt, pathBad, pathExt]) =
      .error (.jsonDecode (lit "unexpected end of JSON input")) ∧
    ∃ root : RootCommand, NewCmdRoot (fsWith [pathExt, pathExt]) = .ok root :=
  ⟨by decide,
   ((NewCmdRoot_all_or_nothing (fsWith [pathExt, pathBad, pathExt]) (lit "/home/u")
      [pathExt, pathBad, pathExt] rfl rfl).1 _).mpr (by decide),
   (NewCmdRoot_all_or_nothing (fsWith [pathExt, pathExt]) (lit "/home/u")
      [pathExt, pathExt] rfl rfl).2.2.2 (by
        intro p hp
        have hp' : p = pathExt := by simpa using hp
        subst hp'
        exact ⟨manifestExt, by decide⟩)⟩

/-! ## The order of the keys -/

theorem bytesLe_total (a : GoString) : ∀ b : GoString, bytesLe a b = true ∨ bytesLe b a = true := by
  induction a with
  | nil => intro b; exact Or.inl (by cases b <;> rfl)
  | cons x s ih =>
    intro b
    cases b with
    | nil => exact Or.inr rfl
    | cons y t =>
      simp only [bytesLe]
      by_cases h1 : x < y
      · simp [h1]
      · by_cases h2 : y < x
        · simp [h2]
        · simp only [h1, h2, if_false]
          exact ih t

theorem bytesLe_trans (a : GoString) :
    ∀ b c : GoString, bytesLe a b = true → bytesLe b c = true → bytesLe a c = true := by
  induction a with
  | nil => intro b c _ _; cases c <;> rfl
  | cons x s ih =>
    intro b c hab hbc
    cases b with
    | nil => simp [bytesLe] at hab
    | cons y t =>
      cases c with
      | nil => simp [bytesLe] at hbc
      | cons z u =>
        simp only [bytesLe] at hab hbc ⊢
        by_cases h1 : x < y
        · by_cases h3 : y < z
          · have : x < z := lt_trans h1 h3
            simp [this]
          · by_cases h4 : z < y
            · simp [h3, h4] at hbc
            · have hyz : y = z := le_antisymm (not_lt.mp h4) (not_lt.mp h3)
              subst hyz
              simp [h1]
        · by_cases h2 : y < x
          · simp [h1, h2] at hab
          · have hxy : x = y := le_antisymm (not_lt.mp h2) (not_lt.mp h1)
            subst hxy
            simp only [h1, if_false] at hab
            by_cases h3 : x < z
            · simp [h3]
            · by_cases h4 : z < x
              · simp [h3, h4] at hbc
              · simp only [h3, h4, if_false] at hbc ⊢
                exact ih t u hab hbc

theorem bytesLe_antisymm (a : GoString) :
    ∀ b : GoString, bytesLe a b = true → bytesLe b a = true → a = b := by
  induction a with
  | nil => intro b _ hba; cases b with
    | nil => rfl
    | cons y t => simp [bytesLe] at hba
  | cons x s ih =>
    intro b hab hba
    cases b with
    | nil => simp [bytesLe] at hab
    | cons y t =>
      simp only [bytesLe] at hab hba
      by_cases h1 : x < y
      · have h2 : ¬ y < x := not_lt.mpr (le_of_lt h1)
        simp [h1, h2] at hba
      · by_cases h2 : y < x
        · simp [h1, h2] at hab
        · have hxy : x = y := le_antisymm (not_lt.mp h2) (not_lt.mp h1)
          subst hxy
          simp only [h1, if_false] at hab hba
          rw [ih t hab hba]

/-- Two maps with the same entries and distinct keys are visited in the same
order once their keys are sorted. -/
theorem GoMap.sorted_eq_of_perm {V : Type} (m m' : GoMap V) (hp : List.Perm m m')
    (hnd : (m.map Prod.fst).Nodup) : GoMap.sorted m = GoMap.sorted m' := by
  have hnd' : (m'.map Prod.fst).Nodup := (List.Perm.nodup_iff (hp.map Prod.fst)).mp hnd
  haveI : IsTotal (GoString × V) (fun a b => bytesLe a.1 b.1 = true) :=
    ⟨fun a b => bytesLe_total a.1 b.1⟩
  haveI : IsTrans (GoString × V) (fun a b => bytesLe a.1 b.1 = true) :=
    ⟨fun a b c => bytesLe_trans a.1 b.1 c.1⟩
  haveI : IsAntisymm (GoString × V) (fun a b => bytesLe a.1 b.1 = true ∧ a.1 ≠ b.1) :=
    ⟨fun a b hab hba => absurd (bytesLe_antisymm a.1 b.1 hab.1 hba.1) hab.2⟩
  have strict : ∀ l : GoMap V, (l.map Prod.fst).Nodup →
      List.Sorted (fun a b => bytesLe a.1 b.1 = true ∧ a.1 ≠ b.1) (GoMap.sorted l) := by
    intro l hl
    have h1 : List.Sorted (fun a b : GoString × V => bytesLe a.1 b.1 = true) (GoMap.sorted l) :=
      List.sorted_insertionSort _ l
    have h2 : ((GoMap.sorted l).map Prod.fst).Nodup :=
      (List.Perm.nodup_iff ((GoMap.sorted_perm l).map Prod.fst)).mpr hl
    have h3 : List.Pairwise (fun a b : GoString × V => a.1 ≠ b.1) (GoMap.sorted l) :=
      List.pairwise_map.mp h2
    exact List.Pairwise.and h1 h3
  exact List.eq_of_perm_of_sorted
    (((GoMap.sorted_perm m).trans hp).trans (GoMap.sorted_perm m').symm)
    (strict m hnd) (strict m' hnd')

theorem Encode_eq_of_perm (q q' : Values) (hp : List.Perm q q')
    (hnd : (q.map Prod.fst).Nodup) : q.Encode = q'.Encode := by
  simp only [Values.Encode, hp.length_eq, GoMap.sorted_eq_of_perm q q' hp hnd]

set_option maxRecDepth 100000 in
theorem key_order_facts :
    bytesLe (lit "arguments") (lit "context") = true ∧
    bytesLe (lit "arguments") (lit "launchType") = true ∧
    bytesLe (lit "context") (lit "launchType") = true ∧
    bytesLe (lit "context") (lit "arguments") = false ∧
    bytesLe (lit "launchType") (lit "arguments") = false ∧
    bytesLe (lit "launchType") (lit "context") = false := by
  decide

/-- The entries of the query in key order. -/
theorem query_sorted (command : RaycastCommand) (dArgs : GoMap GoString) (stdin : Stdin)
    (q : Values) (h : query command dArgs stdin = .ok q) :
    GoMap.sorted q = (queryPairs command dArgs stdin).map (fun p => (p.1, [p.2])) := by
  obtain ⟨context, hc, hq⟩ := query_ok command dArgs stdin q h
  obtain ⟨k1, k2, k3, k4, k5, k6⟩ := key_order_facts
  have n1 := arguments_ne_launchType
  have n2 := launchType_ne_arguments
  have n3 := context_ne_launchType
  have n4 := launchType_ne_context
  have n5 := context_ne_arguments
  have n6 := arguments_ne_context
  have hpairs : queryPairs command dArgs stdin =
      (if dArgs.length > 0 then [(lit "arguments", jsonMarshal dArgs)] else []) ++
      (if context.length > 0 then [(lit "context", context)] else []) ++
      (if command.Mode ≠ lit "view" then [(lit "launchType", lit "background")] else []) := by
    rcases hc with ⟨h1, h2⟩ | h1
    · subst h1; subst h2; simp [queryPairs]
    · subst h1; simp [queryPairs]
  rw [hpairs, hq]
  by_cases hm : command.Mode = lit "view" <;> by_cases ha : dArgs.length > 0 <;>
    by_cases hx : context.length > 0 <;>
    simp [hm, ha, hx, Values.Set, GoMap.set, GoMap.sorted, List.insertionSort,
      List.orderedInsert, k1, k2, k3, k4, k5, k6, n1, n2, n3, n4, n5, n6]

theorem Encode_eq_encPairs (L : List (GoString × GoString)) (q : Values)
    (h : GoMap.sorted q = L.map (fun p => (p.1, [p.2]))) : q.Encode = encPairs L := by
  simp only [Values.Encode]
  split
  · rename_i h0
    have hq : q = [] := List.length_eq_zero.mp h0
    subst hq
    have : L = [] := by
      have h1 : GoMap.sorted ([] : Values) = [] := rfl
      rw [h1] at h
      exact List.map_eq_nil_iff.mp h.symm
    subst this
    rfl
  · rw [h, encodeKeys_single]
    split
    · rename_i h1; subst h1; rfl
    · rfl

/-- C11: the query string of an invocation is the pairs `arguments`, `context`,
`launchType`, each present under its condition and at most once, written in
this order, which is the alphabetical order of the keys; it is the `RawQuery`
of the URL; and the encoded string depends only on the set of pairs: two
queries with the same entries and distinct keys encode to the same string. -/
theorem query_alphabetical (manifest : RaycastManifest) (command : RaycastCommand)
    (dArgs : GoMap GoString) (stdin : Stdin) (q : Values)
    (h : query command dArgs stdin = .ok q) :
    q.Encode = encPairs (queryPairs command dArgs stdin) ∧
    List.Sublist ((queryPairs command dArgs stdin).map Prod.fst)
      [lit "arguments", lit "context", lit "launchType"] ∧
    List.Pairwise (fun a b : GoString => bytesLe a b = true ∧ a ≠ b)
      ((queryPairs command dArgs stdin).map Prod.fst) ∧
    (∀ u : URL, deeplinkUrl manifest command q = .ok u → u.RawQuery = q.Encode) ∧
    (∀ q' : Values, List.Perm q q' → q'.Encode = q.Encode) ∧
    (∀ q1 q2 : Values, (q1.map Prod.fst).Nodup → List.Perm q1 q2 → q1.Encode = q2.Encode) := by
  have hsub : List.Sublist ((queryPairs command dArgs stdin).map Prod.fst)
      [lit "arguments", lit "context", lit "launchType"] := by
    have e1 : ∀ (c : Prop) [Decidable c] (p : GoString × GoString),
        List.Sublist ((if c then [p] else []).map Prod.fst) [p.1] := by
      intro c _ p
      split
      · exact List.Sublist.refl _
      · exact List.nil_sublist _
    cases stdin with
    | terminal =>
      simp only [queryPairs, List.map_append]
      exact ((e1 (dArgs.length > 0) (lit "arguments", jsonMarshal dArgs)).append
        (List.nil_sublist [lit "context"])).append
        (e1 (command.Mode ≠ lit "view") (lit "launchType", lit "background"))
    | failing msg =>
      simp only [queryPairs, List.map_append]
      exact ((e1 (dArgs.length > 0) (lit "arguments", jsonMarshal dArgs)).append
        (List.nil_sublist [lit "context"])).append
        (e1 (command.Mode ≠ lit "view") (lit "launchType", lit "background"))
    | piped context =>
      simp only [queryPairs, List.map_append]
      exact ((e1 (dArgs.length > 0) (lit "arguments", jsonMarshal dArgs)).append
        (e1 (context.length > 0) (lit "context", context))).append
        (e1 (command.Mode ≠ lit "view") (lit "launchType", lit "background"))
  have hsorted : List.Pairwise (fun a b : GoString => bytesLe a b = true ∧ a ≠ b)
      [lit "arguments", lit "context", lit "launchType"] := by
    obtain ⟨k1, k2, k3, _⟩ := key_order_facts
    simp [k1, k2, k3, arguments_ne_context, arguments_ne_launchType, context_ne_launchType]
  obtain ⟨hnd, _⟩ := query_single_valued command dArgs stdin q h
  refine ⟨Encode_eq_encPairs _ q (query_sorted command dArgs stdin q h), hsub,
    List.Pairwise.sublist hsub hsorted, ?_, ?_, ?_⟩
  · intro u hu
    simp only [deeplinkUrl] at hu
    split at hu
    · simp at hu
    · simp only [Except.ok.injEq] at hu
      rw [← hu]
  · intro q' hp
    exact (Encode_eq_of_perm q q' hp hnd).symm
  · intro q1 q2 h1 hp
    exact Encode_eq_of_perm q1 q2 hp h1

set_option maxRecDepth 100000 in
theorem query_alphabetical_witness :
    query cmdBA [(lit "b", lit "x"), (lit "a", lit "y")] (.piped (lit "hello")) =
      .ok [(lit "launchType", [lit "background"]),
           (lit "arguments", [lit "\x7b\"a\":\"y\",\"b\":\"x\"\x7d"]),
           (lit "context", [lit "hello"])] ∧
    Values.Encode [(lit "launchType", [lit "background"]),
           (lit "arguments", [lit "\x7b\"a\":\"y\",\"b\":\"x\"\x7d"]),
           (lit "context", [lit "hello"])] =
      lit "arguments=%7B%22a%22%3A%22y%22%2C%22b%22%3A%22x%22%7D&context=hello&launchType=background" :=
  ⟨by decide,
   ((query_alphabetical manifestExt cmdBA [(lit "b", lit "x"), (lit "a", lit "y")]
      (.piped (lit "hello")) _ (by decide)).1).trans (by decide)⟩

/-! ## The deeplink format -/

theorem deeplinkTail_safe (manifest : RaycastManifest) (command : RaycastCommand)
    (hA : ∀ b ∈ manifest.Author, unreserved b = true)
    (hN : ∀ b ∈ manifest.Name, unreserved b = true)
    (hC : ∀ b ∈ command.Name, unreserved b = true) :
    ∀ b ∈ deeplinkTail manifest command, (unreserved b || decide (b = ch '/')) = true := by
  intro b hb
  simp only [deeplinkTail, List.mem_append, List.mem_singleton] at hb
  rcases hb with (((hb | hb) | hb) | hb) | hb
  · simp [hA b hb]
  · simp [hb]
  · simp [hN b hb]
  · simp [hb]
  · simp [hC b hb]

/-- The deeplink of unreserved names is the formatted text, followed by `?` and
the encoded query when the query is not empty. -/
theorem deeplink_String_safe (manifest : RaycastManifest) (command : RaycastCommand)
    (q : Values)
    (hA : ∀ b ∈ manifest.Author, unreserved b = true)
    (hN : ∀ b ∈ manifest.Name, unreserved b = true)
    (hC : ∀ b ∈ command.Name, unreserved b = true) :
    (deeplinkUrl manifest command q).map URL.String =
      .ok (lit "raycast://extensions/" ++ manifest.Author ++ lit "/" ++ manifest.Name ++
        lit "/" ++ command.Name ++ (if q.Encode ≠ [] then ch '?' :: q.Encode else [])) := by
  have hsafe := deeplinkTail_safe manifest command hA hN hC
  have hstr : lit "raycast://extensions/" ++ deeplinkTail manifest command =
      lit "raycast://extensions/" ++ manifest.Author ++ lit "/" ++ manifest.Name ++
        lit "/" ++ command.Name := by
    have h1 : lit "/" = [ch '/'] := by decide
    simp [deeplinkTail, h1]
  simp only [deeplinkUrl, ParseDeeplink_pathSafe _ hsafe, Except.map]
  rw [String_pathSafe _ _ hsafe, hstr]

set_option maxRecDepth 100000 in
theorem format_literals :
    QueryEscape (lit "arguments") = lit "arguments" ∧
    QueryEscape (lit "context") = lit "context" ∧
    QueryEscape (lit "launchType") = lit "launchType" ∧
    QueryEscape (lit "background") = lit "background" ∧
    lit "arguments=" = lit "arguments" ++ [ch '='] ∧
    lit "&context=" = ch '&' :: (lit "context" ++ [ch '=']) ∧
    lit "&launchType=background" = ch '&' :: (lit "launchType" ++ ch '=' :: lit "background") ∧
    lit "?arguments=" = ch '?' :: (lit "arguments" ++ [ch '=']) := by
  decide

/-- C12, the claim as written fails: for the extension `ext` by `me`, the command
`cmd` of mode `View` with the values `x` and `y` and the piped context
`hello`, the printed deeplink has its parameters in the order `arguments`,
`context`, `launchType`; it is not the text with `launchType` first. -/
theorem deeplink_format_counterexample :
    RunE manifestExt cmdBA { Print := true, Copy := false } (osPiped (lit "hello"))
        [lit "x", lit "y"] =
      { effects := [.print (lit "raycast://extensions/me/ext/cmd?arguments=%7B%22a%22%3A%22y%22%2C%22b%22%3A%22x%22%7D&context=hello&launchType=background")],
        err := none } ∧
    deeplinkArgs cmdBA [lit "x", lit "y"] = .ok [(lit "b", lit "x"), (lit "a", lit "y")] ∧
    lit "raycast://extensions/me/ext/cmd?arguments=%7B%22a%22%3A%22y%22%2C%22b%22%3A%22x%22%7D&context=hello&launchType=background" ≠
      specDeeplinkFormat (lit "me") (lit "ext") (lit "cmd")
        (jsonMarshal [(lit "b", lit "x"), (lit "a", lit "y")]) (lit "hello") := by
  set_option maxRecDepth 100000 in decide

/-- C12, amended: when all three parameters are present, the query string is
`arguments=<json>&context=<context>&launchType=background`, both values
percent-encoded, in this alphabetical order of the keys; it is the `RawQuery`
of the URL; and when author, extension name and command name consist of
unreserved characters the deeplink is
`raycast://extensions/<author>/<extension>/<command>?` followed by it. -/
theorem deeplink_format_alphabetical (manifest : RaycastManifest) (command : RaycastCommand)
    (dArgs : GoMap GoString) (context : GoString) (q : Values)
    (hmode : command.Mode ≠ lit "view") (hne : dArgs ≠ []) (hctx : context ≠ [])
    (hq : query command dArgs (.piped context) = .ok q) :
    q.Encode = lit "arguments=" ++ QueryEscape (jsonMarshal dArgs) ++ lit "&context=" ++
      QueryEscape context ++ lit "&launchType=background" ∧
    (∀ u : URL, deeplinkUrl manifest command q = .ok u → u.RawQuery = q.Encode) ∧
    ((∀ b ∈ manifest.Author, unreserved b = true) → (∀ b ∈ manifest.Name, unreserved b = true) →
      (∀ b ∈ command.Name, unreserved b = true) →
      (deeplinkUrl manifest command q).map URL.String =
        .ok (lit "raycast://extensions/" ++ manifest.Author ++ lit "/" ++ manifest.Name ++
          lit "/" ++ command.Name ++ lit "?arguments=" ++ QueryEscape (jsonMarshal dArgs) ++
          lit "&context=" ++ QueryEscape context ++ lit "&launchType=background")) := by
  obtain ⟨f1, f2, f3, f4, f5, f6, f7, f8⟩ := format_literals
  have ha : dArgs.length > 0 := List.length_pos.mpr hne
  have hc : context.length > 0 := List.length_pos.mpr hctx
  have henc : q.Encode = lit "arguments=" ++ QueryEscape (jsonMarshal dArgs) ++ lit "&context=" ++
      QueryEscape context ++ lit "&launchType=background" := by
    rw [Encode_eq_encPairs _ q (query_sorted command dArgs (.piped context) q hq)]
    simp only [queryPairs, ha, hc, hmode, if_true, ne_eq, not_false_eq_true, List.cons_append,
      List.nil_append, encPairs, encPair, f1, f2, f3, f4, f5, f6, f7]
    simp
  refine ⟨henc, ?_, ?_⟩
  · intro u hu
    simp only [deeplinkUrl] at hu
    split at hu
    · simp at hu
    · simp only [Except.ok.injEq] at hu
      rw [← hu]
  · intro hA hN hC
    rw [deeplink_String_safe manifest command q hA hN hC]
    have hne' : q.Encode ≠ [] := by
      rw [henc, f5]; simp
    rw [if_pos hne', henc, f8, f5]
    simp

set_option maxRecDepth 100000 in
theorem deeplink_format_alphabetical_witness :
    Values.Encode [(lit "launchType", [lit "background"]),
           (lit "arguments", [lit "\x7b\"a\":\"y\",\"b\":\"x\"\x7d"]),
           (lit "context", [lit "hello"])] =
      lit "arguments=%7B%22a%22%3A%22y%22%2C%22b%22%3A%22x%22%7D&context=hello&launchType=background" :=
  ((deeplink_format_alphabetical manifestExt cmdBA [(lit "b", lit "x"), (lit "a", lit "y")]
      (lit "hello") _ (by decide) (by decide) (by decide)
      (show query cmdBA [(lit "b", lit "x"), (lit "a", lit "y")] (.piped (lit "hello")) =
        .ok [(lit "launchType", [lit "background"]),
           (lit "arguments", [lit "\x7b\"a\":\"y\",\"b\":\"x\"\x7d"]),
           (lit "context", [lit "hello"])] by decide)).1).trans (by decide)

end Ray
